import Mathlib

/-!
# OpenWith: application resolution for a file (Linux provider)

A shallow embedding of `OpenWith/src/LinuxAppProvider.cpp` and
`LinuxAppProvider.hpp`, followed by theorems about it.

Strings (`std::string`, `std::wstring`) are lists of characters.  Loops over a
string become recursion over the list of characters that is still to be read,
with the loop's local variables as explicit arguments; `push_back` on a string
or vector is `++ [x]`.
-/

/-! ## Characters the sources name by a literal -/

/-- The double quote character. -/
def dquote : Char := Char.ofNat 34

/-- The single quote character. -/
def squote : Char := Char.ofNat 39

/-- The backslash character. -/
def backslash : Char := Char.ofNat 92

/-- The backtick character. -/
def backtick : Char := Char.ofNat 96

/-- The dollar character. -/
def dollar : Char := Char.ofNat 36

/-- The percent character. -/
def percent : Char := Char.ofNat 37

/-! ## Data model (`common.hpp`, `LinuxAppProvider.hpp`) -/

/-- The record `CandidateInfo` of `common.hpp`. -/
structure CandidateInfo where
  terminal : Bool
  name : List Char
  exec : List Char
  mimetype : List Char
  desktop_file : List Char
deriving DecidableEq, Repr

/-- The record `Token` of `LinuxAppProvider.hpp`. -/
structure Token where
  text : List Char
  quoted : Bool
  single_quoted : Bool
deriving DecidableEq, Repr

/-- Lexicographic order of two wide strings by character code, the order of
`std::wstring::operator<`. -/
def wstring_lt : List Char → List Char → Bool
  | _, [] => false
  | [], _ :: _ => true
  | a :: as, b :: bs =>
    if a.toNat < b.toNat then true
    else if b.toNat < a.toNat then false
    else wstring_lt as bs

/-- The record `RankedCandidate` of `LinuxAppProvider.hpp`. -/
structure RankedCandidate where
  info : CandidateInfo
  rank : Int
  is_default : Bool
deriving DecidableEq, Repr

/-- `RankedCandidate::operator<`. -/
def RankedCandidate.lt (a other : RankedCandidate) : Bool :=
  if a.is_default ≠ other.is_default then a.is_default
  else if a.rank ≠ other.rank then decide (a.rank < other.rank)
  else wstring_lt a.info.name other.info.name

/-- What the provider calls and the sources do not contain: far2l helpers, the
C and C++ libraries, the file system and the external commands. -/
structure Host where
  /-- `POpen` of far2l: the output captured from a shell command, or `none`
  when it returns `false`. -/
  POpen : List Char → Option (List Char)
  /-- `StrWide2MB` of far2l. -/
  StrWide2MB : List Char → List Char
  /-- `StrMB2Wide` of far2l. -/
  StrMB2Wide : List Char → List Char
  /-- `towlower` of the C library. -/
  towlower : Char → Char
  /-- `getenv`: the value of a variable, or `none` for a null pointer. -/
  getenv : List Char → Option (List Char)
  /-- `GetMyHome` of far2l. -/
  GetMyHome : List Char
  /-- `stat` succeeds on the path and reports a directory. -/
  isDirectory : List Char → Bool
  /-- `opendir` and `readdir`: the names in a directory in the order they are
  returned, or `none` when `opendir` fails. -/
  readdir : List Char → Option (List (List Char))
  /-- `std::ifstream`: the characters of a file, or `none` when it cannot be
  opened.  Read errors after opening are not modelled. -/
  readFile : List Char → Option (List Char)
  /-- `std::sort` with `RankedCandidate::operator<`. -/
  stdSort : List RankedCandidate → List RankedCandidate


namespace LinuxAppProvider

/-! ## Tokenizer (`TokenizeDesktopExec`, lines 327-395) -/

/-- `IsDesktopWhitespace`: space, tab, newline, carriage return, form feed,
vertical tab. -/
def IsDesktopWhitespace (c : Char) : Bool :=
  c == ' ' || c == '\t' || c == '\n' || c == '\r' || c == Char.ofNat 12 || c == Char.ofNat 11

/-- The local variables of `TokenizeDesktopExec`. -/
structure TokState where
  tokens : List Token
  cur : List Char
  in_double_quotes : Bool
  in_single_quotes : Bool
  cur_quoted : Bool
  cur_single_quoted : Bool
  prev_backslash : Bool
deriving DecidableEq, Repr

/-- The values of the local variables before the loop. -/
def TokState.init : TokState :=
  { tokens := [], cur := [], in_double_quotes := false, in_single_quotes := false,
    cur_quoted := false, cur_single_quoted := false, prev_backslash := false }

/-- One iteration of the `for` loop of `TokenizeDesktopExec` (lines 344-380),
on the character `c`. -/
def tokStep (s : TokState) (c : Char) : TokState :=
  if s.prev_backslash = true then
    { s with cur := s.cur ++ [backslash, c], prev_backslash := false }
  else if c = backslash then
    { s with prev_backslash := true }
  else if c = dquote ∧ s.in_single_quotes = false then
    { s with in_double_quotes := !s.in_double_quotes, cur_quoted := true }
  else if c = squote ∧ s.in_double_quotes = false then
    { s with in_single_quotes := !s.in_single_quotes, cur_single_quoted := true }
  else if s.in_double_quotes = false ∧ s.in_single_quotes = false ∧ IsDesktopWhitespace c = true then
    if s.cur ≠ [] ∨ s.cur_quoted = true ∨ s.cur_single_quoted = true then
      { s with tokens := s.tokens ++ [⟨s.cur, s.cur_quoted, s.cur_single_quoted⟩],
               cur := [], cur_quoted := false, cur_single_quoted := false }
    else s
  else
    { s with cur := s.cur ++ [c] }

/-- The code after the loop of `TokenizeDesktopExec` (lines 383-394). -/
def tokFinish (s : TokState) : List Token :=
  let cur := if s.prev_backslash = true then s.cur ++ [backslash] else s.cur
  if cur ≠ [] ∨ s.cur_quoted = true ∨ s.cur_single_quoted = true then
    if (s.cur_quoted = true ∧ s.in_double_quotes = true)
        ∨ (s.cur_single_quoted = true ∧ s.in_single_quotes = true) then
      []
    else
      s.tokens ++ [⟨cur, s.cur_quoted, s.cur_single_quoted⟩]
  else
    s.tokens

/-- `TokenizeDesktopExec`: the loop over the characters of `str`, then the
code after the loop.  The empty list is also the failure value. -/
def TokenizeDesktopExec (str : List Char) : List Token :=
  tokFinish (str.foldl tokStep TokState.init)

/-! ## Unescaping (`UndoEscapes`, lines 398-419) -/

/-- The `for` loop of `UndoEscapes` over the index `i`, with the string built
so far in `result`.  The first argument bounds the number of iterations; the
loop is started with the length of the text, which it never exceeds because
`i` grows in every iteration. -/
def UndoEscapesLoop (text : List Char) : Nat → Nat → List Char → List Char
  | 0, _, result => result
  | fuel + 1, i, result =>
    if i < text.length then
      if text.getD i ' ' = backslash ∧ i + 1 < text.length then
        let next := text.getD (i + 1) ' '
        if next = dquote ∨ next = squote ∨ next = backtick ∨ next = dollar ∨ next = backslash then
          UndoEscapesLoop text fuel (i + 1 + 1) (result ++ [next])
        else
          UndoEscapesLoop text fuel (i + 1 + 1) (result ++ [backslash, next])
      else
        UndoEscapesLoop text fuel (i + 1) (result ++ [text.getD i ' '])
    else
      result

/-- `UndoEscapes`: only the text of the token is read. -/
def UndoEscapes (token : Token) : List Char :=
  UndoEscapesLoop token.text token.text.length 0 []

/-! ## Field codes (`ExpandFieldCodes`, lines 422-457) -/

/-- The `for` loop of `ExpandFieldCodes` on the characters still to be read,
with the text built so far in `cur`; `none` is `return false`. -/
def ExpandLoop (candidate : CandidateInfo) (pathname : List Char) :
    List Char → List Char → Option (List Char)
  | [], cur => some cur
  | c :: rest, cur =>
    if c = percent then
      match rest with
      | [] => none
      | code :: rest2 =>
        if code = 'f' ∨ code = 'F' ∨ code = 'u' ∨ code = 'U' then
          ExpandLoop candidate pathname rest2 (cur ++ pathname)
        else if code = 'c' then
          ExpandLoop candidate pathname rest2 (cur ++ candidate.name)
        else if code = percent then
          ExpandLoop candidate pathname rest2 (cur ++ [percent])
        else if code = 'n' ∨ code = 'd' ∨ code = 'D' ∨ code = 't' ∨ code = 'T' ∨ code = 'v'
            ∨ code = 'm' ∨ code = 'k' ∨ code = 'i' then
          ExpandLoop candidate pathname rest2 cur
        else
          none
    else
      ExpandLoop candidate pathname rest (cur ++ [c])

/-- `ExpandFieldCodes`: `none` when the function returns `false`, otherwise the
arguments it pushed onto `out_args` (none, or the one text built by the loop). -/
def ExpandFieldCodes (candidate : CandidateInfo) (pathname unescaped : List Char) :
    Option (List (List Char)) :=
  match ExpandLoop candidate pathname unescaped [] with
  | none => none
  | some cur => if cur ≠ [] then some [cur] else some []

/-! ## Rendering (`EscapeArg`, lines 460-474) -/

/-- The body of the loop of `EscapeArg` on the character `c`. -/
def escStep (out : List Char) (c : Char) : List Char :=
  if c = backslash ∨ c = dquote ∨ c = dollar ∨ c = backtick then
    out ++ [backslash, c]
  else
    out ++ [c]

/-- `EscapeArg`. -/
def EscapeArg (arg : List Char) : List Char :=
  (arg.foldl escStep [dquote]) ++ [dquote]

/-! ## Command line (`ConstructCommandLine`, lines 602-646) -/

/-- The first loop over the tokens (lines 615-621): is there a token whose
unescaped text contains a percent sign? -/
def hasFieldCode (tokens : List Token) : Bool :=
  tokens.any (fun t => decide (percent ∈ UndoEscapes t))

/-- The second loop over the tokens (lines 623-630), with the arguments
collected so far in `args`; `none` is the early `return std::wstring()`. -/
def expandTokens (candidate : CandidateInfo) (pathname : List Char) :
    List Token → List (List Char) → Option (List (List Char))
  | [], args => some args
  | t :: ts, args =>
    match ExpandFieldCodes candidate pathname (UndoEscapes t) with
    | none => none
    | some expanded => expandTokens candidate pathname ts (args ++ expanded)

/-- Lines 604-634 of `ConstructCommandLine`: the list `args` as it stands
before the final test `args.empty()`, or `none` when the function has
returned the empty string before that point. -/
def commandArgs (candidate : CandidateInfo) (pathname : List Char) :
    Option (List (List Char)) :=
  if candidate.exec = [] then none
  else
    let tokens := TokenizeDesktopExec candidate.exec
    if tokens = [] then none
    else
      let has_field_code := hasFieldCode tokens
      match expandTokens candidate pathname tokens [] with
      | none => none
      | some args =>
        if has_field_code = false ∧ args ≠ [] then some (args ++ [pathname]) else some args

/-- The last loop of `ConstructCommandLine` (lines 640-645) from index `i`
on, with the command built so far in `cmd`. -/
def renderLoop : List (List Char) → Nat → List Char → List Char
  | [], _, cmd => cmd
  | a :: rest, i, cmd =>
    renderLoop rest (i + 1) ((if i ≠ 0 then cmd ++ [' '] else cmd) ++ EscapeArg a)

/-- `ConstructCommandLine`. -/
def ConstructCommandLine (candidate : CandidateInfo) (pathname : List Char) : List Char :=
  match commandArgs candidate pathname with
  | none => []
  | some args => if args = [] then [] else renderLoop args 0 []

/-! ## Helpers of the standard library -/

/-- `std::isspace` in the C locale: space, tab, newline, vertical tab, form
feed, carriage return. -/
def isspace (c : Char) : Bool :=
  c == ' ' || c == '\t' || c == '\n' || c == Char.ofNat 11 || c == Char.ofNat 12 || c == '\r'

/-- `std::string::find(char)`: the index of the first occurrence, `none` for
`npos`. -/
def findChar (c : Char) : List Char → Option Nat
  | [] => none
  | d :: rest => if d = c then some 0 else (findChar c rest).map (fun i => i + 1)

/-- `std::string::rfind(char)`: the index of the last occurrence, `none` for
`npos`. -/
def rfindChar (c : Char) : List Char → Option Nat
  | [] => none
  | d :: rest =>
    match rfindChar c rest with
    | some i => some (i + 1)
    | none => if d = c then some 0 else none

/-- `std::string::find(str)`: the index of the first position at which
`needle` starts, `none` for `npos`. -/
def findSub (needle : List Char) : List Char → Option Nat
  | [] => if needle = [] then some 0 else none
  | d :: rest =>
    if needle.isPrefixOf (d :: rest) = true then some 0
    else (findSub needle rest).map (fun i => i + 1)

/-- Repeated `std::getline` with the delimiter `delim` on a stream holding
`str`, the line being read in `cur`: each extracted line with the value of
`good()` after the call.  A last line that is not closed by the delimiter is
extracted with the end-of-file flag set, so `good()` is `false`; at the end of
the stream with nothing to extract the call fails and the loop stops. -/
def getlinesAux (delim : Char) : List Char → List Char → List (List Char × Bool)
  | [], cur => if cur = [] then [] else [(cur, false)]
  | c :: rest, cur =>
    if c = delim then (cur, true) :: getlinesAux delim rest []
    else getlinesAux delim rest (cur ++ [c])

/-- The lines that `while (std::getline(stream, line, delim))` extracts. -/
def getlines (delim : Char) (str : List Char) : List (List Char × Bool) :=
  getlinesAux delim str []

/-! ## Shell helpers (lines 19-56) -/

/-- `EscapePathForShell`. -/
def EscapePathForShell (path : List Char) : List Char :=
  (path.foldl
    (fun escaped_path c =>
      if c = squote then escaped_path ++ [squote, backslash, squote, squote]
      else escaped_path ++ [c])
    [squote]) ++ [squote]

/-- `Trim`: leading whitespace is erased, then trailing whitespace. -/
def Trim (str : List Char) : List Char :=
  (str.dropWhile isspace).rdropWhile isspace

/-- `RunCommandAndCaptureOutput`. -/
def RunCommandAndCaptureOutput (h : Host) (cmd : List Char) : List Char :=
  match h.POpen cmd with
  | some result => Trim result
  | none => []

/-- `GetDefaultApp`. -/
def GetDefaultApp (h : Host) (mime_type : List Char) : List Char :=
  RunCommandAndCaptureOutput h
    ("xdg-mime query default ".toList ++ EscapePathForShell mime_type ++ " 2>/dev/null".toList)

/-! ## Directories (lines 59-116) -/

/-- `IsValidApplicationsDir`. -/
def IsValidApplicationsDir (h : Host) (path : List Char) : Bool :=
  h.isDirectory path

/-- `GetUserDirs`. -/
def GetUserDirs (h : Host) : List (List Char) :=
  match h.getenv "XDG_DATA_HOME".toList with
  | some (c :: rest) =>
    let path := (c :: rest) ++ "/applications".toList
    if IsValidApplicationsDir h path = true then [path] else []
  | _ =>
    let home := h.GetMyHome
    if home ≠ [] then
      let path := home ++ "/.local/share/applications".toList
      if IsValidApplicationsDir h path = true then [path] else []
    else []

/-- The loop of `GetSystemDirs` over the segments of `XDG_DATA_DIRS` (lines
93-99), with the counter `count`. -/
def systemDirsLoop (h : Host) : List (List Char × Bool) → Nat → List (List Char)
  | [], _ => []
  | (dir, _) :: rest, count =>
    if count < 50 then
      let path := dir ++ "/applications".toList
      (if dir ≠ [] ∧ IsValidApplicationsDir h path = true then [path] else [])
        ++ systemDirsLoop h rest (count + 1)
    else []

/-- `GetSystemDirs`. -/
def GetSystemDirs (h : Host) : List (List Char) :=
  match h.getenv "XDG_DATA_DIRS".toList with
  | some (c :: rest) => systemDirsLoop h (getlines ':' (c :: rest)) 0
  | _ =>
    ["/usr/local/share/applications".toList, "/usr/share/applications".toList].filter
      (fun path => IsValidApplicationsDir h path)

/-- `GetXDGDataDirs`. -/
def GetXDGDataDirs (h : Host) : List (List Char) :=
  GetUserDirs h ++ GetSystemDirs h

/-! ## MIME types of a path (`CollectAndPrioritizeMimeTypes`, lines 119-190) -/

/-- The variables `mime_types` and `seen` of `CollectAndPrioritizeMimeTypes`;
the set `seen` is held as the list of its members. -/
structure MimeAcc where
  mime_types : List (List Char)
  seen : List (List Char)
deriving DecidableEq, Repr

/-- The lambda `add_unique` (lines 124-128). -/
def add_unique (st : MimeAcc) (mime : List Char) : MimeAcc :=
  if mime ≠ [] ∧ findChar '/' mime ≠ none ∧ mime ∉ st.seen then
    { mime_types := st.mime_types ++ [mime], seen := mime :: st.seen }
  else st

/-- Steps 1 and 2 (lines 130-137): the two oracles. -/
def collectOracles (h : Host) (pathname : List Char) : MimeAcc :=
  let narrow_path := h.StrWide2MB pathname
  let escaped_path := EscapePathForShell narrow_path
  let st := add_unique ⟨[], []⟩
    (RunCommandAndCaptureOutput h
      ("xdg-mime query filetype ".toList ++ escaped_path ++ " 2>/dev/null".toList))
  add_unique st
    (RunCommandAndCaptureOutput h
      ("file -b --mime-type ".toList ++ escaped_path ++ " 2>/dev/null".toList))

/-- The body of the loop of step 3 (lines 141-146). -/
def plusStep (st : MimeAcc) (mime : List Char) : MimeAcc :=
  match findChar '+' mime with
  | some plus_pos => add_unique st (mime.take plus_pos)
  | none => st

/-- The `if` statements of step 4 (lines 153-172) in their order: the
extensions tested by one statement and the MIME type it adds. -/
def extensionTable : List (List (List Char) × List Char) :=
  [ ([".sh".toList, ".bash".toList, ".csh".toList], "text/x-shellscript".toList),
    ([".py".toList], "text/x-python".toList),
    ([".pl".toList], "text/x-perl".toList),
    ([".rb".toList], "text/x-ruby".toList),
    ([".js".toList], "text/javascript".toList),
    ([".html".toList, ".htm".toList], "text/html".toList),
    ([".xml".toList], "application/xml".toList),
    ([".pdf".toList], "application/pdf".toList),
    ([".exe".toList], "application/x-ms-dos-executable".toList),
    ([".bin".toList, ".elf".toList], "application/x-executable".toList),
    ([".txt".toList, ".conf".toList, ".cfg".toList], "text/plain".toList),
    ([".md".toList], "text/markdown".toList),
    ([".jpg".toList, ".jpeg".toList], "image/jpeg".toList),
    ([".png".toList], "image/png".toList),
    ([".gif".toList], "image/gif".toList),
    ([".doc".toList], "application/msword".toList),
    ([".odt".toList], "application/vnd.oasis.opendocument.text".toList),
    ([".zip".toList], "application/zip".toList),
    ([".tar".toList], "application/x-tar".toList),
    ([".gz".toList], "application/gzip".toList) ]

/-- One `if` statement of step 4 on the lower-cased extension `ext`. -/
def extensionStep (ext : List Char) (st : MimeAcc) (row : List (List Char) × List Char) :
    MimeAcc :=
  if ext ∈ row.1 then add_unique st row.2 else st

/-- Step 4 (lines 149-173). -/
def collectExtension (h : Host) (pathname : List Char) (st : MimeAcc) : MimeAcc :=
  match rfindChar '.' pathname with
  | some dot_pos =>
    let ext := (pathname.drop dot_pos).map h.towlower
    extensionTable.foldl (extensionStep ext) st
  | none => st

/-- The body of the loop of step 5 (lines 177-183). -/
def wildcardStep (st : MimeAcc) (mime : List Char) : MimeAcc :=
  let st1 :=
    match findChar '/' mime with
    | some slash_pos => add_unique st (mime.take slash_pos ++ "/*".toList)
    | none => st
  if "text/".toList.isPrefixOf mime = true then add_unique st1 "text/plain".toList else st1

/-- Lines 121-184: the state before the two final calls of `add_unique`.  The
loops of steps 3 and 5 both run over `base_types`, the copy of `mime_types`
taken after step 2. -/
def collectBeforeCatchAll (h : Host) (pathname : List Char) : MimeAcc :=
  let st2 := collectOracles h pathname
  let base_types := st2.mime_types
  let st3 := base_types.foldl plusStep st2
  let st4 := collectExtension h pathname st3
  base_types.foldl wildcardStep st4

/-- `CollectAndPrioritizeMimeTypes`. -/
def CollectAndPrioritizeMimeTypes (h : Host) (pathname : List Char) : List (List Char) :=
  let st5 := collectBeforeCatchAll h pathname
  let st6 := add_unique st5 "application/x-executable".toList
  (add_unique st6 "application/octet-stream".toList).mime_types

/-! ## Rank of an entry file (`GetBestMimeMatchRank`, lines 193-265) -/

/-- The test of lines 235-247: does the declared MIME type `app_mime` match
the list entry `target_mime`? -/
def mimeMatches (app_mime target_mime : List Char) : Bool :=
  match findSub "/*".toList app_mime with
  | some star_pos =>
    if star_pos + 2 = app_mime.length then
      (app_mime.take (star_pos + 1)).isPrefixOf target_mime
    else decide (app_mime = target_mime)
  | none => decide (app_mime = target_mime)

/-- The inner `for` loop (lines 232-255) from index `i` on, over the list
entries still to be visited; `best_rank` is `-1` as long as nothing has
matched.  The index is a mathematical integer: lists of `2^31` entries and
more are not modelled. -/
def rankLoop (app_mime : List Char) : List (List Char) → Nat → Int → Int
  | [], _, best_rank => best_rank
  | target_mime :: rest, i, best_rank =>
    if mimeMatches app_mime target_mime = true then
      if best_rank = -1 ∨ (i : Int) < best_rank then rankLoop app_mime rest (i + 1) (i : Int)
      else rankLoop app_mime rest (i + 1) best_rank
    else rankLoop app_mime rest (i + 1) best_rank

/-- The `while` loop over the declared MIME types of one line (lines
228-256). -/
def declaredLoop (prioritized_mimes : List (List Char)) :
    List (List Char × Bool) → Int → Int
  | [], best_rank => best_rank
  | (raw, _) :: rest, best_rank =>
    let app_mime := Trim raw
    if app_mime = [] then declaredLoop prioritized_mimes rest best_rank
    else declaredLoop prioritized_mimes rest (rankLoop app_mime prioritized_mimes 0 best_rank)

/-- The `while` loop over the lines of the file (lines 200-263), with the
flag `in_main_section`. -/
def rankLines (prioritized_mimes : List (List Char)) :
    List (List Char × Bool) → Bool → Option Int
  | [], _ => none
  | (raw, _) :: rest, in_main_section =>
    let line := Trim raw
    if line = [] ∨ line.head? = some '#' then rankLines prioritized_mimes rest in_main_section
    else if line = "[Desktop Entry]".toList then rankLines prioritized_mimes rest true
    else if line.head? = some '[' then rankLines prioritized_mimes rest false
    else if in_main_section = true ∧ "MimeType=".toList.isPrefixOf line = true then
      match findChar '=' line with
      | none => rankLines prioritized_mimes rest in_main_section
      | some eq_pos =>
        let value := Trim (line.drop (eq_pos + 1))
        let best_rank := declaredLoop prioritized_mimes (getlines ';' value) (-1)
        if best_rank ≠ -1 then some best_rank
        else rankLines prioritized_mimes rest in_main_section
    else rankLines prioritized_mimes rest in_main_section

/-- `GetBestMimeMatchRank`. -/
def GetBestMimeMatchRank (h : Host) (desktop_pathname : List Char)
    (prioritized_mimes : List (List Char)) : Option Int :=
  match h.readFile desktop_pathname with
  | none => none
  | some content => rankLines prioritized_mimes (getlines '\n' content) false

/-! ## Entry files (`GetLocalizedValue`, `ParseDesktopFile`, lines 477-584) -/

/-- The loop of `GetLocalizedValue` over the environment variables (lines
481-500); `none` when the loop ends without a `return`.  The map `values` is
the list of its assignments, the latest first. -/
def localizedLoop (h : Host) (values : List (List Char × List Char)) (key : List Char) :
    List (List Char) → Option (List Char)
  | [] => none
  | var :: rest =>
    match h.getenv var with
    | none => localizedLoop h values key rest
    | some value =>
      if value ≠ [] ∧ 2 ≤ value.length then
        let locale :=
          match findChar '.' value with
          | some dot_pos => value.take dot_pos
          | none => value
        if locale ≠ [] then
          match values.lookup (key ++ ['['] ++ locale ++ [']']) with
          | some v => some v
          | none =>
            match findChar '_' locale with
            | some underscore_pos =>
              match values.lookup (key ++ ['['] ++ locale.take underscore_pos ++ [']']) with
              | some v => some v
              | none => localizedLoop h values key rest
            | none => localizedLoop h values key rest
        else localizedLoop h values key rest
      else localizedLoop h values key rest

/-- `GetLocalizedValue`. -/
def GetLocalizedValue (h : Host) (values : List (List Char × List Char)) (key : List Char) :
    List Char :=
  match localizedLoop h values key
      ["LC_ALL".toList, "LC_MESSAGES".toList, "LANG".toList] with
  | some v => v
  | none =>
    match values.lookup key with
    | some v => v
    | none => []

/-- The local variables of `ParseDesktopFile` that the loop over the lines
changes. -/
structure ParseState where
  in_main_section : Bool
  terminal : Bool
  mimetype : List Char
  entries : List (List Char × List Char)
  exec : List Char
  hidden : Bool
  is_application : Bool
deriving DecidableEq, Repr

/-- The values of the local variables before the loop. -/
def ParseState.init : ParseState :=
  { in_main_section := false, terminal := false, mimetype := [], entries := [], exec := [],
    hidden := false, is_application := false }

/-- Lines 539-549: a line of the main section that is neither a comment nor a
section header. -/
def parseKeyValue (h : Host) (s : ParseState) (line : List Char) : ParseState :=
  match findChar '=' line with
  | none => s
  | some eq_pos =>
    let key := Trim (line.take eq_pos)
    let value := Trim (line.drop (eq_pos + 1))
    let s1 := { s with entries := (key, value) :: s.entries }
    if key = "Exec".toList then { s1 with exec := value }
    else if key = "Terminal".toList ∧ value = "true".toList then { s1 with terminal := true }
    else if key = "MimeType".toList then { s1 with mimetype := h.StrMB2Wide value }
    else if key = "Hidden".toList ∧ value = "true".toList then { s1 with hidden := true }
    else if key = "Type".toList ∧ value = "Application".toList then
      { s1 with is_application := true }
    else s1

/-- The `while` loop of `ParseDesktopFile` (lines 524-551); `none` is the
`return std::nullopt` taken when `good()` is `false` after a line has been
read. -/
def parseLines (h : Host) : List (List Char × Bool) → ParseState → Option ParseState
  | [], s => some s
  | (raw, good) :: rest, s =>
    if good = false then none
    else
      let line := Trim raw
      if line = [] ∨ line.head? = some '#' then parseLines h rest s
      else if line = "[Desktop Entry]".toList then
        parseLines h rest { s with in_main_section := true }
      else if line.head? = some '[' then parseLines h rest { s with in_main_section := false }
      else if s.in_main_section = true then parseLines h rest (parseKeyValue h s line)
      else parseLines h rest s

/-- Lines 553-583 of `ParseDesktopFile`: the code after the loop. -/
def parseFinish (h : Host) (path : List Char) (s : ParseState) : Option CandidateInfo :=
  if s.hidden = true then none
  else if s.exec = [] ∨ s.is_application = false then none
  else
    let exec := Trim s.exec
    if exec = [] then none
    else
      let wide_exec := h.StrMB2Wide exec
      if TokenizeDesktopExec wide_exec = [] then none
      else
        let name :=
          if GetLocalizedValue h s.entries "Name".toList = [] then
            GetLocalizedValue h s.entries "GenericName".toList
          else GetLocalizedValue h s.entries "Name".toList
        let info_name :=
          if h.StrMB2Wide name = [] then
            h.StrMB2Wide
              (path.drop (match rfindChar '/' path with
                          | some slash_pos => slash_pos + 1
                          | none => 0))
          else h.StrMB2Wide name
        some { terminal := s.terminal, name := info_name, exec := wide_exec,
               mimetype := s.mimetype, desktop_file := h.StrMB2Wide path }

/-- `ParseDesktopFile`. -/
def ParseDesktopFile (h : Host) (path : List Char) : Option CandidateInfo :=
  match h.readFile path with
  | none => none
  | some content =>
    match parseLines h (getlines '\n' content) ParseState.init with
    | none => none
    | some s => parseFinish h path s

/-! ## Candidates (`GetAppCandidates`, lines 268-324) -/

/-- The test of line 284 on a file name. -/
def isDesktopName (filename : List Char) : Bool :=
  decide (8 < filename.length)
    && decide (filename.drop (filename.length - 8) = ".desktop".toList)

/-- The full paths of the entry files in the order of the scan (lines
277-285). -/
def scanPaths (h : Host) : List (List Char) :=
  (GetXDGDataDirs h).flatMap (fun dir_path =>
    match h.readdir dir_path with
    | none => []
    | some names =>
      (names.filter isDesktopName).map (fun filename => dir_path ++ ['/'] ++ filename))

/-- Lines 287-293 for one entry file: `ranked_candidates` and `seen_execs`
before and after. -/
def candidateStep (h : Host) (prioritized_mimes : List (List Char))
    (st : List RankedCandidate × List (List Char)) (full_path : List Char) :
    List RankedCandidate × List (List Char) :=
  match GetBestMimeMatchRank h full_path prioritized_mimes with
  | none => st
  | some rank =>
    match ParseDesktopFile h full_path with
    | none => st
    | some candidate =>
      if candidate.exec ∉ st.2 then (st.1 ++ [⟨candidate, rank, false⟩], candidate.exec :: st.2)
      else st

/-- The loop of lines 303-309: the first candidate whose `desktop_file`
contains `default_app_desktop` is flagged, and the loop ends. -/
def markDefault (h : Host) (default_app_desktop : List Char) :
    List RankedCandidate → List RankedCandidate
  | [] => []
  | cand :: rest =>
    if findSub default_app_desktop (h.StrWide2MB cand.info.desktop_file) ≠ none then
      { cand with is_default := true } :: rest
    else cand :: markDefault h default_app_desktop rest

/-- Lines 273-311: `ranked_candidates` before the final sort. -/
def rankedCandidates (h : Host) (prioritized_mimes : List (List Char)) :
    List RankedCandidate :=
  let ranked := ((scanPaths h).foldl (candidateStep h prioritized_mimes) ([], [])).1
  match prioritized_mimes with
  | [] => ranked
  | front :: _ =>
    let default_app_desktop := GetDefaultApp h front
    if default_app_desktop ≠ [] then markDefault h default_app_desktop ranked else ranked

/-- `GetAppCandidates`. -/
def GetAppCandidates (h : Host) (pathname : List Char) : List CandidateInfo :=
  let prioritized_mimes := CollectAndPrioritizeMimeTypes h pathname
  if prioritized_mimes = [] then []
  else (h.stdSort (rankedCandidates h prioritized_mimes)).map (fun ranked => ranked.info)

/-- Lines 270-314 of `GetAppCandidates`: `ranked_candidates` after the call
of `std::sort`, the list that the last loop projects into the result. -/
def sortedCandidates (h : Host) (pathname : List Char) : List RankedCandidate :=
  h.stdSort (rankedCandidates h (CollectAndPrioritizeMimeTypes h pathname))

/-! ## MIME type for display (`GetMimeType`, lines 649-670) -/

/-- `GetMimeType`. -/
def GetMimeType (h : Host) (pathname : List Char) : List Char :=
  let narrow_path := h.StrWide2MB pathname
  let escaped_path := EscapePathForShell narrow_path
  let xdg_mime_result := RunCommandAndCaptureOutput h
    ("xdg-mime query filetype ".toList ++ escaped_path ++ " 2>/dev/null".toList)
  let file_result := RunCommandAndCaptureOutput h
    ("file -b --mime-type ".toList ++ escaped_path ++ " 2>/dev/null".toList)
  let result :=
    if xdg_mime_result = [] then file_result
    else if file_result = [] then xdg_mime_result
    else if xdg_mime_result = file_result then xdg_mime_result
    else xdg_mime_result ++ [';'] ++ file_result
  h.StrMB2Wide result

/-! ## A small host for the examples -/

/-- A stable sort by `RankedCandidate::operator<`, one of the results that
`std::sort` may give. -/
def sortByInsertion (l : List RankedCandidate) : List RankedCandidate :=
  l.insertionSort (fun a b => b.lt a = false)

/-- A host with one applications directory holding two entry files, one of
them hidden, and with no answer from the external commands. -/
def exampleHost : Host where
  POpen := fun _ => none
  StrWide2MB := fun s => s
  StrMB2Wide := fun s => s
  towlower := Char.toLower
  getenv := fun _ => none
  GetMyHome := []
  isDirectory := fun path => decide (path = "/usr/share/applications".toList)
  readdir := fun path =>
    if path = "/usr/share/applications".toList then
      some ["vim.desktop".toList, "ghost.desktop".toList, "README".toList]
    else none
  readFile := fun path =>
    if path = "/usr/share/applications/vim.desktop".toList then
      some "[Desktop Entry]\nType=Application\nName=Vim\nExec=vim %F\nMimeType=text/plain;\n".toList
    else if path = "/usr/share/applications/ghost.desktop".toList then
      some "[Desktop Entry]\nType=Application\nExec=ghost\nHidden=true\nHidden=false\nMimeType=text/plain;\n".toList
    else none
  stdSort := sortByInsertion

/-- A host with one applications directory holding five entry files, two of
them with the same `Exec` line, where the path-based oracle answers
`text/x-python` for `x.py` and the default application of that type is
`atom.desktop`. -/
def deskHost : Host where
  POpen := fun cmd =>
    if cmd = "xdg-mime query filetype ".toList ++ EscapePathForShell "x.py".toList
        ++ " 2>/dev/null".toList then
      some "text/x-python\n".toList
    else if cmd = "xdg-mime query default ".toList ++ EscapePathForShell "text/x-python".toList
        ++ " 2>/dev/null".toList then
      some "atom.desktop\n".toList
    else none
  StrWide2MB := fun s => s
  StrMB2Wide := fun s => s
  towlower := Char.toLower
  getenv := fun _ => none
  GetMyHome := []
  isDirectory := fun path => decide (path = "/usr/share/applications".toList)
  readdir := fun path =>
    if path = "/usr/share/applications".toList then
      some ["zed.desktop".toList, "atom.desktop".toList, "view.desktop".toList,
            "emacs.desktop".toList, "zed2.desktop".toList]
    else none
  readFile := fun path =>
    if path = "/usr/share/applications/zed.desktop".toList then
      some "[Desktop Entry]\nType=Application\nName=Zed\nExec=zed %f\nMimeType=text/plain;\n".toList
    else if path = "/usr/share/applications/atom.desktop".toList then
      some "[Desktop Entry]\nType=Application\nName=Atom\nExec=atom %f\nMimeType=text/plain;\n".toList
    else if path = "/usr/share/applications/view.desktop".toList then
      some "[Desktop Entry]\nType=Application\nName=Viewer\nExec=view %f\nMimeType=text/x-python;\n".toList
    else if path = "/usr/share/applications/emacs.desktop".toList then
      some "[Desktop Entry]\nType=Application\nName=Emacs\nExec=emacs %f\nMimeType=text/plain;\n".toList
    else if path = "/usr/share/applications/zed2.desktop".toList then
      some "[Desktop Entry]\nType=Application\nName=Zed Two\nExec=zed %f\nMimeType=text/x-python;\n".toList
    else none
  stdSort := sortByInsertion

/-- A host that has the given files and environment variables and nothing
else: no applications directory and no answer from the external commands. -/
def fileHost (files env : List (List Char × List Char)) : Host where
  POpen := fun _ => none
  StrWide2MB := fun s => s
  StrMB2Wide := fun s => s
  towlower := Char.toLower
  getenv := fun var => env.lookup var
  GetMyHome := []
  isDirectory := fun _ => false
  readdir := fun _ => none
  readFile := fun path => files.lookup path
  stdSort := sortByInsertion


/-- The host `h` with its file system replaced by one in which every path
opens as a file with the given content. -/
def hostWithFile (h : Host) (content : List Char) : Host :=
  { h with readFile := fun _ => some content }

/-- An entry file with a key before the first section header and with an
`Exec` and a `Hidden` key under an action section. -/
def entryWithAction : List Char :=
  "Exec=early\n[Desktop Entry]\nType=Application\nName=Vim\nExec=vim %f\nMimeType=text/plain;\n[Desktop Action new]\nExec=gvim\nHidden=true\n".toList

/-- The entry file `entryWithAction` without the keys outside its main
section. -/
def entryWithoutAction : List Char :=
  "[Desktop Entry]\nType=Application\nName=Vim\nExec=vim %f\nMimeType=text/plain;\n[Desktop Action new]\n".toList

/-- The entry file `entryWithoutAction` followed by the line `Exec=gvim` under
its action section, with no newline after it. -/
def entryWithOpenAction : List Char :=
  "[Desktop Entry]\nType=Application\nName=Vim\nExec=vim %f\nMimeType=text/plain;\n[Desktop Action new]\nExec=gvim".toList

/-- The rendering of a list of arguments: every argument escaped by
`EscapeArg`, a single space between two neighbours. -/
def joinArgs : List (List Char) → List Char
  | [] => []
  | [a] => EscapeArg a
  | a :: b :: rest => EscapeArg a ++ ' ' :: joinArgs (b :: rest)

/-- The characters that may follow a percent sign in an Exec template. -/
def knownFieldCodes : List Char :=
  ['f', 'F', 'u', 'U', 'c', percent, 'n', 'd', 'D', 't', 'T', 'v', 'm', 'k', 'i']

/-- The left-to-right field-code scan of a text meets a percent sign that is
followed by a character outside `knownFieldCodes`, or by nothing.  A percent
sign and the known code after it are read together. -/
def scanMeetsBadCode : List Char → Bool
  | [] => false
  | c :: rest =>
    if c = percent then
      match rest with
      | [] => true
      | d :: rest2 => if d ∈ knownFieldCodes then scanMeetsBadCode rest2 else true
    else scanMeetsBadCode rest

/-- Where a left-to-right reading of an Exec string stands with respect to
quotes. -/
inductive QuoteMode where
  | outside
  | inDouble
  | inSingle
deriving DecidableEq, Repr

/-- The reading of an Exec string for quote regions only: the mode, and
whether the character just read was an unescaped backslash, which escapes the
next character. -/
structure QuoteScan where
  mode : QuoteMode
  escaped : Bool
deriving DecidableEq, Repr

/-- One character of the reading for quote regions: an escaped character
changes nothing, an unescaped double quote opens or closes a double-quote
region unless a single-quote region is open, and symmetrically for an
unescaped single quote. -/
def quoteStep (q : QuoteScan) (c : Char) : QuoteScan :=
  if q.escaped = true then { q with escaped := false }
  else if c = backslash then { q with escaped := true }
  else if c = dquote then
    match q.mode with
    | QuoteMode.outside => { q with mode := QuoteMode.inDouble }
    | QuoteMode.inDouble => { q with mode := QuoteMode.outside }
    | QuoteMode.inSingle => q
  else if c = squote then
    match q.mode with
    | QuoteMode.outside => { q with mode := QuoteMode.inSingle }
    | QuoteMode.inSingle => { q with mode := QuoteMode.outside }
    | QuoteMode.inDouble => q
  else q

/-- A double-quote or single-quote region is still open when the input ends. -/
def quoteOpenAtEnd (str : List Char) : Bool :=
  decide ((str.foldl quoteStep ⟨QuoteMode.outside, false⟩).mode ≠ QuoteMode.outside)

/-- The left-to-right scan that the specification gives for unescaping: a
backslash followed by a double quote, single quote, backtick, dollar or
backslash is replaced by that character, a backslash followed by another
character stays with it, a backslash at the end stays, and every other
character is copied. -/
def unescapeScan : List Char → List Char
  | [] => []
  | c :: rest =>
    if c = backslash then
      match rest with
      | [] => [backslash]
      | next :: rest2 =>
        if next ∈ [dquote, squote, backtick, dollar, backslash] then next :: unescapeScan rest2
        else backslash :: next :: unescapeScan rest2
    else c :: unescapeScan rest

/-- The interior of an escaped argument as the specification describes it:
every backslash, double quote, dollar and backtick preceded by one added
backslash, every other character unchanged. -/
def escapedInterior : List Char → List Char
  | [] => []
  | c :: rest =>
    if c ∈ [backslash, dquote, dollar, backtick] then backslash :: c :: escapedInterior rest
    else c :: escapedInterior rest

/-- Reading by the double-quote rule: each escaping backslash is dropped and
the character after it is kept. -/
def dquoteDecode : List Char → List Char
  | [] => []
  | c :: rest =>
    if c = backslash then
      match rest with
      | [] => []
      | next :: rest2 => next :: dquoteDecode rest2
    else c :: dquoteDecode rest

/-- Some double quote, dollar or backtick of the text is not escaped by a
backslash before it. -/
def hasUnescapedSpecial : List Char → Bool
  | [] => false
  | c :: rest =>
    if c = backslash then
      match rest with
      | [] => false
      | _ :: rest2 => hasUnescapedSpecial rest2
    else if c = dquote ∨ c = dollar ∨ c = backtick then true
    else hasUnescapedSpecial rest

/-- A string that `add_unique` accepts: not empty and with a slash. -/
def validMime (mime : List Char) : Bool :=
  decide (mime ≠ []) && decide ('/' ∈ mime)

/-- Each member of a list once, at the place of its first occurrence. -/
def firstOccurrences : List (List Char) → List (List Char)
  | [] => []
  | x :: xs => x :: (firstOccurrences xs).filter (fun y => decide (y ≠ x))

/-- Step 3 on one collected MIME type: the text before its first plus sign. -/
def plusGeneralization (mime : List Char) : Option (List Char) :=
  (findChar '+' mime).map (fun plus_pos => mime.take plus_pos)

/-- Step 4: the MIME types of the rows of the extension table that list the
lower-cased text from the last dot of the path on. -/
def extensionMimes (h : Host) (pathname : List Char) : List (List Char) :=
  match rfindChar '.' pathname with
  | some dot_pos =>
    (extensionTable.filter
      (fun row => decide ((pathname.drop dot_pos).map h.towlower ∈ row.1))).map (fun row => row.2)
  | none => []

/-- Step 5 on one collected MIME type: the wildcard of its top-level type,
then `text/plain` when it begins with `text/`. -/
def wildcardTerms (mime : List Char) : List (List Char) :=
  (match findChar '/' mime with
   | some slash_pos => [mime.take slash_pos ++ "/*".toList]
   | none => [])
  ++ (if "text/".toList.isPrefixOf mime = true then ["text/plain".toList] else [])

/-- The two oracle results of steps 1 and 2, in this order. -/
def oracleMimes (h : Host) (pathname : List Char) : List (List Char) :=
  [RunCommandAndCaptureOutput h
     ("xdg-mime query filetype ".toList ++ EscapePathForShell (h.StrWide2MB pathname)
        ++ " 2>/dev/null".toList),
   RunCommandAndCaptureOutput h
     ("file -b --mime-type ".toList ++ EscapePathForShell (h.StrWide2MB pathname)
        ++ " 2>/dev/null".toList)]

/-- All strings that the steps of the algorithm produce, in the order of
their production: the oracle results, the generalizations of the MIME types
collected from the oracles, the extension fallback, the wildcard terms of the
MIME types collected from the oracles, and the two catch-all types. -/
def producedMimes (h : Host) (pathname : List Char) : List (List Char) :=
  let base := firstOccurrences ((oracleMimes h pathname).filter validMime)
  oracleMimes h pathname
    ++ base.filterMap plusGeneralization
    ++ extensionMimes h pathname
    ++ base.flatMap wildcardTerms
    ++ ["application/x-executable".toList, "application/octet-stream".toList]

/-- The lines of an entry file, as `std::getline` extracts them. -/
def fileLines (content : List Char) : List (List Char) :=
  (getlines '\n' content).map (fun l => l.1)

/-- The key and the value of a line: the text before its first `=` and the
text after it, both trimmed; `none` for a line without `=`. -/
def keyValueOf (line : List Char) : Option (List Char × List Char) :=
  (findChar '=' line).map (fun eq_pos => (Trim (line.take eq_pos), Trim (line.drop (eq_pos + 1))))

/-- The main section of the entry file has a line with the key `Hidden` and
the value `true`: after a line that is the header `[Desktop Entry]`, and with
no section header in between, comes a line whose key is `Hidden` and whose
value is `true`. -/
def hiddenInMain (content : List Char) : Prop :=
  ∃ (before between after : List (List Char)) (line : List Char),
    (fileLines content).map Trim
        = before ++ ["[Desktop Entry]".toList] ++ between ++ [line] ++ after
    ∧ (∀ m ∈ between, m.head? ≠ some '[')
    ∧ keyValueOf line = some ("Hidden".toList, "true".toList)

/-! ## Invariants used in the proofs -/

/-- The tokenizer state and the quote-region reading agree, and an open
region has marked the current token. -/
def TokAgrees (s : TokState) (q : QuoteScan) : Prop :=
  s.prev_backslash = q.escaped
  ∧ (s.in_double_quotes = true ↔ q.mode = QuoteMode.inDouble)
  ∧ (s.in_single_quotes = true ↔ q.mode = QuoteMode.inSingle)
  ∧ (s.in_double_quotes = true → s.cur_quoted = true)
  ∧ (s.in_single_quotes = true → s.cur_single_quoted = true)


/-- The list `mime_types` has no duplicate and the set `seen` has exactly its
members. -/
def MimeInv (st : MimeAcc) : Prop :=
  st.mime_types.Nodup ∧ ∀ m, m ∈ st.seen ↔ m ∈ st.mime_types


/-! ## Notions of the specification: ordering and candidates -/

/-- What `std::sort` guarantees when it is called with a strict weak ordering:
the result is a rearrangement of the input in which no element is strictly
before an earlier one. -/
def StdSortContract (h : Host) : Prop :=
  ∀ l, (h.stdSort l).Perm l ∧ (h.stdSort l).Pairwise (fun a b => b.lt a = false)

/-- The entry of one file in the scan: its record with its rank, when the file
has a rank and is parsed successfully. -/
def entryOf (h : Host) (prioritized_mimes : List (List Char)) (full_path : List Char) :
    Option RankedCandidate :=
  match GetBestMimeMatchRank h full_path prioritized_mimes, ParseDesktopFile h full_path with
  | some rank, some candidate => some ⟨candidate, rank, false⟩
  | _, _ => none

/-- The matched and successfully parsed entries, in the order of the scan. -/
def matchedEntries (h : Host) (prioritized_mimes : List (List Char)) : List RankedCandidate :=
  (scanPaths h).filterMap (entryOf h prioritized_mimes)

/-- Of the entries with the same `exec`, the first one only. -/
def firstByExec : List RankedCandidate → List RankedCandidate
  | [] => []
  | x :: xs => x :: (firstByExec xs).filter (fun y => decide (y.info.exec ≠ x.info.exec))

/-! ## Notions of the specification: entry files and ranks -/

/-- The lines of the main section among the given lines, trimmed: the lines
that are not blank, not comments and not section headers and that stand under
a header `[Desktop Entry]` with no other header in between.  The flag tells
whether the lines start inside the main section. -/
def mainLinesFrom : Bool → List (List Char) → List (List Char)
  | _, [] => []
  | in_main, raw :: rest =>
    if Trim raw = [] ∨ (Trim raw).head? = some '#' then mainLinesFrom in_main rest
    else if Trim raw = "[Desktop Entry]".toList then mainLinesFrom true rest
    else if (Trim raw).head? = some '[' then mainLinesFrom false rest
    else if in_main = true then Trim raw :: mainLinesFrom in_main rest
    else mainLinesFrom in_main rest

/-- The lines of the main section of an entry file. -/
def mainLines (content : List Char) : List (List Char) :=
  mainLinesFrom false (fileLines content)

/-- The value of a line that begins with `MimeType=`: the trimmed text after
these nine characters. -/
def mimeTypeValueOf (line : List Char) : Option (List Char) :=
  if "MimeType=".toList.isPrefixOf line = true then some (Trim (line.drop 9)) else none

/-- The values of the `MimeType=` lines of the main section, in their order. -/
def mimeTypeValues (content : List Char) : List (List Char) :=
  (mainLines content).filterMap mimeTypeValueOf

/-- The MIME types that a `MimeType=` value declares: the value split on
`;`, each part trimmed, empty parts skipped. -/
def declaredMimes (value : List Char) : List (List Char) :=
  ((value.splitOn ';').map Trim).filter (fun d => decide (d ≠ []))

/-- The least index of the prioritized list at which some declared MIME type
matches. -/
def leastMatch (prioritized_mimes declared : List (List Char)) : Option Nat :=
  prioritized_mimes.findIdx? (fun target => declared.any (fun d => mimeMatches d target))

/-- The rank that one `MimeType=` value gives, if any. -/
def rankOfValue (prioritized_mimes : List (List Char)) (value : List Char) : Option Int :=
  (leastMatch prioritized_mimes (declaredMimes value)).map (fun i => (i : Int))

/-! ## Encodings used in the proofs -/

/-- The value of the variable `best_rank` for the least index found so far. -/
def rankCode : Option Nat → Int
  | none => -1
  | some n => (n : Int)

/-- The smaller of two indices that may be absent. -/
def optMin : Option Nat → Option Nat → Option Nat
  | none, b => b
  | some a, none => some a
  | some a, some b => some (min a b)

/-! ## Notions of the specification: display name -/

/-- The trimmed output of the path-based oracle (step 1, line 134). -/
def pathOracleOutput (h : Host) (pathname : List Char) : List Char :=
  RunCommandAndCaptureOutput h
    ("xdg-mime query filetype ".toList ++ EscapePathForShell (h.StrWide2MB pathname)
      ++ " 2>/dev/null".toList)

/-- The trimmed output of the content-based oracle (step 2, line 137). -/
def contentOracleOutput (h : Host) (pathname : List Char) : List Char :=
  RunCommandAndCaptureOutput h
    ("file -b --mime-type ".toList ++ EscapePathForShell (h.StrWide2MB pathname)
      ++ " 2>/dev/null".toList)

/-- The candidates collected by the single pass over the entry files (lines
273-296 of `GetAppCandidates`), before the default application is marked. -/
def collectedCandidates (h : Host) (prioritized_mimes : List (List Char)) :
    List RankedCandidate :=
  ((scanPaths h).foldl (candidateStep h prioritized_mimes) ([], [])).1

/-! ## Spec notions: words -/

/-- The maximal runs of characters that are not desktop whitespace, in the
order of the text: the pieces between whitespace characters that are not
empty. -/
def wordsOf (str : List Char) : List (List Char) :=
  (str.splitOnP (fun c => IsDesktopWhitespace c)).filter (fun w => decide (w ≠ []))

/-! ## Spec notions: shell quoting -/

/-- The quoted form of a path as the specification describes it: a single
quote, the path with every single quote replaced by the four characters
single quote, backslash, single quote, single quote, and a single quote. -/
def shellQuoted (path : List Char) : List Char :=
  squote :: (path.flatMap
    (fun c => if c = squote then [squote, backslash, squote, squote] else [c]) ++ [squote])

/-- Reading a text by the single-quote rule of the POSIX shell, starting
inside a quoted region or outside: a single quote opens or closes a region,
the text of a region is literal, outside a region a backslash makes the next
character literal, and every other character outside a region stands for
itself. Each character read is paired with whether it was read inside a
region. -/
def sqRead : Bool → List Char → List (Char × Bool)
  | _, [] => []
  | true, c :: rest =>
    if c = squote then sqRead false rest else (c, true) :: sqRead true rest
  | false, c :: rest =>
    if c = squote then sqRead true rest
    else if c = backslash then
      match rest with
      | [] => []
      | next :: rest2 => (next, false) :: sqRead false rest2
    else (c, false) :: sqRead false rest

/-- The reading by the single-quote rule ends inside a quoted region. -/
def sqOpenAtEnd : Bool → List Char → Bool
  | inside, [] => inside
  | true, c :: rest =>
    if c = squote then sqOpenAtEnd false rest else sqOpenAtEnd true rest
  | false, c :: rest =>
    if c = squote then sqOpenAtEnd true rest
    else if c = backslash then
      match rest with
      | [] => false
      | _ :: rest2 => sqOpenAtEnd false rest2
    else sqOpenAtEnd false rest

/-- The command line of an oracle as the specification describes it: the
command with its options, the argument in its quoted form, and the
redirection of the error output. -/
def oracleCommand (tool arg : List Char) : List Char :=
  tool ++ shellQuoted arg ++ " 2>/dev/null".toList

/-- The combination of the two oracle outputs that is shown as the MIME type
of a file: the one that is not empty, the common value, or both separated by
a semicolon. -/
def combinedMime (x f : List Char) : List Char :=
  if x = [] then f
  else if f = [] then x
  else if x = f then x
  else x ++ [';'] ++ f

/-! ## Spec notions: the text after the last dot -/

/-- The text after the last dot of a path, `none` when the path has no
dot. -/
def afterLastDot (pathname : List Char) : Option (List Char) :=
  (rfindChar '.' pathname).map (fun dot_pos => pathname.drop (dot_pos + 1))

/-! ## Spec notions: the lines outside the main section -/

/-- The lines of an entry file without the lines that stand before the first
section header or under a section header other than `[Desktop Entry]` and
that do not start with `[` (as the parser reads a line, after trimming).  The
flag tells whether the lines start inside the main section. -/
def withoutOutsideLines : Bool → List (List Char) → List (List Char)
  | _, [] => []
  | in_main, raw :: rest =>
    if Trim raw = "[Desktop Entry]".toList then raw :: withoutOutsideLines true rest
    else if (Trim raw).head? = some '[' then raw :: withoutOutsideLines false rest
    else if in_main = true then raw :: withoutOutsideLines true rest
    else withoutOutsideLines false rest

/-- The content is empty or its last character is a newline: every line of
the file is closed by a newline. -/
def endsWithNewline (content : List Char) : Bool :=
  decide (content = [] ∨ content.getLast? = some '\n')
end LinuxAppProvider

open LinuxAppProvider

/-! ## Command line: auxiliary facts -/

theorem renderLoop_succ (args : List (List Char)) (i : Nat) (cmd : List Char) :
    renderLoop args (i + 1) cmd = cmd ++ (args.map (fun a => ' ' :: EscapeArg a)).flatten := by
  induction args generalizing i cmd with
  | nil => simp [renderLoop]
  | cons a rest ih => simp [renderLoop, ih]

theorem joinArgs_cons (a : List Char) (rest : List (List Char)) :
    joinArgs (a :: rest) = EscapeArg a ++ (rest.map (fun b => ' ' :: EscapeArg b)).flatten := by
  induction rest generalizing a with
  | nil => simp [joinArgs]
  | cons b rest ih => simp [joinArgs, ih]

theorem renderLoop_eq_joinArgs (args : List (List Char)) :
    renderLoop args 0 [] = joinArgs args := by
  cases args with
  | nil => rfl
  | cons a rest => simp [renderLoop, renderLoop_succ, joinArgs_cons]

theorem ExpandLoop_cons_ne (candidate : CandidateInfo) (p : List Char) (c : Char)
    (rest cur : List Char) (hc : c ≠ percent) :
    ExpandLoop candidate p (c :: rest) cur = ExpandLoop candidate p rest (cur ++ [c]) := by
  cases rest <;> simp [ExpandLoop, hc]

theorem ExpandLoop_no_percent (candidate : CandidateInfo) (p u cur : List Char)
    (h : percent ∉ u) : ExpandLoop candidate p u cur = some (cur ++ u) := by
  induction u generalizing cur with
  | nil => simp [ExpandLoop]
  | cons c rest ih =>
    have hc : c ≠ percent := fun e => h (by simp [e])
    have hr : percent ∉ rest := fun e => h (by simp [e])
    rw [ExpandLoop_cons_ne _ _ _ _ _ hc, ih _ hr]
    simp

theorem ExpandFieldCodes_no_percent (candidate : CandidateInfo) (p u : List Char)
    (h : percent ∉ u) :
    ExpandFieldCodes candidate p u = some (if u ≠ [] then [u] else []) := by
  simp only [ExpandFieldCodes, ExpandLoop_no_percent candidate p u [] h, List.nil_append]
  split_ifs <;> rfl

theorem expandTokens_no_percent (candidate : CandidateInfo) (p : List Char)
    (ts : List Token) (args : List (List Char))
    (h : ∀ t ∈ ts, percent ∉ UndoEscapes t) :
    expandTokens candidate p ts args
      = some (args ++ (ts.map UndoEscapes).filter (fun u => decide (u ≠ []))) := by
  induction ts generalizing args with
  | nil => simp [expandTokens]
  | cons t ts ih =>
    have ht : percent ∉ UndoEscapes t := h t (by simp)
    have hts : ∀ t ∈ ts, percent ∉ UndoEscapes t := fun x hx => h x (by simp [hx])
    rw [expandTokens, ExpandFieldCodes_no_percent candidate p _ ht]
    by_cases he : UndoEscapes t = []
    · simp [ih _ hts, he]
    · simp [ih _ hts, he]

theorem scanMeetsBadCode_cons_ne (c : Char) (rest : List Char) (hc : c ≠ percent) :
    scanMeetsBadCode (c :: rest) = scanMeetsBadCode rest := by
  cases rest <;> simp [scanMeetsBadCode, hc]

theorem ExpandLoop_bad (candidate : CandidateInfo) (p u : List Char) :
    ∀ cur, scanMeetsBadCode u = true → ExpandLoop candidate p u cur = none := by
  induction u using scanMeetsBadCode.induct with
  | case1 => intro cur h; simp [scanMeetsBadCode] at h
  | case2 => intro cur _; simp [ExpandLoop]
  | case3 d rest2 hd ih =>
    intro cur h
    simp only [scanMeetsBadCode, if_true, hd] at h
    simp only [knownFieldCodes, List.mem_cons, List.mem_singleton, List.not_mem_nil, or_false] at hd
    simp only [ExpandLoop, if_true]
    split_ifs <;> first | exact ih _ h | (exfalso; tauto)
  | case4 d rest2 hd =>
    intro cur _
    simp only [knownFieldCodes, List.mem_cons, List.mem_singleton, List.not_mem_nil, or_false] at hd
    simp only [ExpandLoop, if_true]
    split_ifs <;> first | rfl | (exfalso; tauto)
  | case5 c rest hc ih =>
    intro cur h
    rw [scanMeetsBadCode_cons_ne _ _ hc] at h
    rw [ExpandLoop_cons_ne _ _ _ _ _ hc]
    exact ih _ h

theorem ExpandFieldCodes_bad (candidate : CandidateInfo) (p u : List Char)
    (h : scanMeetsBadCode u = true) : ExpandFieldCodes candidate p u = none := by
  simp [ExpandFieldCodes, ExpandLoop_bad candidate p u [] h]

theorem expandTokens_bad (candidate : CandidateInfo) (p : List Char) (ts : List Token)
    (args : List (List Char))
    (h : ∃ t ∈ ts, scanMeetsBadCode (UndoEscapes t) = true) :
    expandTokens candidate p ts args = none := by
  induction ts generalizing args with
  | nil => simp at h
  | cons t ts ih =>
    rw [expandTokens]
    cases he : ExpandFieldCodes candidate p (UndoEscapes t) with
    | none => rfl
    | some expanded =>
      obtain ⟨x, hx, hbad⟩ := h
      rcases List.mem_cons.mp hx with e | hmem
      · subst e
        rw [ExpandFieldCodes_bad candidate p _ hbad] at he
        cases he
      · exact ih _ ⟨x, hmem, hbad⟩

theorem ConstructCommandLine_bad (candidate : CandidateInfo) (p : List Char)
    (h : ∃ t ∈ TokenizeDesktopExec candidate.exec, scanMeetsBadCode (UndoEscapes t) = true) :
    ConstructCommandLine candidate p = [] := by
  unfold ConstructCommandLine commandArgs
  simp only [expandTokens_bad candidate p _ [] h]
  split_ifs <;> rfl

theorem tokenize_firefox (c : Char) (hc : c = 'f' ∨ c = 'F' ∨ c = 'u' ∨ c = 'U') :
    TokenizeDesktopExec ("firefox ".toList ++ [percent, c])
      = [⟨"firefox".toList, false, false⟩, ⟨[percent, c], false, false⟩] := by
  rcases hc with h | h | h | h <;> subst h <;> decide

theorem commandArgs_firefox (candidate : CandidateInfo) (p : List Char) (c : Char)
    (hp : p ≠ []) (hc : c = 'f' ∨ c = 'F' ∨ c = 'u' ∨ c = 'U')
    (hexec : candidate.exec = "firefox ".toList ++ [percent, c]) :
    commandArgs candidate p = some ["firefox".toList, p] := by
  have hu1 : UndoEscapes ⟨"firefox".toList, false, false⟩ = "firefox".toList := by decide
  have hu2 : UndoEscapes ⟨[percent, c], false, false⟩ = [percent, c] := by
    rcases hc with h | h | h | h <;> subst h <;> decide
  have he1 : ExpandFieldCodes candidate p "firefox".toList = some ["firefox".toList] := rfl
  have he2 : ExpandFieldCodes candidate p [percent, c] = some [p] := by
    simp [ExpandFieldCodes, ExpandLoop, hc, hp]
  have hf : hasFieldCode [⟨"firefox".toList, false, false⟩, ⟨[percent, c], false, false⟩] = true := by
    simp [hasFieldCode, hu2]
  unfold commandArgs
  simp only [hexec, tokenize_firefox c hc, hf, expandTokens, hu1, hu2, he1, he2]
  simp

/-! ## Command line: results -/

/-- C1: for every non-empty path `p` and every code `c` among `%f %F %u %U`,
the command line built for a candidate whose template is `firefox c` has
exactly the two arguments `firefox` and `p` and is `EscapeArg` of the first,
one space, `EscapeArg` of the second; for `/tmp/test.html` this is the text
`"firefox" "/tmp/test.html"`. -/
theorem C1_field_code_substitutes_path (candidate : CandidateInfo) (p : List Char) (c : Char)
    (hp : p ≠ []) (hc : c = 'f' ∨ c = 'F' ∨ c = 'u' ∨ c = 'U')
    (hexec : candidate.exec = "firefox ".toList ++ [percent, c]) :
    commandArgs candidate p = some ["firefox".toList, p]
    ∧ ConstructCommandLine candidate p = EscapeArg "firefox".toList ++ [' '] ++ EscapeArg p
    ∧ (p = "/tmp/test.html".toList →
        ConstructCommandLine candidate p
          = [dquote] ++ "firefox".toList ++ [dquote, ' ', dquote] ++ "/tmp/test.html".toList
              ++ [dquote]) := by
  have hargs := commandArgs_firefox candidate p c hp hc hexec
  have hcmd : ConstructCommandLine candidate p
      = EscapeArg "firefox".toList ++ [' '] ++ EscapeArg p := by
    simp [ConstructCommandLine, hargs, renderLoop]
  refine ⟨hargs, hcmd, ?_⟩
  intro e
  subst e
  rw [hcmd]
  decide

/-- C1 at the template `firefox %u` and the path `/tmp/test.html`. -/
theorem C1_field_code_substitutes_path_witness :
    ConstructCommandLine ⟨false, "Firefox".toList, "firefox %u".toList, [], []⟩
        "/tmp/test.html".toList
      = [dquote] ++ "firefox".toList ++ [dquote, ' ', dquote] ++ "/tmp/test.html".toList
          ++ [dquote] :=
  (C1_field_code_substitutes_path ⟨false, "Firefox".toList, "firefox %u".toList, [], []⟩
    "/tmp/test.html".toList 'u' (by decide) (by decide) (by decide)).2.2 rfl

/-- C2: when no token of the template has a percent sign in its unescaped text
and some token has a non-empty unescaped text, the command line is the
rendering of the non-empty unescaped token texts, in their order, followed by
the path as one last argument; for the template `vim` and the path
`/tmp/a.txt` it is the text `"vim" "/tmp/a.txt"`. -/
theorem C2_path_appended_without_field_code (candidate : CandidateInfo) (p : List Char) :
    ((∀ t ∈ TokenizeDesktopExec candidate.exec, percent ∉ UndoEscapes t) →
      (∃ t ∈ TokenizeDesktopExec candidate.exec, UndoEscapes t ≠ []) →
      commandArgs candidate p
        = some (((TokenizeDesktopExec candidate.exec).map UndoEscapes).filter
                  (fun u => decide (u ≠ [])) ++ [p])
      ∧ ConstructCommandLine candidate p
        = joinArgs (((TokenizeDesktopExec candidate.exec).map UndoEscapes).filter
                  (fun u => decide (u ≠ [])) ++ [p]))
    ∧ (candidate.exec = "vim".toList → p = "/tmp/a.txt".toList →
        ConstructCommandLine candidate p
          = [dquote] ++ "vim".toList ++ [dquote, ' ', dquote] ++ "/tmp/a.txt".toList
              ++ [dquote]) := by
  have main : (∀ t ∈ TokenizeDesktopExec candidate.exec, percent ∉ UndoEscapes t) →
      (∃ t ∈ TokenizeDesktopExec candidate.exec, UndoEscapes t ≠ []) →
      commandArgs candidate p
        = some (((TokenizeDesktopExec candidate.exec).map UndoEscapes).filter
                  (fun u => decide (u ≠ [])) ++ [p])
      ∧ ConstructCommandLine candidate p
        = joinArgs (((TokenizeDesktopExec candidate.exec).map UndoEscapes).filter
                  (fun u => decide (u ≠ [])) ++ [p]) := by
    intro hno hsome
    obtain ⟨t, ht, hne⟩ := hsome
    have htok : TokenizeDesktopExec candidate.exec ≠ [] := List.ne_nil_of_mem ht
    have hexec : candidate.exec ≠ [] := by
      intro e
      rw [e] at htok
      exact htok (by decide)
    have hfc : hasFieldCode (TokenizeDesktopExec candidate.exec) = false := by
      rw [hasFieldCode, List.any_eq_false]
      intro x hx
      simpa using hno x hx
    have hfil : ((TokenizeDesktopExec candidate.exec).map UndoEscapes).filter
        (fun u => decide (u ≠ [])) ≠ [] := by
      apply List.ne_nil_of_mem (a := UndoEscapes t)
      simp only [List.mem_filter, List.mem_map]
      exact ⟨⟨t, ht, rfl⟩, by simpa using hne⟩
    have hargs : commandArgs candidate p
        = some (((TokenizeDesktopExec candidate.exec).map UndoEscapes).filter
                  (fun u => decide (u ≠ [])) ++ [p]) := by
      unfold commandArgs
      simp only [hexec, htok, if_false, hfc, expandTokens_no_percent candidate p _ [] hno,
        List.nil_append]
      rw [if_pos ⟨trivial, hfil⟩]
    refine ⟨hargs, ?_⟩
    simp only [ConstructCommandLine, hargs]
    rw [if_neg (by simp), renderLoop_eq_joinArgs]
  refine ⟨main, ?_⟩
  intro he hp
  have hvim : TokenizeDesktopExec candidate.exec = [⟨"vim".toList, false, false⟩] := by
    rw [he]; decide
  have h := (main (by rw [hvim]; decide) (by rw [hvim]; decide)).2
  rw [h, hvim, hp]
  decide

/-- C2 at the template `vim` and the path `/tmp/a.txt`. -/
theorem C2_path_appended_without_field_code_witness :
    ConstructCommandLine ⟨false, "Vim".toList, "vim".toList, [], []⟩ "/tmp/a.txt".toList
      = joinArgs ["vim".toList, "/tmp/a.txt".toList] :=
  ((C2_path_appended_without_field_code ⟨false, "Vim".toList, "vim".toList, [], []⟩
    "/tmp/a.txt".toList).1 (by decide) (by decide)).2

/-- C3: the template `app %z` gives the empty command line for every path;
and for every template and path, if the field-code scan of the unescaped text
of some token meets a percent sign followed by an unknown character or by
nothing, the command line is empty. -/
theorem C3_unknown_field_code_fails (candidate : CandidateInfo) (p : List Char) :
    (candidate.exec = "app %z".toList → ConstructCommandLine candidate p = [])
    ∧ ((∃ t ∈ TokenizeDesktopExec candidate.exec, scanMeetsBadCode (UndoEscapes t) = true) →
        ConstructCommandLine candidate p = []) := by
  refine ⟨?_, ConstructCommandLine_bad candidate p⟩
  intro he
  apply ConstructCommandLine_bad
  rw [he]
  exact ⟨⟨"%z".toList, false, false⟩, by decide, by decide⟩

/-- C3 at the templates `app %z` and `ls -l %` with the path `/tmp/x`. -/
theorem C3_unknown_field_code_fails_witness :
    ConstructCommandLine ⟨false, [], "app %z".toList, [], []⟩ "/tmp/x".toList = []
    ∧ ConstructCommandLine ⟨false, [], "ls -l %".toList, [], []⟩ "/tmp/x".toList = [] :=
  ⟨(C3_unknown_field_code_fails ⟨false, [], "app %z".toList, [], []⟩ "/tmp/x".toList).1 rfl,
   (C3_unknown_field_code_fails ⟨false, [], "ls -l %".toList, [], []⟩ "/tmp/x".toList).2
     ⟨⟨"%".toList, false, false⟩, by decide, by decide⟩⟩

/-! ## Tokenizer: auxiliary facts -/

theorem TokAgrees_step (s : TokState) (q : QuoteScan) (c : Char) (h : TokAgrees s q) :
    TokAgrees (tokStep s c) (quoteStep q c) := by
  obtain ⟨h1, h2, h3, h4, h5⟩ := h
  obtain ⟨tokens, cur, idq, isq, cq, csq, pb⟩ := s
  obtain ⟨mode, esc⟩ := q
  simp only at h1 h2 h3 h4 h5
  subst h1
  have hds : dquote ≠ squote := by decide
  have hdb : dquote ≠ backslash := by decide
  have hsb : squote ≠ backslash := by decide
  unfold tokStep quoteStep TokAgrees
  cases pb <;> cases idq <;> cases isq <;> cases cq <;> cases csq <;> cases mode <;>
    simp at h2 h3 h4 h5 <;>
    by_cases e1 : c = backslash <;> by_cases e2 : c = dquote <;> by_cases e3 : c = squote <;>
    (try subst e1) <;> (try subst e2) <;> (try subst e3) <;>
    simp_all <;> split_ifs <;> simp_all

theorem TokAgrees_foldl (str : List Char) (s : TokState) (q : QuoteScan) (h : TokAgrees s q) :
    TokAgrees (str.foldl tokStep s) (str.foldl quoteStep q) := by
  induction str generalizing s q with
  | nil => exact h
  | cons c rest ih => exact ih _ _ (TokAgrees_step s q c h)

theorem TokenizeDesktopExec_open (str : List Char) (h : quoteOpenAtEnd str = true) :
    TokenizeDesktopExec str = [] := by
  have hinit : TokAgrees TokState.init ⟨QuoteMode.outside, false⟩ := by
    simp [TokAgrees, TokState.init]
  obtain ⟨_, h2, h3, h4, h5⟩ := TokAgrees_foldl str _ _ hinit
  simp only [quoteOpenAtEnd, decide_eq_true_eq] at h
  unfold TokenizeDesktopExec tokFinish
  generalize str.foldl tokStep TokState.init = s at *
  generalize str.foldl quoteStep ⟨QuoteMode.outside, false⟩ = q at *
  cases hm : q.mode with
  | outside => exact absurd hm h
  | inDouble =>
    have hd := h2.mpr hm
    have hq := h4 hd
    simp [hd, hq]
  | inSingle =>
    have hd := h3.mpr hm
    have hq := h5 hd
    simp [hd, hq]

theorem tok_plain_foldl (u : List Char) (s : TokState)
    (hs : s.prev_backslash = false ∧ s.in_double_quotes = false ∧ s.in_single_quotes = false)
    (hu : ∀ c ∈ u, IsDesktopWhitespace c = false ∧ c ≠ dquote ∧ c ≠ squote ∧ c ≠ backslash) :
    u.foldl tokStep s = { s with cur := s.cur ++ u } := by
  induction u generalizing s with
  | nil => simp
  | cons c rest ih =>
    obtain ⟨hw, hd, hq, hb⟩ := hu c (by simp)
    obtain ⟨h1, h2, h3⟩ := hs
    have hstep : tokStep s c = { s with cur := s.cur ++ [c] } := by
      simp [tokStep, h1, h2, h3, hw, hd, hq, hb]
    rw [List.foldl_cons, hstep, ih]
    · simp
    · exact ⟨h1, h2, h3⟩
    · exact fun x hx => hu x (by simp [hx])

theorem tok_dquoted_foldl (u : List Char) (s : TokState)
    (hs : s.prev_backslash = false ∧ s.in_double_quotes = true ∧ s.in_single_quotes = false)
    (hu : ∀ c ∈ u, c ≠ dquote ∧ c ≠ backslash) :
    u.foldl tokStep s = { s with cur := s.cur ++ u } := by
  induction u generalizing s with
  | nil => simp
  | cons c rest ih =>
    obtain ⟨hd, hb⟩ := hu c (by simp)
    obtain ⟨h1, h2, h3⟩ := hs
    have hstep : tokStep s c = { s with cur := s.cur ++ [c] } := by
      simp [tokStep, h1, h2, h3, hd, hb]
    rw [List.foldl_cons, hstep, ih]
    · simp
    · exact ⟨h1, h2, h3⟩
    · exact fun x hx => hu x (by simp [hx])

theorem tokenize_word_dquoted (u s : List Char) (hne : u ≠ [])
    (hu : ∀ c ∈ u, IsDesktopWhitespace c = false ∧ c ≠ dquote ∧ c ≠ squote ∧ c ≠ backslash)
    (hs : ∀ c ∈ s, c ≠ dquote ∧ c ≠ backslash) :
    TokenizeDesktopExec (u ++ [' ', dquote] ++ s ++ [dquote])
      = [⟨u, false, false⟩, ⟨s, true, false⟩] := by
  unfold TokenizeDesktopExec
  rw [List.foldl_append, List.foldl_append, List.foldl_append,
    tok_plain_foldl u _ (by simp [TokState.init]) hu]
  have hsp : backslash ≠ ' ' ∧ dquote ≠ ' ' ∧ squote ≠ ' ' ∧ dquote ≠ backslash := by decide
  simp only [List.foldl_cons, List.foldl_nil]
  have h1 : tokStep { TokState.init with cur := TokState.init.cur ++ u } ' '
      = { TokState.init with tokens := [⟨u, false, false⟩] } := by
    simp [tokStep, TokState.init, IsDesktopWhitespace, hne, hsp.1.symm, hsp.2.1.symm, hsp.2.2.1.symm]
  rw [h1]
  have h2 : tokStep { TokState.init with tokens := [⟨u, false, false⟩] } dquote
      = { TokState.init with tokens := [⟨u, false, false⟩], in_double_quotes := true,
                             cur_quoted := true } := by
    simp [tokStep, TokState.init, hsp.2.2.2]
  rw [h2, tok_dquoted_foldl s _ (by simp [TokState.init]) hs]
  simp [tokStep, tokFinish, TokState.init, hsp.2.2.2]

/-! ## Tokenizer: results -/

/-- C4: when a double-quote or single-quote region is still open at the end
of the input, `TokenizeDesktopExec` returns the empty list, also when
complete tokens come before the open quote: the input `a "b` gives no
token. -/
theorem C4_unterminated_quote_gives_no_tokens (str : List Char) :
    (quoteOpenAtEnd str = true → TokenizeDesktopExec str = [])
    ∧ TokenizeDesktopExec ['a', ' ', dquote, 'b'] = [] :=
  ⟨TokenizeDesktopExec_open str, by decide⟩

/-- C4 at the inputs `a "b` and `ls 'x y`. -/
theorem C4_unterminated_quote_gives_no_tokens_witness :
    TokenizeDesktopExec ['a', ' ', dquote, 'b'] = []
    ∧ TokenizeDesktopExec ['l', 's', ' ', squote, 'x', ' ', 'y'] = [] :=
  ⟨(C4_unterminated_quote_gives_no_tokens ['a', ' ', dquote, 'b']).1 (by decide),
   (C4_unterminated_quote_gives_no_tokens ['l', 's', ' ', squote, 'x', ' ', 'y']).1 (by decide)⟩

/-- C5: a closed double-quoted region is one token.  For a non-empty word `u`
without whitespace, quotes and backslashes and a string `s` without double
quote and backslash, the input `u "s"` gives exactly the token `u`, not
quoted, and the token `s`, quoted, its text without the two delimiting quotes.
The input `a "b c" 'd\'e'` gives the three texts `a`, `b c` and `d\'e`. -/
theorem C5_quoted_region_is_one_token (u s : List Char) (hne : u ≠ [])
    (hu : ∀ c ∈ u, IsDesktopWhitespace c = false ∧ c ≠ dquote ∧ c ≠ squote ∧ c ≠ backslash)
    (hs : ∀ c ∈ s, c ≠ dquote ∧ c ≠ backslash) :
    TokenizeDesktopExec (u ++ [' ', dquote] ++ s ++ [dquote])
      = [⟨u, false, false⟩, ⟨s, true, false⟩]
    ∧ TokenizeDesktopExec
        (['a', ' ', dquote, 'b', ' ', 'c', dquote, ' ', squote, 'd', backslash, squote, 'e',
          squote])
      = [⟨['a'], false, false⟩, ⟨['b', ' ', 'c'], true, false⟩,
         ⟨['d', backslash, squote, 'e'], false, true⟩] :=
  ⟨tokenize_word_dquoted u s hne hu hs, by decide⟩

/-- C5 at the word `vim` and the quoted string `it's  a file`. -/
theorem C5_quoted_region_is_one_token_witness :
    TokenizeDesktopExec ("vim".toList ++ [' ', dquote] ++ ("it".toList ++ [squote]
        ++ "s  a file".toList) ++ [dquote])
      = [⟨"vim".toList, false, false⟩,
         ⟨"it".toList ++ [squote] ++ "s  a file".toList, true, false⟩] :=
  (C5_quoted_region_is_one_token "vim".toList ("it".toList ++ [squote] ++ "s  a file".toList)
    (by decide) (by decide) (by decide)).1

/-! ## Unescaping -/

theorem drop_eq_getD_cons (text : List Char) (i : Nat) (h : i < text.length) :
    text.drop i = text.getD i ' ' :: text.drop (i + 1) := by
  rw [List.getD_eq_getElem _ _ h]
  exact List.drop_eq_getElem_cons h

theorem unescapeScan_cons_ne (c : Char) (rest : List Char) (h : c ≠ backslash) :
    unescapeScan (c :: rest) = c :: unescapeScan rest := by
  cases rest <;> simp [unescapeScan, h]

theorem UndoEscapesLoop_eq (text : List Char) :
    ∀ (fuel i : Nat) (result : List Char), text.length - i ≤ fuel →
      UndoEscapesLoop text fuel i result = result ++ unescapeScan (text.drop i) := by
  intro fuel
  induction fuel with
  | zero =>
    intro i result h
    have hi : text.length ≤ i := by omega
    simp [UndoEscapesLoop, List.drop_eq_nil_of_le hi, unescapeScan]
  | succ fuel ih =>
    intro i result h
    unfold UndoEscapesLoop
    by_cases hi : i < text.length
    · rw [if_pos hi, drop_eq_getD_cons text i hi]
      by_cases hb : text.getD i ' ' = backslash
      · by_cases hi2 : i + 1 < text.length
        · rw [if_pos ⟨hb, hi2⟩, drop_eq_getD_cons text (i + 1) hi2, hb]
          simp only [unescapeScan, if_true, List.mem_cons, List.mem_singleton,
            List.not_mem_nil, or_false]
          split_ifs
          · rw [ih _ _ (by omega)]; simp
          · rw [ih _ _ (by omega)]; simp
        · rw [if_neg (fun h => hi2 h.2), hb, List.drop_eq_nil_of_le (by omega),
            ih _ _ (by omega), List.drop_eq_nil_of_le (by omega)]
          simp [unescapeScan]
      · rw [if_neg (fun h => hb h.1), ih _ _ (by omega), unescapeScan_cons_ne _ _ hb]
        simp
    · rw [if_neg hi, List.drop_eq_nil_of_le (by omega)]
      simp [unescapeScan]

theorem UndoEscapes_eq_unescapeScan (token : Token) :
    UndoEscapes token = unescapeScan token.text := by
  unfold UndoEscapes
  rw [UndoEscapesLoop_eq token.text _ 0 [] (by omega)]
  simp

/-- C6: `UndoEscapes` is the left-to-right scan of the specification
(`unescapeScan`): an escaped double quote, single quote, backtick, dollar or
backslash loses its backslash, any other backslash stays.  The text `\"`
becomes `"`, the text `\z` stays, and the result does not depend on the two
quote flags of the token. -/
theorem C6_UndoEscapes_is_the_scan (token : Token) :
    UndoEscapes token = unescapeScan token.text
    ∧ UndoEscapes ⟨[backslash, dquote], false, false⟩ = [dquote]
    ∧ UndoEscapes ⟨[backslash, 'z'], false, false⟩ = [backslash, 'z']
    ∧ (∀ q sq : Bool, UndoEscapes ⟨token.text, q, sq⟩ = UndoEscapes token) :=
  ⟨UndoEscapes_eq_unescapeScan token, by decide, by decide, fun _ _ => rfl⟩

/-! ## Rendering of one argument -/

theorem foldl_escStep (arg out : List Char) :
    arg.foldl escStep out = out ++ escapedInterior arg := by
  induction arg generalizing out with
  | nil => simp [escapedInterior]
  | cons c rest ih =>
    rw [List.foldl_cons, ih]
    simp only [escStep, escapedInterior, List.mem_cons, List.mem_singleton, List.not_mem_nil,
      or_false]
    split_ifs <;> simp

theorem EscapeArg_eq (arg : List Char) :
    EscapeArg arg = dquote :: (escapedInterior arg ++ [dquote]) := by
  simp [EscapeArg, foldl_escStep]

theorem dquoteDecode_cons_ne (c : Char) (rest : List Char) (h : c ≠ backslash) :
    dquoteDecode (c :: rest) = c :: dquoteDecode rest := by
  cases rest <;> simp [dquoteDecode, h]

theorem hasUnescapedSpecial_cons_ne (c : Char) (rest : List Char) (h : c ≠ backslash) :
    hasUnescapedSpecial (c :: rest)
      = if c = dquote ∨ c = dollar ∨ c = backtick then true else hasUnescapedSpecial rest := by
  cases rest <;> simp [hasUnescapedSpecial, h]

theorem dquoteDecode_escapedInterior (arg : List Char) :
    dquoteDecode (escapedInterior arg) = arg := by
  induction arg with
  | nil => rfl
  | cons c rest ih =>
    simp only [escapedInterior, List.mem_cons, List.mem_singleton, List.not_mem_nil, or_false]
    split_ifs with h
    · simp [dquoteDecode, ih]
    · have hb : c ≠ backslash := fun e => h (Or.inl e)
      rw [dquoteDecode_cons_ne _ _ hb, ih]

theorem hasUnescapedSpecial_escapedInterior (arg : List Char) :
    hasUnescapedSpecial (escapedInterior arg) = false := by
  induction arg with
  | nil => rfl
  | cons c rest ih =>
    simp only [escapedInterior, List.mem_cons, List.mem_singleton, List.not_mem_nil, or_false]
    split_ifs with h
    · simp [hasUnescapedSpecial, ih]
    · have hb : c ≠ backslash := fun e => h (Or.inl e)
      have hs : ¬ (c = dquote ∨ c = dollar ∨ c = backtick) := fun e => h (Or.inr e)
      rw [hasUnescapedSpecial_cons_ne _ _ hb, if_neg hs, ih]

/-- C7: `EscapeArg a` is a double quote, the interior, a double quote, where
the interior is `a` with one backslash added before every backslash, double
quote, dollar and backtick and every other character unchanged; the interior
has no unescaped double quote, dollar or backtick, and reading it by the
double-quote rule gives back `a`. -/
theorem C7_EscapeArg_quotes_and_decodes (a : List Char) :
    EscapeArg a = [dquote] ++ escapedInterior a ++ [dquote]
    ∧ hasUnescapedSpecial (escapedInterior a) = false
    ∧ dquoteDecode (escapedInterior a) = a :=
  ⟨by simp [EscapeArg_eq], hasUnescapedSpecial_escapedInterior a,
   dquoteDecode_escapedInterior a⟩

/-! ## MIME types of a path: auxiliary facts -/

theorem findChar_ne_none_iff (c : Char) (s : List Char) : findChar c s ≠ none ↔ c ∈ s := by
  induction s with
  | nil => simp [findChar]
  | cons d rest ih =>
    by_cases hd : d = c
    · simp [findChar, hd]
    · have hd2 : ¬ c = d := fun e => hd e.symm
      simp only [findChar, hd, if_false, List.mem_cons, hd2, false_or]
      rw [← ih]
      cases findChar c rest <;> simp

theorem add_unique_eq (st : MimeAcc) (mime : List Char) :
    add_unique st mime
      = if validMime mime = true ∧ mime ∉ st.seen then
          { mime_types := st.mime_types ++ [mime], seen := mime :: st.seen }
        else st := by
  unfold add_unique validMime
  simp only [findChar_ne_none_iff, Bool.and_eq_true, decide_eq_true_eq, and_assoc]

theorem add_unique_inv (st : MimeAcc) (mime : List Char) (h : MimeInv st) :
    MimeInv (add_unique st mime) := by
  rw [add_unique_eq]
  split_ifs with hc
  · obtain ⟨hn, hs⟩ := h
    refine ⟨?_, ?_⟩
    · have hnot : mime ∉ st.mime_types := fun hm => hc.2 ((hs mime).mpr hm)
      simpa [List.nodup_append, hn] using hnot
    · intro m
      simp [hs m, or_comm]
  · exact h

theorem add_unique_mono (st : MimeAcc) (mime x : List Char) (hx : x ∈ st.mime_types) :
    x ∈ (add_unique st mime).mime_types := by
  rw [add_unique_eq]
  split_ifs <;> simp [hx]

theorem add_unique_mem (st : MimeAcc) (mime : List Char) (h : MimeInv st)
    (hv : validMime mime = true) : mime ∈ (add_unique st mime).mime_types := by
  rw [add_unique_eq]
  split_ifs with hc
  · simp
  · have : mime ∈ st.seen := by
      by_contra hns
      exact hc ⟨hv, hns⟩
    exact (h.2 mime).mp this

theorem add_unique_fresh (st : MimeAcc) (mime : List Char) (h : MimeInv st)
    (hv : validMime mime = true) (hn : mime ∉ st.mime_types) :
    (add_unique st mime).mime_types = st.mime_types ++ [mime] := by
  rw [add_unique_eq, if_pos ⟨hv, fun hs => hn ((h.2 mime).mp hs)⟩]

theorem foldl_inv {α : Type} (f : MimeAcc → α → MimeAcc)
    (hf : ∀ st a, MimeInv st → MimeInv (f st a)) (l : List α) (st : MimeAcc)
    (h : MimeInv st) : MimeInv (l.foldl f st) := by
  induction l generalizing st with
  | nil => exact h
  | cons a rest ih => exact ih _ (hf st a h)

theorem plusStep_inv (st : MimeAcc) (mime : List Char) (h : MimeInv st) :
    MimeInv (plusStep st mime) := by
  unfold plusStep
  split
  · exact add_unique_inv _ _ h
  · exact h

theorem extensionStep_inv (ext : List Char) (st : MimeAcc)
    (row : List (List Char) × List Char) (h : MimeInv st) :
    MimeInv (extensionStep ext st row) := by
  unfold extensionStep
  split_ifs
  · exact add_unique_inv _ _ h
  · exact h

theorem wildcardStep_inv (st : MimeAcc) (mime : List Char) (h : MimeInv st) :
    MimeInv (wildcardStep st mime) := by
  unfold wildcardStep
  have h1 : MimeInv (match findChar '/' mime with
      | some slash_pos => add_unique st (mime.take slash_pos ++ "/*".toList)
      | none => st) := by
    split
    · exact add_unique_inv _ _ h
    · exact h
  simp only
  split_ifs
  · exact add_unique_inv _ _ h1
  · exact h1

theorem collectOracles_inv (h : Host) (pathname : List Char) :
    MimeInv (collectOracles h pathname) := by
  unfold collectOracles
  exact add_unique_inv _ _ (add_unique_inv _ _ ⟨List.nodup_nil, fun m => Iff.rfl⟩)

theorem collectExtension_inv (h : Host) (pathname : List Char) (st : MimeAcc)
    (hst : MimeInv st) : MimeInv (collectExtension h pathname st) := by
  unfold collectExtension
  split
  · exact foldl_inv _ (fun s r hs => extensionStep_inv _ s r hs) _ _ hst
  · exact hst

theorem collectBeforeCatchAll_inv (h : Host) (pathname : List Char) :
    MimeInv (collectBeforeCatchAll h pathname) := by
  unfold collectBeforeCatchAll
  exact foldl_inv _ wildcardStep_inv _ _
    (collectExtension_inv h pathname _ (foldl_inv _ plusStep_inv _ _ (collectOracles_inv h pathname)))

/-- C8: the list of `CollectAndPrioritizeMimeTypes` is never empty, so the
front of the list exists and `GetAppCandidates` never takes its early return
on an empty list; the list contains `application/x-executable` and
`application/octet-stream`; and when neither of the two is in the list built
by the earlier steps, the list is that list followed by the two, in this
order. -/
theorem C8_catch_all_types_present (h : Host) (pathname : List Char) :
    CollectAndPrioritizeMimeTypes h pathname ≠ []
    ∧ (∃ front, (CollectAndPrioritizeMimeTypes h pathname).head? = some front)
    ∧ GetAppCandidates h pathname
        = (h.stdSort (rankedCandidates h (CollectAndPrioritizeMimeTypes h pathname))).map
            (fun ranked => ranked.info)
    ∧ "application/x-executable".toList ∈ CollectAndPrioritizeMimeTypes h pathname
    ∧ "application/octet-stream".toList ∈ CollectAndPrioritizeMimeTypes h pathname
    ∧ ("application/x-executable".toList ∉ (collectBeforeCatchAll h pathname).mime_types →
        "application/octet-stream".toList ∉ (collectBeforeCatchAll h pathname).mime_types →
        CollectAndPrioritizeMimeTypes h pathname
          = (collectBeforeCatchAll h pathname).mime_types
              ++ ["application/x-executable".toList, "application/octet-stream".toList]) := by
  have h5 := collectBeforeCatchAll_inv h pathname
  have h6 := add_unique_inv _ "application/x-executable".toList h5
  have hx : "application/x-executable".toList ∈ CollectAndPrioritizeMimeTypes h pathname :=
    add_unique_mono _ _ _ (add_unique_mem _ _ h5 (by decide))
  have ho : "application/octet-stream".toList ∈ CollectAndPrioritizeMimeTypes h pathname :=
    add_unique_mem _ _ h6 (by decide)
  have hne : CollectAndPrioritizeMimeTypes h pathname ≠ [] := List.ne_nil_of_mem hx
  refine ⟨hne, ?_, ?_, hx, ho, ?_⟩
  · cases hr : CollectAndPrioritizeMimeTypes h pathname with
    | nil => exact absurd hr hne
    | cons a rest => exact ⟨a, rfl⟩
  · unfold GetAppCandidates
    simp only
    rw [if_neg hne]
  · intro hnx hno
    unfold CollectAndPrioritizeMimeTypes
    have e1 := add_unique_fresh _ "application/x-executable".toList h5 (by decide) hnx
    have hno2 : "application/octet-stream".toList
        ∉ (add_unique (collectBeforeCatchAll h pathname)
            "application/x-executable".toList).mime_types := by
      rw [e1]
      simp only [List.mem_append, List.mem_singleton, not_or]
      exact ⟨hno, by decide⟩
    simp only
    rw [add_unique_fresh _ "application/octet-stream".toList h6 (by decide) hno2, e1]
    simp

/-- C8 on the example host and the path `x.py`, for which the earlier steps
give `text/x-python` only. -/
theorem C8_catch_all_types_present_witness :
    CollectAndPrioritizeMimeTypes exampleHost "x.py".toList
      = (collectBeforeCatchAll exampleHost "x.py".toList).mime_types
          ++ ["application/x-executable".toList, "application/octet-stream".toList] :=
  (C8_catch_all_types_present exampleHost "x.py".toList).2.2.2.2.2 (by decide) (by decide)

theorem firstOccurrences_filter (p : List Char → Bool) (l : List (List Char)) :
    firstOccurrences (l.filter p) = (firstOccurrences l).filter p := by
  induction l with
  | nil => rfl
  | cons y l ih =>
    by_cases hy : p y = true
    · simp only [List.filter_cons, hy, if_true, firstOccurrences, ih, List.filter_filter]
      congr 1
      apply List.filter_congr
      intro z _
      exact Bool.and_comm _ _
    · rw [List.filter_cons_of_neg hy, ih, firstOccurrences, List.filter_cons_of_neg hy,
        List.filter_filter]
      apply List.filter_congr
      intro z _
      by_cases hz : z = y
      · subst hz; simp [hy]
      · simp [hz]

theorem firstOccurrences_subset (l : List (List Char)) (x : List Char)
    (hx : x ∈ firstOccurrences l) : x ∈ l := by
  induction l with
  | nil => simp [firstOccurrences] at hx
  | cons y l ih =>
    simp only [firstOccurrences, List.mem_cons, List.mem_filter] at hx
    rcases hx with e | ⟨hm, _⟩
    · simp [e]
    · simp [ih hm]

theorem firstOccurrences_nodup (l : List (List Char)) : (firstOccurrences l).Nodup := by
  induction l with
  | nil => simp [firstOccurrences]
  | cons y l ih =>
    simp only [firstOccurrences, List.nodup_cons, List.mem_filter, decide_eq_true_eq]
    exact ⟨fun h => h.2 rfl, ih.filter _⟩

theorem foldl_add_unique (xs : List (List Char)) (st : MimeAcc) (h : MimeInv st) :
    (xs.foldl add_unique st).mime_types
      = st.mime_types
          ++ firstOccurrences
               (xs.filter (fun m => validMime m && decide (m ∉ st.mime_types))) := by
  induction xs generalizing st with
  | nil => simp [firstOccurrences]
  | cons x xs ih =>
    rw [List.foldl_cons, ih _ (add_unique_inv st x h), add_unique_eq]
    by_cases hc : validMime x = true ∧ x ∉ st.seen
    · have hx : x ∉ st.mime_types := fun hm => hc.2 ((h.2 x).mpr hm)
      rw [if_pos hc]
      simp only [List.filter_cons, hc.1, hx, Bool.true_and, not_false_eq_true, decide_True,
        if_true, firstOccurrences, List.append_assoc, List.singleton_append]
      congr 2
      rw [← firstOccurrences_filter, List.filter_filter]
      congr 1
      apply List.filter_congr
      intro z _
      by_cases hz : z = x
      · subst hz; simp
      · by_cases hzm : z ∈ st.mime_types <;> simp [hz, hzm]
    · rw [if_neg hc]
      have hx : (validMime x && decide (x ∉ st.mime_types)) = false := by
        by_cases hv : validMime x = true
        · have : x ∈ st.seen := by
            by_contra hns
            exact hc ⟨hv, hns⟩
          simp [(h.2 x).mp this]
        · simp [hv]
      simp only [List.filter_cons, hx]
      rfl

theorem foldl_add_unique_init (xs : List (List Char)) :
    (xs.foldl add_unique ⟨[], []⟩).mime_types = firstOccurrences (xs.filter validMime) := by
  rw [foldl_add_unique xs ⟨[], []⟩ ⟨List.nodup_nil, fun m => Iff.rfl⟩]
  simp

theorem foldl_plusStep (base : List (List Char)) (st : MimeAcc) :
    base.foldl plusStep st = (base.filterMap plusGeneralization).foldl add_unique st := by
  induction base generalizing st with
  | nil => rfl
  | cons m rest ih =>
    rw [List.foldl_cons, ih]
    cases hf : findChar '+' m <;> simp [plusStep, plusGeneralization, hf, List.filterMap_cons]

theorem foldl_extensionStep (ext : List Char) (table : List (List (List Char) × List Char))
    (st : MimeAcc) :
    table.foldl (extensionStep ext) st
      = ((table.filter (fun row => decide (ext ∈ row.1))).map (fun row => row.2)).foldl
          add_unique st := by
  induction table generalizing st with
  | nil => rfl
  | cons row rest ih =>
    rw [List.foldl_cons, ih]
    unfold extensionStep
    by_cases he : ext ∈ row.1 <;> simp [List.filter_cons, he]

theorem collectExtension_eq (h : Host) (pathname : List Char) (st : MimeAcc) :
    collectExtension h pathname st = (extensionMimes h pathname).foldl add_unique st := by
  unfold collectExtension extensionMimes
  cases rfindChar '.' pathname with
  | none => rfl
  | some dot_pos => exact foldl_extensionStep _ _ _

theorem foldl_wildcardStep (base : List (List Char)) (st : MimeAcc) :
    base.foldl wildcardStep st = (base.flatMap wildcardTerms).foldl add_unique st := by
  induction base generalizing st with
  | nil => rfl
  | cons m rest ih =>
    rw [List.foldl_cons, ih, List.flatMap_cons, List.foldl_append]
    congr 1
    unfold wildcardStep wildcardTerms
    cases findChar '/' m <;> simp only [] <;> split_ifs <;> rfl

theorem collectOracles_eq (h : Host) (pathname : List Char) :
    collectOracles h pathname = (oracleMimes h pathname).foldl add_unique ⟨[], []⟩ := rfl

theorem Collect_eq_foldl (h : Host) (pathname : List Char) :
    CollectAndPrioritizeMimeTypes h pathname
      = ((producedMimes h pathname).foldl add_unique ⟨[], []⟩).mime_types := by
  unfold CollectAndPrioritizeMimeTypes collectBeforeCatchAll producedMimes
  simp only [foldl_plusStep, collectExtension_eq, foldl_wildcardStep, List.foldl_append,
    List.foldl_cons, List.foldl_nil, collectOracles_eq, foldl_add_unique_init]

/-- C9: the entries of the list of `CollectAndPrioritizeMimeTypes` are
pairwise distinct as exact strings, and the list is the sequence of the
accepted strings that the steps produce, each kept once at the place of its
first production. -/
theorem C9_prioritized_list_has_no_duplicate (h : Host) (pathname : List Char) :
    (CollectAndPrioritizeMimeTypes h pathname).Nodup
    ∧ (∀ i j : Fin (CollectAndPrioritizeMimeTypes h pathname).length,
        (CollectAndPrioritizeMimeTypes h pathname).get i
          = (CollectAndPrioritizeMimeTypes h pathname).get j → i = j)
    ∧ CollectAndPrioritizeMimeTypes h pathname
        = firstOccurrences ((producedMimes h pathname).filter validMime) := by
  have e : CollectAndPrioritizeMimeTypes h pathname
      = firstOccurrences ((producedMimes h pathname).filter validMime) := by
    rw [Collect_eq_foldl, foldl_add_unique_init]
  have hn : (CollectAndPrioritizeMimeTypes h pathname).Nodup := by
    rw [e]; exact firstOccurrences_nodup _
  exact ⟨hn, fun i j hij => List.nodup_iff_injective_get.mp hn hij, e⟩

/-! ## Entry files: auxiliary facts -/

theorem Trim_cons_of_not_space (c : Char) (rest : List Char) (hc : isspace c = false) :
    ∃ r, Trim (c :: rest) = c :: r := by
  unfold Trim
  rw [List.dropWhile_cons_of_neg (by simp [hc])]
  have hp : (c :: rest).rdropWhile isspace <+: c :: rest := List.rdropWhile_prefix _ _
  cases hr : (c :: rest).rdropWhile isspace with
  | nil =>
    have := (List.rdropWhile_eq_nil_iff).mp hr c (by simp)
    simp [hc] at this
  | cons d r =>
    rw [hr] at hp
    obtain ⟨t, ht⟩ := hp
    simp only [List.cons_append, List.cons.injEq] at ht
    exact ⟨r, by rw [ht.1]⟩

theorem Trim_head_not_space (raw : List Char) (c : Char) (r : List Char)
    (h : Trim raw = c :: r) : isspace c = false := by
  unfold Trim at h
  have hp : (raw.dropWhile isspace).rdropWhile isspace <+: raw.dropWhile isspace :=
    List.rdropWhile_prefix _ _
  rw [h] at hp
  obtain ⟨t, ht⟩ := hp
  have hh := List.head?_dropWhile_not isspace raw
  rw [← ht] at hh
  simpa using hh

theorem keyValueOf_Hidden_head (raw : List Char) (v : List Char)
    (h : keyValueOf (Trim raw) = some ("Hidden".toList, v)) :
    ∃ r, Trim raw = 'H' :: r := by
  cases hl : Trim raw with
  | nil => rw [hl] at h; simp [keyValueOf, findChar] at h
  | cons c r =>
    have hc := Trim_head_not_space raw c r hl
    rw [hl] at h
    unfold keyValueOf at h
    by_cases he : c = '='
    · subst he
      simp [findChar] at h
      have : Trim [] = [] := by decide
      rw [this] at h
      exact absurd h.1 (by decide)
    · simp only [findChar, he, if_false] at h
      cases hf : findChar '=' r with
      | none => rw [hf] at h; simp at h
      | some i =>
        rw [hf] at h
        simp only [Option.map_some', List.take_succ_cons, Option.some.injEq,
          Prod.mk.injEq] at h
        obtain ⟨r2, hr2⟩ := Trim_cons_of_not_space c (r.take i) hc
        rw [hr2] at h
        have hcH : c = 'H' := by
          have := h.1
          simp only [String.toList] at this
          exact (List.cons.inj this).1
        exact ⟨r, by rw [hcH]⟩

theorem parseKeyValue_hidden_mono (h : Host) (s : ParseState) (line : List Char)
    (hs : s.hidden = true) : (parseKeyValue h s line).hidden = true := by
  unfold parseKeyValue
  split
  · exact hs
  · simp only
    split_ifs <;> simp [hs]

theorem parseKeyValue_main (h : Host) (s : ParseState) (line : List Char) :
    (parseKeyValue h s line).in_main_section = s.in_main_section := by
  unfold parseKeyValue
  split
  · rfl
  · simp only
    split_ifs <;> rfl

theorem parseKeyValue_sets_hidden (h : Host) (s : ParseState) (line : List Char)
    (hk : keyValueOf line = some ("Hidden".toList, "true".toList)) :
    (parseKeyValue h s line).hidden = true := by
  unfold keyValueOf at hk
  unfold parseKeyValue
  cases hf : findChar '=' line with
  | none => rw [hf] at hk; simp at hk
  | some eq_pos =>
    rw [hf] at hk
    simp only [Option.map_some', Option.some.injEq, Prod.mk.injEq] at hk
    simp only [hk.1, hk.2]
    rw [if_neg (by decide), if_neg (by decide), if_neg (by decide), if_pos (by decide)]

theorem parseLines_cons (h : Host) (raw : List Char) (good : Bool)
    (rest : List (List Char × Bool)) (s : ParseState) :
    parseLines h ((raw, good) :: rest) s
      = if good = false then none
        else if Trim raw = [] ∨ (Trim raw).head? = some '#' then parseLines h rest s
        else if Trim raw = "[Desktop Entry]".toList then
          parseLines h rest { s with in_main_section := true }
        else if (Trim raw).head? = some '[' then
          parseLines h rest { s with in_main_section := false }
        else if s.in_main_section = true then parseLines h rest (parseKeyValue h s (Trim raw))
        else parseLines h rest s := by
  rw [parseLines]

theorem parseLines_append (h : Host) (A B : List (List Char × Bool)) (s s2 : ParseState)
    (hp : parseLines h (A ++ B) s = some s2) :
    ∃ t, parseLines h A s = some t ∧ parseLines h B t = some s2 := by
  induction A generalizing s with
  | nil => exact ⟨s, rfl, hp⟩
  | cons l rest ih =>
    obtain ⟨raw, good⟩ := l
    rw [List.cons_append, parseLines_cons] at hp
    rw [parseLines_cons]
    split_ifs at hp ⊢ <;> exact ih _ hp

theorem parseLines_hidden_mono (h : Host) (L : List (List Char × Bool)) (s s2 : ParseState)
    (hs : s.hidden = true) (hp : parseLines h L s = some s2) : s2.hidden = true := by
  induction L generalizing s with
  | nil =>
    simp only [parseLines, Option.some.injEq] at hp
    rw [← hp]; exact hs
  | cons l rest ih =>
    obtain ⟨raw, good⟩ := l
    rw [parseLines_cons] at hp
    split_ifs at hp
    · exact ih _ hs hp
    · refine ih _ ?_ hp; exact hs
    · refine ih _ ?_ hp; exact hs
    · exact ih _ (parseKeyValue_hidden_mono h s _ hs) hp
    · exact ih _ hs hp

theorem parseLines_main_stays (h : Host) (L : List (List Char × Bool)) (s s2 : ParseState)
    (hL : ∀ m ∈ L.map (fun l => Trim l.1), m.head? ≠ some '[')
    (hs : s.in_main_section = true) (hp : parseLines h L s = some s2) :
    s2.in_main_section = true := by
  induction L generalizing s with
  | nil =>
    simp only [parseLines, Option.some.injEq] at hp
    rw [← hp]; exact hs
  | cons l rest ih =>
    obtain ⟨raw, good⟩ := l
    have hraw : (Trim raw).head? ≠ some '[' := hL _ (by simp)
    have hrest : ∀ m ∈ rest.map (fun l => Trim l.1), m.head? ≠ some '[' :=
      fun m hm => hL m (by simp only [List.map_cons, List.mem_cons]; exact Or.inr hm)
    rw [parseLines_cons] at hp
    split_ifs at hp
    · exact ih _ hrest hs hp
    · exact ih _ hrest rfl hp
    · exact ih _ hrest (by rw [parseKeyValue_main]; exact hs) hp

theorem parseLines_header (h : Host) (l : List Char × Bool) (s t : ParseState)
    (hl : Trim l.1 = "[Desktop Entry]".toList) (hp : parseLines h [l] s = some t) :
    t.in_main_section = true := by
  obtain ⟨raw, good⟩ := l
  simp only at hl
  rw [parseLines_cons, hl] at hp
  simp only [parseLines] at hp
  split_ifs at hp with h1 h2
  · exact absurd h2 (by decide)
  · simp only [Option.some.injEq] at hp
    rw [← hp]

theorem parseLines_hidden_line (h : Host) (l : List Char × Bool) (s t : ParseState)
    (hk : keyValueOf (Trim l.1) = some ("Hidden".toList, "true".toList))
    (hs : s.in_main_section = true) (hp : parseLines h [l] s = some t) :
    t.hidden = true := by
  obtain ⟨raw, good⟩ := l
  simp only at hk
  obtain ⟨r, hr⟩ := keyValueOf_Hidden_head raw _ hk
  rw [parseLines_cons, hr] at hp
  simp only [parseLines] at hp
  rw [hr] at hk
  split_ifs at hp with h1 h2 h3 h4
  · simp at h2
  · exact absurd (List.cons.inj h3).1 (by decide)
  · simp at h4
  · simp only [Option.some.injEq] at hp
    rw [← hp]
    exact parseKeyValue_sets_hidden h s _ hk

theorem map_eq_singleton {α β : Type} (f : α → β) (l : List α) (b : β)
    (h : l.map f = [b]) : ∃ a, l = [a] ∧ f a = b := by
  cases l with
  | nil => simp at h
  | cons a rest =>
    cases rest with
    | nil => exact ⟨a, rfl, by simpa using h⟩
    | cons a2 rest2 => simp at h

theorem parseLines_hidden (h : Host) (content : List Char) (s : ParseState)
    (hh : hiddenInMain content)
    (hp : parseLines h (getlines '\n' content) ParseState.init = some s) :
    s.hidden = true := by
  obtain ⟨before, between, after, line, hsplit, hbetween, hk⟩ := hh
  unfold fileLines at hsplit
  rw [List.map_map] at hsplit
  obtain ⟨L1, Lafter, hL, h1, _⟩ := List.map_eq_append_iff.mp hsplit
  obtain ⟨L2, Lline, hL1, h2, h3⟩ := List.map_eq_append_iff.mp h1
  obtain ⟨L3, Lbetween, hL2, h4, h5⟩ := List.map_eq_append_iff.mp h2
  obtain ⟨Lbefore, Lhdr, hL3, _, h6⟩ := List.map_eq_append_iff.mp h4
  obtain ⟨lhdr, rfl, hhdr⟩ := map_eq_singleton _ _ _ h6
  obtain ⟨lline, rfl, hline⟩ := map_eq_singleton _ _ _ h3
  subst hL3
  subst hL2
  subst hL1
  rw [hL] at hp
  obtain ⟨t3, hp3, hp4⟩ := parseLines_append h _ _ _ _ hp
  obtain ⟨t2, hp2, hpl⟩ := parseLines_append h _ _ _ _ hp3
  obtain ⟨t1, hp1, hpm⟩ := parseLines_append h _ _ _ _ hp2
  obtain ⟨t0, _, hph⟩ := parseLines_append h _ _ _ _ hp1
  have m1 : t1.in_main_section = true := parseLines_header h lhdr t0 t1 hhdr hph
  have m2 : t2.in_main_section = true :=
    parseLines_main_stays h Lbetween t1 t2
      (fun m hm => hbetween m (by rw [← h5]; simpa using hm)) m1 hpm
  have hid : t3.hidden = true :=
    parseLines_hidden_line h lline t2 t3 (by rw [← hline] at hk; exact hk) m2 hpl
  exact parseLines_hidden_mono h Lafter t3 s hid hp4

theorem ParseDesktopFile_hidden (h : Host) (path content : List Char)
    (hr : h.readFile path = some content) (hh : hiddenInMain content) :
    ParseDesktopFile h path = none := by
  unfold ParseDesktopFile
  rw [hr]
  simp only
  cases hp : parseLines h (getlines '\n' content) ParseState.init with
  | none => rfl
  | some s =>
    have := parseLines_hidden h content s hh hp
    simp [parseFinish, this]

/-! ## Candidates: auxiliary facts -/

theorem markDefault_map_info (h : Host) (d : List Char) (l : List RankedCandidate) :
    (markDefault h d l).map (fun r => r.info) = l.map (fun r => r.info) := by
  induction l with
  | nil => rfl
  | cons c rest ih =>
    unfold markDefault
    split_ifs
    · rfl
    · simp [ih]

theorem candidateStep_parsed (h : Host) (mimes : List (List Char)) (paths : List (List Char))
    (st : List RankedCandidate × List (List Char)) (fp : List Char) (hfp : fp ∈ paths)
    (hst : ∀ rc ∈ st.1, ∃ p ∈ paths, ParseDesktopFile h p = some rc.info) :
    ∀ rc ∈ (candidateStep h mimes st fp).1, ∃ p ∈ paths, ParseDesktopFile h p = some rc.info := by
  unfold candidateStep
  cases GetBestMimeMatchRank h fp mimes with
  | none => exact hst
  | some rank =>
    cases hp : ParseDesktopFile h fp with
    | none => exact hst
    | some candidate =>
      simp only
      split_ifs
      · exact hst
      · intro rc hrc
        rcases List.mem_append.mp hrc with hm | hm
        · exact hst rc hm
        · rw [List.mem_singleton] at hm
          exact ⟨fp, hfp, by rw [hm]; exact hp⟩

theorem foldl_candidateStep_parsed (h : Host) (mimes : List (List Char))
    (paths l : List (List Char)) (st : List RankedCandidate × List (List Char))
    (hl : ∀ fp ∈ l, fp ∈ paths)
    (hst : ∀ rc ∈ st.1, ∃ p ∈ paths, ParseDesktopFile h p = some rc.info) :
    ∀ rc ∈ (l.foldl (candidateStep h mimes) st).1,
      ∃ p ∈ paths, ParseDesktopFile h p = some rc.info := by
  induction l generalizing st with
  | nil => exact hst
  | cons fp rest ih =>
    exact ih _ (fun q hq => hl q (by simp [hq]))
      (candidateStep_parsed h mimes paths st fp (hl fp (by simp)) hst)

theorem GetAppCandidates_parsed (h : Host) (hsort : ∀ l, (h.stdSort l).Perm l)
    (pathname : List Char) (c : CandidateInfo) (hc : c ∈ GetAppCandidates h pathname) :
    ∃ p ∈ scanPaths h, ParseDesktopFile h p = some c := by
  unfold GetAppCandidates at hc
  simp only at hc
  split_ifs at hc with hm
  · simp at hc
  · obtain ⟨rc, hrc, rfl⟩ := List.mem_map.mp hc
    have hrc2 := (hsort _).mem_iff.mp hrc
    have hinfo : rc.info ∈ ((scanPaths h).foldl
        (candidateStep h (CollectAndPrioritizeMimeTypes h pathname)) ([], [])).1.map
          (fun r => r.info) := by
      unfold rankedCandidates at hrc2
      simp only at hrc2
      split at hrc2
      · exact List.mem_map_of_mem _ hrc2
      · split_ifs at hrc2
        · rw [← markDefault_map_info h]
          exact List.mem_map_of_mem _ hrc2
        · exact List.mem_map_of_mem _ hrc2
    obtain ⟨rc2, hrc3, he⟩ := List.mem_map.mp hinfo
    obtain ⟨p, hp, hparse⟩ := foldl_candidateStep_parsed h _ (scanPaths h) (scanPaths h) ([], [])
      (fun _ hq => hq) (by simp) rc2 hrc3
    exact ⟨p, hp, by rw [← he]; exact hparse⟩

/-- C10: an entry file whose main section has a line with the key `Hidden`
and the value `true` gives no record, whatever its other lines are; so every
candidate that `GetAppCandidates` returns is the record of a scanned entry
file without such a line. -/
theorem C10_hidden_entry_is_rejected (h : Host) :
    (∀ path content, h.readFile path = some content → hiddenInMain content →
      ParseDesktopFile h path = none)
    ∧ ((∀ l, (h.stdSort l).Perm l) →
        ∀ pathname c, c ∈ GetAppCandidates h pathname →
          ∃ full_path content, full_path ∈ scanPaths h
            ∧ h.readFile full_path = some content
            ∧ ¬ hiddenInMain content
            ∧ ParseDesktopFile h full_path = some c) := by
  refine ⟨ParseDesktopFile_hidden h, ?_⟩
  intro hsort pathname c hc
  obtain ⟨p, hp, hparse⟩ := GetAppCandidates_parsed h hsort pathname c hc
  cases hr : h.readFile p with
  | none => simp [ParseDesktopFile, hr] at hparse
  | some content =>
    refine ⟨p, content, hp, hr, ?_, hparse⟩
    intro hh
    rw [ParseDesktopFile_hidden h p content hr hh] at hparse
    cases hparse

/-- C10 on the example host: the hidden entry `ghost.desktop`, which has a
later line `Hidden=false`, gives no record, and the candidate returned for `notes.txt` is the record of a scanned
file that is not hidden. -/
theorem C10_hidden_entry_is_rejected_witness :
    ParseDesktopFile exampleHost "/usr/share/applications/ghost.desktop".toList = none
    ∧ ∃ full_path content, full_path ∈ scanPaths exampleHost
        ∧ exampleHost.readFile full_path = some content
        ∧ ¬ hiddenInMain content
        ∧ ParseDesktopFile exampleHost full_path
            = some ⟨false, "Vim".toList, "vim %F".toList, "text/plain;".toList,
                    "/usr/share/applications/vim.desktop".toList⟩ :=
  ⟨(C10_hidden_entry_is_rejected exampleHost).1
      "/usr/share/applications/ghost.desktop".toList
      "[Desktop Entry]\nType=Application\nExec=ghost\nHidden=true\nHidden=false\nMimeType=text/plain;\n".toList
      (by decide)
      ⟨[], ["Type=Application".toList, "Exec=ghost".toList],
        ["Hidden=false".toList, "MimeType=text/plain;".toList],
        "Hidden=true".toList, by decide, by decide, by decide⟩,
   (C10_hidden_entry_is_rejected exampleHost).2
      (fun l => List.perm_insertionSort _ l) "notes.txt".toList
      ⟨false, "Vim".toList, "vim %F".toList, "text/plain;".toList,
        "/usr/share/applications/vim.desktop".toList⟩
      (by decide)⟩

/-! ## Ordering of ranked candidates: auxiliary facts -/

theorem wstring_lt_asymm (a b : List Char) (h : wstring_lt a b = true) :
    wstring_lt b a = false := by
  induction a generalizing b with
  | nil => cases b <;> simp [wstring_lt] at h ⊢
  | cons x xs ih =>
    cases b with
    | nil => simp [wstring_lt] at h
    | cons y ys =>
      simp only [wstring_lt] at h ⊢
      by_cases hxy : x.toNat < y.toNat
      · have hyx : ¬ y.toNat < x.toNat := by omega
        simp [hxy, hyx]
      · by_cases hyx : y.toNat < x.toNat
        · simp [hxy, hyx] at h
        · simp only [hxy, hyx, if_false] at h ⊢
          exact ih _ h

theorem wstring_lt_negtrans (a b c : List Char) (h : wstring_lt a c = true) :
    wstring_lt a b = true ∨ wstring_lt b c = true := by
  induction a generalizing b c with
  | nil =>
    cases c with
    | nil => simp [wstring_lt] at h
    | cons z zs => cases b <;> simp [wstring_lt]
  | cons x xs ih =>
    cases c with
    | nil => simp [wstring_lt] at h
    | cons z zs =>
      cases b with
      | nil => simp [wstring_lt]
      | cons y ys =>
        simp only [wstring_lt] at h ⊢
        by_cases hxz : x.toNat < z.toNat
        · by_cases hxy : x.toNat < y.toNat
          · simp [hxy]
          · by_cases hyz : y.toNat < z.toNat
            · simp [hyz]
            · omega
        · by_cases hzx : z.toNat < x.toNat
          · simp [hxz, hzx] at h
          · simp only [hxz, hzx, if_false] at h
            have hxz2 : x.toNat = z.toNat := by omega
            by_cases hxy : x.toNat < y.toNat
            · simp [hxy]
            · by_cases hyx : y.toNat < x.toNat
              · right
                have : y.toNat < z.toNat := by omega
                simp [this]
              · have hyz : ¬ y.toNat < z.toNat := by omega
                have hzy : ¬ z.toNat < y.toNat := by omega
                simp only [hxy, hyx, hyz, hzy, if_false]
                exact ih _ _ h

theorem RankedCandidate.lt_iff (a b : RankedCandidate) :
    a.lt b = true ↔
      (a.is_default = true ∧ b.is_default = false)
      ∨ (a.is_default = b.is_default
          ∧ (a.rank < b.rank
              ∨ (a.rank = b.rank ∧ wstring_lt a.info.name b.info.name = true))) := by
  unfold RankedCandidate.lt
  cases ha : a.is_default <;> cases hb : b.is_default <;> simp <;>
    by_cases hr : a.rank = b.rank <;> simp [hr]

theorem RankedCandidate.lt_asymm (a b : RankedCandidate) (h : a.lt b = true) :
    b.lt a = false := by
  cases hba : b.lt a with
  | false => rfl
  | true =>
    rw [RankedCandidate.lt_iff] at h hba
    rcases h with ⟨h1, h2⟩ | ⟨h1, h2⟩ <;> rcases hba with ⟨g1, g2⟩ | ⟨g1, g2⟩
    · rw [h1] at g2; cases g2
    · rw [h1, h2] at g1; cases g1
    · rw [g1, g2] at h1; cases h1
    · rcases h2 with h2 | ⟨h2, h3⟩ <;> rcases g2 with g2 | ⟨g2, g3⟩
      · omega
      · omega
      · omega
      · rw [wstring_lt_asymm _ _ h3] at g3; cases g3

theorem RankedCandidate.lt_negtrans (a b c : RankedCandidate) (h : a.lt c = true) :
    a.lt b = true ∨ b.lt c = true := by
  rw [RankedCandidate.lt_iff] at h
  rw [RankedCandidate.lt_iff, RankedCandidate.lt_iff]
  rcases h with ⟨h1, h2⟩ | ⟨h1, h2⟩
  · cases hb : b.is_default
    · exact Or.inl (Or.inl ⟨h1, rfl⟩)
    · exact Or.inr (Or.inl ⟨rfl, h2⟩)
  · by_cases hab : a.is_default = b.is_default
    · have hbc : b.is_default = c.is_default := by rw [← hab, h1]
      rcases h2 with h2 | ⟨h2, h3⟩
      · by_cases hr : a.rank < b.rank
        · exact Or.inl (Or.inr ⟨hab, Or.inl hr⟩)
        · exact Or.inr (Or.inr ⟨hbc, Or.inl (by omega)⟩)
      · by_cases hr : a.rank < b.rank
        · exact Or.inl (Or.inr ⟨hab, Or.inl hr⟩)
        · by_cases hr2 : b.rank < c.rank
          · exact Or.inr (Or.inr ⟨hbc, Or.inl hr2⟩)
          · have e1 : a.rank = b.rank := by omega
            have e2 : b.rank = c.rank := by omega
            rcases wstring_lt_negtrans _ b.info.name _ h3 with w | w
            · exact Or.inl (Or.inr ⟨hab, Or.inr ⟨e1, w⟩⟩)
            · exact Or.inr (Or.inr ⟨hbc, Or.inr ⟨e2, w⟩⟩)
    · cases ha : a.is_default
      · have hb : b.is_default = true := by
          cases hb : b.is_default
          · rw [ha, hb] at hab; exact absurd rfl hab
          · rfl
        have hc : c.is_default = false := by rw [← h1, ha]
        exact Or.inr (Or.inl ⟨hb, hc⟩)
      · have hb : b.is_default = false := by
          cases hb : b.is_default
          · rfl
          · rw [ha, hb] at hab; exact absurd rfl hab
        exact Or.inl (Or.inl ⟨rfl, hb⟩)

theorem sortByInsertion_contract (l : List RankedCandidate) :
    (sortByInsertion l).Perm l
    ∧ (sortByInsertion l).Pairwise (fun a b => b.lt a = false) := by
  haveI : IsTotal RankedCandidate (fun a b => b.lt a = false) :=
    ⟨fun a b => by
      cases hba : b.lt a
      · exact Or.inl rfl
      · exact Or.inr (RankedCandidate.lt_asymm b a hba)⟩
  haveI : IsTrans RankedCandidate (fun a b => b.lt a = false) :=
    ⟨fun a b c hab hbc => by
      cases hca : c.lt a
      · rfl
      · rcases RankedCandidate.lt_negtrans c b a hca with h1 | h1
        · rw [h1] at hbc; cases hbc
        · rw [h1] at hab; cases hab⟩
  exact ⟨List.perm_insertionSort _ l, List.sorted_insertionSort _ l⟩

theorem GetAppCandidates_eq (h : Host) (pathname : List Char) :
    GetAppCandidates h pathname
      = (sortedCandidates h pathname).map (fun ranked => ranked.info) := by
  have hne : CollectAndPrioritizeMimeTypes h pathname ≠ [] :=
    List.ne_nil_of_mem (add_unique_mem _ _
      (add_unique_inv _ _ (collectBeforeCatchAll_inv h pathname)) (by decide))
  unfold GetAppCandidates sortedCandidates
  simp only
  rw [if_neg hne]

/-! ## Ordering of the result -/

/-- C11: when `std::sort` keeps its contract, the ranked candidates that
`GetAppCandidates` projects into its result are a rearrangement of the
candidates collected before the sort, and for two positions `i < j` the
candidate at `j` is not strictly before the candidate at `i` under
`RankedCandidate::operator<`; of two candidates with the same `is_default`
and the same `rank`, the one with the smaller name stands first. -/
theorem C11_result_sorted_by_default_rank_name (h : Host) (pathname : List Char)
    (hsort : StdSortContract h) :
    GetAppCandidates h pathname = (sortedCandidates h pathname).map (fun ranked => ranked.info)
    ∧ (sortedCandidates h pathname).Perm
        (rankedCandidates h (CollectAndPrioritizeMimeTypes h pathname))
    ∧ (∀ i j : Fin (sortedCandidates h pathname).length, i < j →
        ((sortedCandidates h pathname).get j).lt ((sortedCandidates h pathname).get i) = false)
    ∧ (∀ i j : Fin (sortedCandidates h pathname).length,
        ((sortedCandidates h pathname).get i).is_default
          = ((sortedCandidates h pathname).get j).is_default →
        ((sortedCandidates h pathname).get i).rank
          = ((sortedCandidates h pathname).get j).rank →
        wstring_lt ((sortedCandidates h pathname).get i).info.name
          ((sortedCandidates h pathname).get j).info.name = true →
        i < j) := by
  refine ⟨GetAppCandidates_eq h pathname, ?_⟩
  obtain ⟨hperm, hpair⟩ := hsort (rankedCandidates h (CollectAndPrioritizeMimeTypes h pathname))
  have hS : sortedCandidates h pathname
      = h.stdSort (rankedCandidates h (CollectAndPrioritizeMimeTypes h pathname)) := rfl
  rw [← hS] at hperm hpair
  generalize sortedCandidates h pathname = S at hperm hpair ⊢
  have hget := List.pairwise_iff_get.mp hpair
  refine ⟨hperm, fun i j hij => hget i j hij, ?_⟩
  intro i j hd hr hw
  have hlt : (S.get i).lt (S.get j) = true :=
    (RankedCandidate.lt_iff _ _).mpr (Or.inr ⟨hd, Or.inr ⟨hr, hw⟩⟩)
  rcases lt_trichotomy i j with hij | hij | hij
  · exact hij
  · subst hij
    rw [RankedCandidate.lt_asymm _ _ hlt] at hlt
    cases hlt
  · have := hget j i hij
    rw [hlt] at this
    cases this

set_option maxRecDepth 100000 in
/-- C11 on the example host: the four candidates for `x.py` come out as the
default `Atom`, then `Viewer` of rank 0, then `Emacs` before `Zed`, both of
rank 2. -/
theorem C11_result_sorted_by_default_rank_name_witness :
    (GetAppCandidates deskHost "x.py".toList).map (fun c => c.name)
        = ["Atom".toList, "Viewer".toList, "Emacs".toList, "Zed".toList]
    ∧ ∀ i j : Fin (sortedCandidates deskHost "x.py".toList).length, i < j →
        ((sortedCandidates deskHost "x.py".toList).get j).lt
          ((sortedCandidates deskHost "x.py".toList).get i) = false :=
  ⟨by decide,
   (C11_result_sorted_by_default_rank_name deskHost "x.py".toList
      (fun l => sortByInsertion_contract l)).2.2.1⟩

/-! ## Deduplication by `exec`: auxiliary facts -/

theorem firstByExec_filter (p : RankedCandidate → Bool) (l : List RankedCandidate)
    (hp : ∀ x y : RankedCandidate, x.info.exec = y.info.exec → p x = p y) :
    firstByExec (l.filter p) = (firstByExec l).filter p := by
  induction l with
  | nil => rfl
  | cons y l ih =>
    by_cases hy : p y = true
    · rw [List.filter_cons_of_pos hy, firstByExec, firstByExec, List.filter_cons_of_pos hy, ih,
        List.filter_filter, List.filter_filter]
      congr 1
      apply List.filter_congr
      intro z _
      exact Bool.and_comm _ _
    · rw [List.filter_cons_of_neg hy, ih, firstByExec, List.filter_cons_of_neg hy,
        List.filter_filter]
      apply List.filter_congr
      intro z _
      by_cases hz : z.info.exec = y.info.exec
      · have : p z = p y := hp z y hz
        simp [this, hy]
      · simp [hz]

theorem firstByExec_nodup (l : List RankedCandidate) :
    ((firstByExec l).map (fun r => r.info.exec)).Nodup := by
  induction l with
  | nil => simp [firstByExec]
  | cons y l ih =>
    simp only [firstByExec, List.map_cons, List.nodup_cons, List.mem_map, List.mem_filter,
      decide_eq_true_eq]
    refine ⟨?_, ?_⟩
    · rintro ⟨x, ⟨_, hne⟩, he⟩
      exact hne he
    · exact (List.filter_sublist _).map _ |>.nodup ih

theorem firstByExec_mem_iff (l : List RankedCandidate) (x : RankedCandidate) :
    x ∈ firstByExec l ↔
      ∃ before after, l = before ++ x :: after
        ∧ ∀ y ∈ before, y.info.exec ≠ x.info.exec := by
  induction l with
  | nil => simp [firstByExec]
  | cons y l ih =>
    simp only [firstByExec, List.mem_cons, List.mem_filter, decide_eq_true_eq]
    constructor
    · rintro (rfl | ⟨hm, hne⟩)
      · exact ⟨[], l, rfl, by simp⟩
      · obtain ⟨before, after, hl, hb⟩ := ih.mp hm
        refine ⟨y :: before, after, by rw [hl]; rfl, ?_⟩
        intro z hz
        rcases List.mem_cons.mp hz with rfl | hz
        · exact fun e => hne e.symm
        · exact hb z hz
    · rintro ⟨before, after, hl, hb⟩
      cases before with
      | nil =>
        simp only [List.nil_append, List.cons.injEq] at hl
        exact Or.inl hl.1.symm
      | cons b before =>
        simp only [List.cons_append, List.cons.injEq] at hl
        obtain ⟨rfl, hl⟩ := hl
        right
        exact ⟨ih.mpr ⟨before, after, hl, fun z hz => hb z (by simp [hz])⟩,
          fun e => hb y (by simp) e.symm⟩

theorem candidateStep_eq (h : Host) (mimes : List (List Char))
    (st : List RankedCandidate × List (List Char)) (fp : List Char) :
    candidateStep h mimes st fp
      = match entryOf h mimes fp with
        | none => st
        | some e => if e.info.exec ∉ st.2 then (st.1 ++ [e], e.info.exec :: st.2) else st := by
  unfold candidateStep entryOf
  cases GetBestMimeMatchRank h fp mimes <;> cases ParseDesktopFile h fp <;> rfl

theorem foldl_candidateStep_eq (h : Host) (mimes : List (List Char)) (paths : List (List Char))
    (st : List RankedCandidate × List (List Char))
    (hst : ∀ e, e ∈ st.2 ↔ e ∈ st.1.map (fun r => r.info.exec)) :
    (paths.foldl (candidateStep h mimes) st).1
      = st.1 ++ firstByExec ((paths.filterMap (entryOf h mimes)).filter
          (fun x => decide (x.info.exec ∉ st.1.map (fun r => r.info.exec)))) := by
  induction paths generalizing st with
  | nil => simp [firstByExec]
  | cons fp rest ih =>
    rw [List.foldl_cons, candidateStep_eq]
    cases he : entryOf h mimes fp with
    | none =>
      simp only [List.filterMap_cons, he]
      exact ih st hst
    | some e =>
      simp only [List.filterMap_cons, he]
      by_cases hs : e.info.exec ∈ st.2
      · rw [if_neg (not_not.mpr hs), ih st hst,
          List.filter_cons_of_neg (by simpa using (hst _).mp hs)]
      · rw [if_pos hs]
        have hs2 : e.info.exec ∉ st.1.map (fun r => r.info.exec) := fun hm => hs ((hst _).mpr hm)
        rw [ih _ (by
              intro x
              simp only [List.mem_cons, List.map_append, List.map_cons, List.map_nil,
                List.mem_append, List.not_mem_nil, or_false, hst x]
              exact or_comm),
          List.filter_cons_of_pos (by simpa using hs2), firstByExec, List.append_assoc,
          List.singleton_append]
        congr 2
        rw [← firstByExec_filter _ _ (fun x y hxy => by simp [hxy]), List.filter_filter]
        congr 1
        apply List.filter_congr
        intro z _
        by_cases hz : z.info.exec = e.info.exec
        · simp [hz]
        · by_cases hzm : z.info.exec ∈ st.1.map (fun r => r.info.exec)
          · simp only [List.mem_map] at hzm
            simp [hz, hzm]
          · simp only [List.mem_map] at hzm
            simp [hz, hzm]

theorem firstByExec_covers (l : List RankedCandidate) (e : RankedCandidate) (he : e ∈ l) :
    ∃ x ∈ firstByExec l, x.info.exec = e.info.exec := by
  induction l with
  | nil => simp at he
  | cons y l ih =>
    by_cases hy : e.info.exec = y.info.exec
    · exact ⟨y, by simp [firstByExec], hy.symm⟩
    · rcases List.mem_cons.mp he with rfl | hm
      · exact absurd rfl hy
      · obtain ⟨x, hx, hxe⟩ := ih hm
        refine ⟨x, ?_, hxe⟩
        simp only [firstByExec, List.mem_cons, List.mem_filter, decide_eq_true_eq]
        exact Or.inr ⟨hx, by rw [hxe]; exact hy⟩

theorem dedup_eq_firstByExec (h : Host) (mimes : List (List Char)) :
    ((scanPaths h).foldl (candidateStep h mimes) ([], [])).1
      = firstByExec (matchedEntries h mimes) := by
  rw [foldl_candidateStep_eq h mimes (scanPaths h) ([], []) (by simp)]
  simp [matchedEntries]

theorem rankedCandidates_map_info (h : Host) (mimes : List (List Char)) :
    (rankedCandidates h mimes).map (fun r => r.info)
      = (firstByExec (matchedEntries h mimes)).map (fun r => r.info) := by
  unfold rankedCandidates
  simp only [dedup_eq_firstByExec]
  split
  · rfl
  · split_ifs
    · exact markDefault_map_info h _ _
    · rfl

theorem GetAppCandidates_perm (h : Host) (pathname : List Char)
    (hperm : ∀ l, (h.stdSort l).Perm l) :
    (GetAppCandidates h pathname).Perm
      ((firstByExec (matchedEntries h (CollectAndPrioritizeMimeTypes h pathname))).map
        (fun r => r.info)) := by
  rw [GetAppCandidates_eq, ← rankedCandidates_map_info]
  exact (hperm _).map _

/-! ## Deduplication by `exec` -/

/-- C12: when `std::sort` rearranges its input, the list of
`GetAppCandidates` is a rearrangement of the records of the matched and
parsed entries, each `exec` taken at its first entry in scan order only: a
record is returned exactly when it is the record of an entry before which no
entry has the same `exec`; every `exec` among the entries has a returned
candidate, and no two returned candidates have the same `exec`.  The rank
plays no part in this choice. -/
theorem C12_one_candidate_per_exec (h : Host) (pathname : List Char)
    (hperm : ∀ l, (h.stdSort l).Perm l) :
    (GetAppCandidates h pathname).Perm
        ((firstByExec (matchedEntries h (CollectAndPrioritizeMimeTypes h pathname))).map
          (fun r => r.info))
    ∧ ((GetAppCandidates h pathname).map (fun c => c.exec)).Nodup
    ∧ (∀ c, c ∈ GetAppCandidates h pathname ↔
        ∃ before e after,
          matchedEntries h (CollectAndPrioritizeMimeTypes h pathname) = before ++ e :: after
          ∧ e.info = c ∧ ∀ y ∈ before, y.info.exec ≠ c.exec)
    ∧ (∀ e ∈ matchedEntries h (CollectAndPrioritizeMimeTypes h pathname),
        ∃ c ∈ GetAppCandidates h pathname, c.exec = e.info.exec) := by
  have hp := GetAppCandidates_perm h pathname hperm
  have hmem : ∀ c, c ∈ GetAppCandidates h pathname ↔
      ∃ x ∈ firstByExec (matchedEntries h (CollectAndPrioritizeMimeTypes h pathname)),
        x.info = c := by
    intro c
    rw [hp.mem_iff, List.mem_map]
  refine ⟨hp, ?_, ?_, ?_⟩
  · have := firstByExec_nodup (matchedEntries h (CollectAndPrioritizeMimeTypes h pathname))
    rw [(hp.map (fun c => c.exec)).nodup_iff, List.map_map]
    exact this
  · intro c
    rw [hmem]
    constructor
    · rintro ⟨x, hx, rfl⟩
      obtain ⟨before, after, hl, hb⟩ := (firstByExec_mem_iff _ _).mp hx
      exact ⟨before, x, after, hl, rfl, hb⟩
    · rintro ⟨before, e, after, hl, rfl, hb⟩
      exact ⟨e, (firstByExec_mem_iff _ _).mpr ⟨before, after, hl, hb⟩, rfl⟩
  · intro e he
    obtain ⟨x, hx, hxe⟩ := firstByExec_covers _ e he
    exact ⟨x.info, (hmem _).mpr ⟨x, hx, rfl⟩, hxe⟩

set_option maxRecDepth 100000 in
/-- C12 on the example host: `zed.desktop` of rank 2 and `zed2.desktop` of
rank 0 have the same `exec`; the record of the first is returned, the record
of the second is not. -/
theorem C12_one_candidate_per_exec_witness :
    (matchedEntries deskHost (CollectAndPrioritizeMimeTypes deskHost "x.py".toList)).map
        (fun e => (e.info.name, e.info.exec, e.rank))
      = [("Zed".toList, "zed %f".toList, 2), ("Atom".toList, "atom %f".toList, 2),
         ("Viewer".toList, "view %f".toList, 0), ("Emacs".toList, "emacs %f".toList, 2),
         ("Zed Two".toList, "zed %f".toList, 0)]
    ∧ (GetAppCandidates deskHost "x.py".toList).map (fun c => c.name)
        = ["Atom".toList, "Viewer".toList, "Emacs".toList, "Zed".toList]
    ∧ ((GetAppCandidates deskHost "x.py".toList).map (fun c => c.exec)).Nodup :=
  ⟨by decide, by decide,
   (C12_one_candidate_per_exec deskHost "x.py".toList
      (fun l => (sortByInsertion_contract l).1)).2.1⟩

/-! ## The default application: auxiliary facts -/

theorem markDefault_split (h : Host) (token : List Char) (l : List RankedCandidate)
    (hex : ∃ c ∈ l, findSub token (h.StrWide2MB c.info.desktop_file) ≠ none) :
    ∃ before d after, l = before ++ d :: after
      ∧ (∀ x ∈ before, findSub token (h.StrWide2MB x.info.desktop_file) = none)
      ∧ findSub token (h.StrWide2MB d.info.desktop_file) ≠ none
      ∧ markDefault h token l = before ++ { d with is_default := true } :: after := by
  induction l with
  | nil => obtain ⟨c, hc, _⟩ := hex; simp at hc
  | cons a rest ih =>
    by_cases ha : findSub token (h.StrWide2MB a.info.desktop_file) ≠ none
    · exact ⟨[], a, rest, rfl, by simp, ha, by simp [markDefault, ha]⟩
    · have hex2 : ∃ c ∈ rest, findSub token (h.StrWide2MB c.info.desktop_file) ≠ none := by
        obtain ⟨c, hc, hcc⟩ := hex
        rcases List.mem_cons.mp hc with rfl | hm
        · exact absurd hcc ha
        · exact ⟨c, hm, hcc⟩
      obtain ⟨before, d, after, hl, hb, hd, hm⟩ := ih hex2
      refine ⟨a :: before, d, after, by rw [hl]; rfl, ?_, hd, ?_⟩
      · intro x hx
        rcases List.mem_cons.mp hx with rfl | hx
        · exact not_not.mp ha
        · exact hb x hx
      · rw [markDefault, if_neg ha, hm]; rfl

theorem matchedEntries_not_default (h : Host) (mimes : List (List Char))
    (x : RankedCandidate) (hx : x ∈ firstByExec (matchedEntries h mimes)) :
    x.is_default = false := by
  obtain ⟨before, after, hl, _⟩ := (firstByExec_mem_iff _ _).mp hx
  have hm : x ∈ matchedEntries h mimes := by rw [hl]; simp
  unfold matchedEntries at hm
  obtain ⟨fp, _, hfp⟩ := List.mem_filterMap.mp hm
  unfold entryOf at hfp
  split at hfp
  · simp only [Option.some.injEq] at hfp
    rw [← hfp]
  · cases hfp

theorem sorted_head_of_single_default (S R : List RankedCandidate) (d : RankedCandidate)
    (before after : List RankedCandidate)
    (hperm : S.Perm R) (hpair : S.Pairwise (fun a b => b.lt a = false))
    (hR : R = before ++ d :: after) (hd : d.is_default = true)
    (hb : ∀ x ∈ before, x.is_default = false) (ha : ∀ x ∈ after, x.is_default = false) :
    S.head? = some d ∧ S.filter (fun r => r.is_default) = [d] := by
  have hfilterR : R.filter (fun r => r.is_default) = [d] := by
    rw [hR, List.filter_append, List.filter_cons_of_pos (by simpa using hd)]
    have e1 : before.filter (fun r => r.is_default) = [] :=
      List.filter_eq_nil_iff.mpr (fun x hx => by simp [hb x hx])
    have e2 : after.filter (fun r => r.is_default) = [] :=
      List.filter_eq_nil_iff.mpr (fun x hx => by simp [ha x hx])
    rw [e1, e2]; rfl
  have hfilterS : S.filter (fun r => r.is_default) = [d] := by
    have := hperm.filter (fun r => r.is_default)
    rw [hfilterR] at this
    exact List.perm_singleton.mp this
  refine ⟨?_, hfilterS⟩
  have hdS : d ∈ S := hperm.mem_iff.mpr (by rw [hR]; simp)
  cases S with
  | nil => simp at hdS
  | cons s0 rest =>
    simp only [List.head?_cons, Option.some.injEq]
    rcases List.mem_cons.mp hdS with e | hm
    · exact e.symm
    · have hlt : d.lt s0 = false := (List.pairwise_cons.mp hpair).1 d hm
      cases hs : s0.is_default with
      | false =>
        have : d.lt s0 = true := (RankedCandidate.lt_iff _ _).mpr (Or.inl ⟨hd, hs⟩)
        rw [this] at hlt; cases hlt
      | true =>
        have : s0 ∈ (s0 :: rest).filter (fun r => r.is_default) := by
          simp [hs]
        rw [hfilterS] at this
        exact List.mem_singleton.mp this

theorem rankedCandidates_default (h : Host) (mimes : List (List Char)) (front : List Char)
    (hfront : mimes.head? = some front) (htoken : GetDefaultApp h front ≠ []) :
    rankedCandidates h mimes
      = markDefault h (GetDefaultApp h front) (firstByExec (matchedEntries h mimes)) := by
  cases mimes with
  | nil => simp at hfront
  | cons f tl =>
    simp only [List.head?_cons, Option.some.injEq] at hfront
    subst hfront
    unfold rankedCandidates
    simp only [dedup_eq_firstByExec]
    rw [if_pos htoken]

theorem default_candidate_first (h : Host) (mimes : List (List Char)) (front : List Char)
    (hsort : StdSortContract h)
    (hfront : mimes.head? = some front) (htoken : GetDefaultApp h front ≠ [])
    (hex : ∃ c ∈ firstByExec (matchedEntries h mimes),
      findSub (GetDefaultApp h front) (h.StrWide2MB c.info.desktop_file) ≠ none) :
    ∃ before d after,
      firstByExec (matchedEntries h mimes) = before ++ d :: after
      ∧ (∀ x ∈ before,
          findSub (GetDefaultApp h front) (h.StrWide2MB x.info.desktop_file) = none)
      ∧ findSub (GetDefaultApp h front) (h.StrWide2MB d.info.desktop_file) ≠ none
      ∧ rankedCandidates h mimes = before ++ { d with is_default := true } :: after
      ∧ (h.stdSort (rankedCandidates h mimes)).filter (fun r => r.is_default)
          = [{ d with is_default := true }]
      ∧ (h.stdSort (rankedCandidates h mimes)).head? = some { d with is_default := true } := by
  obtain ⟨before, d, after, hl, hb, hd, hm⟩ := markDefault_split h _ _ hex
  have hR := rankedCandidates_default h mimes front hfront htoken
  rw [hm] at hR
  have hnd : ∀ x ∈ before ++ d :: after, x.is_default = false := by
    intro x hx
    rw [← hl] at hx
    exact matchedEntries_not_default h mimes x hx
  obtain ⟨hperm, hpair⟩ := hsort (rankedCandidates h mimes)
  obtain ⟨hhead, hfilter⟩ := sorted_head_of_single_default _ _ { d with is_default := true }
    before after hperm hpair hR rfl (fun x hx => hnd x (by simp [hx]))
    (fun x hx => hnd x (by simp [hx]))
  exact ⟨before, d, after, hl, hb, hd, hR, hfilter, hhead⟩

/-! ## The default application -/

/-- C14: when `std::sort` keeps its contract and the default-application
oracle, asked about the front of the prioritized list, returns a non-empty
token that is a substring of the `desktop_file` of some deduplicated
candidate, then exactly one candidate is flagged, the first such candidate in
scan order, and its record is the first element of the list of
`GetAppCandidates`, whatever the ranks are; a candidate that is the only one
whose `desktop_file` contains the token is that first element. -/
theorem C14_default_candidate_is_first (h : Host) (pathname front : List Char)
    (hsort : StdSortContract h)
    (hfront : (CollectAndPrioritizeMimeTypes h pathname).head? = some front)
    (htoken : GetDefaultApp h front ≠ [])
    (hex : ∃ c ∈ firstByExec (matchedEntries h (CollectAndPrioritizeMimeTypes h pathname)),
      findSub (GetDefaultApp h front) (h.StrWide2MB c.info.desktop_file) ≠ none) :
    ∃ before d after,
      firstByExec (matchedEntries h (CollectAndPrioritizeMimeTypes h pathname))
        = before ++ d :: after
      ∧ (∀ x ∈ before,
          findSub (GetDefaultApp h front) (h.StrWide2MB x.info.desktop_file) = none)
      ∧ findSub (GetDefaultApp h front) (h.StrWide2MB d.info.desktop_file) ≠ none
      ∧ rankedCandidates h (CollectAndPrioritizeMimeTypes h pathname)
          = before ++ { d with is_default := true } :: after
      ∧ (sortedCandidates h pathname).filter (fun r => r.is_default)
          = [{ d with is_default := true }]
      ∧ (GetAppCandidates h pathname).head? = some d.info
      ∧ (∀ c ∈ firstByExec (matchedEntries h (CollectAndPrioritizeMimeTypes h pathname)),
          findSub (GetDefaultApp h front) (h.StrWide2MB c.info.desktop_file) ≠ none →
          (∀ x ∈ firstByExec (matchedEntries h (CollectAndPrioritizeMimeTypes h pathname)),
            findSub (GetDefaultApp h front) (h.StrWide2MB x.info.desktop_file) ≠ none →
            x = c) →
          (GetAppCandidates h pathname).head? = some c.info) := by
  obtain ⟨before, d, after, hl, hb, hd, hR, hfilter, hhead⟩ :=
    default_candidate_first h _ front hsort hfront htoken hex
  have hres : (GetAppCandidates h pathname).head? = some d.info := by
    rw [GetAppCandidates_eq, List.head?_map]
    unfold sortedCandidates
    rw [hhead]
    rfl
  refine ⟨before, d, after, hl, hb, hd, hR, hfilter, hres, ?_⟩
  intro c _ _ huniq
  have hdm : d ∈ firstByExec (matchedEntries h (CollectAndPrioritizeMimeTypes h pathname)) := by
    rw [hl]; simp
  rw [← huniq d hdm hd]
  exact hres

set_option maxRecDepth 100000 in
/-- C14 on the example host: the oracle names `atom.desktop`, whose rank 2 is
worse than the rank 0 of `Viewer`, and `Atom` is the first candidate. -/
theorem C14_default_candidate_is_first_witness :
    (matchedEntries deskHost (CollectAndPrioritizeMimeTypes deskHost "x.py".toList)).map
        (fun e => (e.info.name, e.rank))
      = [("Zed".toList, 2), ("Atom".toList, 2), ("Viewer".toList, 0), ("Emacs".toList, 2),
         ("Zed Two".toList, 0)]
    ∧ ((GetAppCandidates deskHost "x.py".toList).head?).map (fun c => c.name)
        = some "Atom".toList
    ∧ ∃ before d after,
        firstByExec (matchedEntries deskHost (CollectAndPrioritizeMimeTypes deskHost
            "x.py".toList)) = before ++ d :: after
        ∧ (sortedCandidates deskHost "x.py".toList).filter (fun r => r.is_default)
            = [{ d with is_default := true }]
        ∧ (GetAppCandidates deskHost "x.py".toList).head? = some d.info :=
  ⟨by decide, by decide,
   match C14_default_candidate_is_first deskHost "x.py".toList "text/x-python".toList
      (fun l => sortByInsertion_contract l) (by decide) (by decide)
      ⟨⟨⟨false, "Atom".toList, "atom %f".toList, "text/plain;".toList,
          "/usr/share/applications/atom.desktop".toList⟩, 2, false⟩, by decide, by decide⟩ with
   | ⟨before, d, after, hl, _, _, _, hfilter, hres, _⟩ => ⟨before, d, after, hl, hfilter, hres⟩⟩

/-! ## Rank of an entry file: auxiliary facts -/

theorem getlinesAux_declared (d : Char) (str cur : List Char) :
    ((getlinesAux d str cur).map (fun l => Trim l.1)).filter (fun x => decide (x ≠ []))
      = (((str.splitOnP (fun c => c == d)).modifyHead (fun x => cur ++ x)).map Trim).filter
          (fun x => decide (x ≠ [])) := by
  have hT : Trim [] = [] := by decide
  induction str generalizing cur with
  | nil =>
    simp only [getlinesAux, List.splitOnP_nil, List.modifyHead_cons, List.append_nil,
      List.map_cons, List.map_nil]
    by_cases hc : cur = []
    · subst hc; simp [hT]
    · simp [hc]
  | cons c rest ih =>
    rw [getlinesAux, List.splitOnP_cons]
    by_cases hcd : c = d
    · subst hcd
      have := ih []
      simp only [List.nil_append] at this
      simp only [if_true, beq_self_eq_true, List.modifyHead_cons, List.append_nil, List.map_cons,
        List.filter_cons, this]
      have hid : (fun x : List Char => x) = id := rfl
      simp [hid]
    · have hbeq : (c == d) = false := by simpa using hcd
      simp only [hcd, if_false, hbeq, Bool.false_eq_true, List.modifyHead_modifyHead]
      rw [ih]
      congr 3
      funext x
      simp

theorem declared_eq (value : List Char) :
    ((getlines ';' value).map (fun l => Trim l.1)).filter (fun x => decide (x ≠ []))
      = declaredMimes value := by
  unfold getlines declaredMimes
  rw [getlinesAux_declared]
  have hid : (fun x : List Char => [] ++ x) = id := by funext x; simp
  rw [hid, List.modifyHead_id]
  rfl

theorem rankCode_eq_neg_one (b : Option Nat) : rankCode b = -1 ↔ b = none := by
  cases b with
  | none => simp [rankCode]
  | some n => simp only [rankCode, reduceCtorEq, iff_false]

theorem optMin_none_right (b : Option Nat) : optMin b none = b := by
  cases b <;> rfl

theorem findIdx?_ge {α : Type} (p : α → Bool) (xs : List α) (i k : Nat)
    (h : xs.findIdx? p i = some k) : i ≤ k := by
  induction xs generalizing i with
  | nil => simp at h
  | cons x xs ih =>
    rw [List.findIdx?_cons] at h
    split at h
    · simp only [Option.some.injEq] at h; omega
    · have := ih _ h; omega

theorem optMin_some_findIdx? {α : Type} (p : α → Bool) (xs : List α) (i n : Nat) (hn : n ≤ i) :
    optMin (some n) (xs.findIdx? p (i + 1)) = some n := by
  cases hf : xs.findIdx? p (i + 1) with
  | none => rfl
  | some k =>
    have := findIdx?_ge p xs _ _ hf
    simp only [optMin, Option.some.injEq]
    omega

theorem rankLoop_eq (app_mime : List Char) (L : List (List Char)) (i : Nat) (b : Option Nat) :
    rankLoop app_mime L i (rankCode b)
      = rankCode (optMin b (L.findIdx? (mimeMatches app_mime) i)) := by
  induction L generalizing i b with
  | nil => simp [rankLoop, optMin_none_right]
  | cons t rest ih =>
    rw [rankLoop, List.findIdx?_cons]
    by_cases hm : mimeMatches app_mime t = true
    · simp only [hm, if_true]
      cases b with
      | none =>
        have h1 : rankCode none = -1 := rfl
        have h2 : ((i : Nat) : Int) = rankCode (some i) := rfl
        rw [if_pos (Or.inl h1), h2, ih, optMin_some_findIdx? _ _ _ _ (le_refl i)]
        rfl
      | some n =>
        have hne : ¬ rankCode (some n) = -1 := by simp only [rankCode]; omega
        by_cases hlt : (i : Int) < rankCode (some n)
        · have h2 : ((i : Nat) : Int) = rankCode (some i) := rfl
          rw [if_pos (Or.inr hlt), h2, ih, optMin_some_findIdx? _ _ _ _ (le_refl i)]
          simp only [rankCode] at hlt ⊢
          simp only [optMin, Nat.cast_inj]
          omega
        · rw [if_neg (by tauto), ih]
          simp only [rankCode] at hlt
          rw [optMin_some_findIdx? _ _ _ _ (by omega)]
          simp only [optMin, rankCode, Nat.cast_inj]
          omega
    · simp only [hm, if_false, Bool.false_eq_true]
      exact ih _ _


theorem optMin_assoc (a b c : Option Nat) : optMin (optMin a b) c = optMin a (optMin b c) := by
  cases a <;> cases b <;> cases c <;> simp [optMin, Nat.min_assoc]

theorem optMin_findIdx? {α : Type} (p q : α → Bool) (xs : List α) (i : Nat) :
    optMin (xs.findIdx? p i) (xs.findIdx? q i) = xs.findIdx? (fun t => p t || q t) i := by
  induction xs generalizing i with
  | nil => rfl
  | cons x xs ih =>
    simp only [List.findIdx?_cons]
    cases hp : p x <;> cases hq : q x
    · simpa using ih (i + 1)
    · simp only [Bool.false_eq_true, if_false, if_true, Bool.or_true]
      cases hf : xs.findIdx? p (i + 1) with
      | none => rfl
      | some k =>
        have := findIdx?_ge p xs _ _ hf
        simp only [optMin, Option.some.injEq]
        omega
    · simp only [Bool.false_eq_true, if_false, if_true, Bool.or_false]
      exact optMin_some_findIdx? q xs i i (le_refl i)
    · simp [optMin]

theorem foldl_optMin (L ds : List (List Char)) (b : Option Nat) :
    ds.foldl (fun acc d => optMin acc (L.findIdx? (mimeMatches d))) b
      = optMin b (leastMatch L ds) := by
  induction ds generalizing b with
  | nil =>
    have : leastMatch L [] = none := by
      unfold leastMatch
      rw [List.findIdx?_eq_none_iff]
      intro x _
      rfl
    rw [this, optMin_none_right]
    rfl
  | cons d ds ih =>
    rw [List.foldl_cons, ih, optMin_assoc]
    congr 1
    unfold leastMatch
    rw [optMin_findIdx?]
    congr 1

theorem declaredLoop_eq (L : List (List Char)) (parts : List (List Char × Bool))
    (b : Option Nat) :
    declaredLoop L parts (rankCode b)
      = rankCode (((parts.map (fun l => Trim l.1)).filter (fun x => decide (x ≠ []))).foldl
          (fun acc d => optMin acc (L.findIdx? (mimeMatches d))) b) := by
  induction parts generalizing b with
  | nil => rfl
  | cons p rest ih =>
    obtain ⟨raw, good⟩ := p
    rw [declaredLoop]
    simp only [List.map_cons]
    by_cases he : Trim raw = []
    · rw [if_pos he, ih, List.filter_cons_of_neg (by simp [he])]
    · rw [if_neg he, rankLoop_eq, ih, List.filter_cons_of_pos (by simp [he])]
      rfl

theorem declaredLoop_value (L : List (List Char)) (value : List Char) :
    declaredLoop L (getlines ';' value) (-1)
      = rankCode (leastMatch L (declaredMimes value)) := by
  have h1 : (-1 : Int) = rankCode none := rfl
  rw [h1, declaredLoop_eq, declared_eq, foldl_optMin]
  rfl


theorem findChar_MimeType (line : List Char)
    (h : "MimeType=".toList.isPrefixOf line = true) : findChar '=' line = some 8 := by
  rw [List.isPrefixOf_iff_prefix] at h
  obtain ⟨t, rfl⟩ := h
  simp [findChar]

theorem rankLines_cons (L : List (List Char)) (raw : List Char) (good : Bool)
    (rest : List (List Char × Bool)) (in_main : Bool) :
    rankLines L ((raw, good) :: rest) in_main
      = if Trim raw = [] ∨ (Trim raw).head? = some '#' then rankLines L rest in_main
        else if Trim raw = "[Desktop Entry]".toList then rankLines L rest true
        else if (Trim raw).head? = some '[' then rankLines L rest false
        else if in_main = true ∧ "MimeType=".toList.isPrefixOf (Trim raw) = true then
          match findChar '=' (Trim raw) with
          | none => rankLines L rest in_main
          | some eq_pos =>
            if declaredLoop L (getlines ';' (Trim ((Trim raw).drop (eq_pos + 1)))) (-1) ≠ -1 then
              some (declaredLoop L (getlines ';' (Trim ((Trim raw).drop (eq_pos + 1)))) (-1))
            else rankLines L rest in_main
        else rankLines L rest in_main := by
  rw [rankLines]

theorem rankLines_eq (L : List (List Char)) (lines : List (List Char × Bool)) (in_main : Bool) :
    rankLines L lines in_main
      = ((mainLinesFrom in_main (lines.map (fun l => l.1))).filterMap mimeTypeValueOf).findSome?
          (rankOfValue L) := by
  induction lines generalizing in_main with
  | nil => rfl
  | cons l rest ih =>
    obtain ⟨raw, good⟩ := l
    rw [rankLines_cons]
    simp only [List.map_cons, mainLinesFrom]
    split_ifs with h1 h2 h3 h4 h5 h6
    · exact ih _
    · exact ih _
    · exact ih _
    · -- a `MimeType=` line of the main section
      rw [findChar_MimeType _ h4.2]
      simp only [declaredLoop_value]
      rw [List.filterMap_cons]
      have hv : mimeTypeValueOf (Trim raw) = some (Trim ((Trim raw).drop 9)) := by
        simp only [mimeTypeValueOf]
        rw [if_pos h4.2]
      rw [hv]
      simp only [List.findSome?_cons, rankOfValue]
      cases hl : leastMatch L (declaredMimes (Trim ((Trim raw).drop 9))) with
      | none => simp [rankCode, ih]
      | some n =>
        have : rankCode (some n) ≠ -1 := by simp only [rankCode]; omega
        simp [this, rankCode]
    · exact absurd h4.1 (by simpa using h5)
    · rw [List.filterMap_cons]
      have hv : mimeTypeValueOf (Trim raw) = none := by
        have : ¬ "MimeType=".toList.isPrefixOf (Trim raw) = true := fun hp => h4 ⟨h6, hp⟩
        simp only [mimeTypeValueOf]
        rw [if_neg this]
      rw [hv]
      exact ih _
    · exact ih _

theorem GetBestMimeMatchRank_eq (h : Host) (path content : List Char) (L : List (List Char))
    (hr : h.readFile path = some content) :
    GetBestMimeMatchRank h path L = (mimeTypeValues content).findSome? (rankOfValue L) := by
  unfold GetBestMimeMatchRank
  rw [hr]
  simp only
  rw [rankLines_eq]
  rfl

theorem findIdx?_eq_some_iff' {α : Type} (p : α → Bool) (xs : List α) (i : Nat) :
    xs.findIdx? p = some i ↔
      ∃ t, xs[i]? = some t ∧ p t = true
        ∧ ∀ j t2, j < i → xs[j]? = some t2 → p t2 = false := by
  rw [List.findIdx?_eq_some_iff_getElem]
  constructor
  · rintro ⟨hi, hp, hj⟩
    refine ⟨xs[i], List.getElem?_eq_getElem hi, hp, ?_⟩
    intro j t2 hji ht2
    have hjl : j < xs.length := Nat.lt_trans hji hi
    rw [List.getElem?_eq_getElem hjl] at ht2
    simp only [Option.some.injEq] at ht2
    rw [← ht2]
    simpa using hj j hji
  · rintro ⟨t, ht, hp, hj⟩
    obtain ⟨hi, rfl⟩ := List.getElem?_eq_some_iff.mp ht
    refine ⟨hi, hp, ?_⟩
    intro j hji
    have hjl : j < xs.length := Nat.lt_trans hji hi
    simpa using hj j _ hji (List.getElem?_eq_getElem hjl)

theorem leastMatch_eq_some_iff (L ds : List (List Char)) (i : Nat) :
    leastMatch L ds = some i ↔
      ∃ t, L[i]? = some t ∧ (∃ d ∈ ds, mimeMatches d t = true)
        ∧ ∀ j t2, j < i → L[j]? = some t2 → ∀ d ∈ ds, mimeMatches d t2 = false := by
  unfold leastMatch
  rw [findIdx?_eq_some_iff']
  simp only [List.any_eq_true, List.any_eq_false, Bool.not_eq_true]

theorem leastMatch_eq_none_iff (L ds : List (List Char)) :
    leastMatch L ds = none ↔ ∀ d ∈ ds, ∀ t ∈ L, mimeMatches d t = false := by
  unfold leastMatch
  rw [List.findIdx?_eq_none_iff]
  simp only [List.any_eq_false, Bool.not_eq_true]
  constructor
  · intro hh d hd t ht
    exact hh t ht d hd
  · intro hh t ht d hd
    exact hh d hd t ht

theorem rankOfValue_eq_some_iff (L : List (List Char)) (v : List Char) (i : Nat) :
    rankOfValue L v = some (i : Int) ↔ leastMatch L (declaredMimes v) = some i := by
  unfold rankOfValue
  cases leastMatch L (declaredMimes v) <;> simp

theorem rankOfValue_eq_none_iff (L : List (List Char)) (v : List Char) :
    rankOfValue L v = none ↔ leastMatch L (declaredMimes v) = none := by
  unfold rankOfValue
  cases leastMatch L (declaredMimes v) <;> simp

theorem findSub_cons_ne (needle : List Char) (c : Char) (rest : List Char)
    (h : needle.isPrefixOf (c :: rest) = false) :
    findSub needle (c :: rest) = (findSub needle rest).map (fun i => i + 1) := by
  rw [findSub, if_neg (by simp [h])]

theorem findSub_wildcard (T : List Char) (hT : '/' ∉ T) :
    findSub "/*".toList (T ++ "/*".toList) = some T.length := by
  induction T with
  | nil => decide
  | cons c rest ih =>
    have hc : c ≠ '/' := fun e => hT (by simp [e])
    have hr : '/' ∉ rest := fun e => hT (by simp [e])
    have hp : "/*".toList.isPrefixOf (c :: (rest ++ "/*".toList)) = false := by
      have hc2 : ¬ '/' = c := fun e => hc e.symm
      simp [List.isPrefixOf, hc2]
    rw [List.cons_append, findSub_cons_ne _ _ _ hp, ih hr]
    rfl

theorem findSub_some_prefix (needle d : List Char) (k : Nat) (h : findSub needle d = some k) :
    needle.isPrefixOf (d.drop k) = true := by
  induction d generalizing k with
  | nil =>
    simp only [findSub] at h
    split_ifs at h with hn
    subst hn
    simp [List.isPrefixOf]
  | cons c rest ih =>
    rw [findSub] at h
    split_ifs at h with hp
    · simp only [Option.some.injEq] at h
      subst h
      exact hp
    · cases hf : findSub needle rest with
      | none => rw [hf] at h; simp at h
      | some j =>
        rw [hf] at h
        simp only [Option.map_some', Option.some.injEq] at h
        subst h
        exact ih j hf

theorem mimeMatches_wildcard (T t : List Char) (hT : '/' ∉ T) :
    mimeMatches (T ++ "/*".toList) t = (T ++ ['/']).isPrefixOf t := by
  unfold mimeMatches
  rw [findSub_wildcard T hT]
  simp only
  rw [if_pos (by simp)]
  congr 1
  rw [List.take_append_eq_append_take]
  simp

theorem mimeMatches_exact (d t : List Char) (hd : ∀ T, d ≠ T ++ "/*".toList) :
    mimeMatches d t = decide (d = t) := by
  unfold mimeMatches
  cases hf : findSub "/*".toList d with
  | none => rfl
  | some k =>
    simp only
    split_ifs with hk
    · exfalso
      have hp := findSub_some_prefix _ _ _ hf
      rw [List.isPrefixOf_iff_prefix] at hp
      obtain ⟨r, hr⟩ := hp
      have hlen : (d.drop k).length = 2 := by rw [List.length_drop]; omega
      have hr0 : r = [] := by
        have := congrArg List.length hr
        rw [List.length_append, hlen] at this
        simp only [String.toList, List.length_cons, List.length_nil] at this
        exact List.length_eq_zero.mp (by omega)
      rw [hr0, List.append_nil] at hr
      exact hd (d.take k) (by rw [hr, List.take_append_drop])
    · rfl

theorem isPrefixOf_false_iff (l t : List Char) : l.isPrefixOf t = false ↔ ¬ l <+: t := by
  cases hp : l.isPrefixOf t with
  | false =>
    simp only [true_iff]
    intro hh
    rw [List.isPrefixOf_iff_prefix.mpr hh] at hp
    cases hp
  | true =>
    simp only [Bool.true_eq_false, false_iff, not_not]
    exact List.isPrefixOf_iff_prefix.mp hp

/-! ## Rank of an entry file -/

/-- C13: for an entry file whose only `MimeType=` line of the main section
declares only the wildcard `T/*`, with `T` free of slashes,
`GetBestMimeMatchRank` returns the least index of the prioritized list whose
entry begins with `T/`, and no rank when no entry begins with `T/`.  For the
list `image/png`, `image/*`, `application/octet-stream` a declared `image/*`
has rank 0, the index of `image/png`. -/
theorem C13_wildcard_rank_is_first_of_type (h : Host) (path content T v : List Char)
    (L : List (List Char)) (hr : h.readFile path = some content) (hT : '/' ∉ T)
    (hv : mimeTypeValues content = [v]) (hd : declaredMimes v = [T ++ "/*".toList]) :
    GetBestMimeMatchRank h path L
        = (L.findIdx? (fun t => (T ++ ['/']).isPrefixOf t)).map (fun i => (i : Int))
    ∧ (∀ i : Nat, GetBestMimeMatchRank h path L = some (i : Int) ↔
        ∃ t, L[i]? = some t ∧ (T ++ ['/']) <+: t
          ∧ ∀ j t2, j < i → L[j]? = some t2 → ¬ (T ++ ['/']) <+: t2)
    ∧ (GetBestMimeMatchRank h path L = none ↔ ∀ t ∈ L, ¬ (T ++ ['/']) <+: t)
    ∧ (content = "[Desktop Entry]\nMimeType=image/*\n".toList →
        GetBestMimeMatchRank h path
          ["image/png".toList, "image/*".toList, "application/octet-stream".toList] = some 0) := by
  have hfun : (fun t => [T ++ "/*".toList].any (fun d => mimeMatches d t))
      = (fun t => (T ++ ['/']).isPrefixOf t) := by
    funext t
    simp only [List.any_cons, List.any_nil, Bool.or_false]
    exact mimeMatches_wildcard T t hT
  have heq : GetBestMimeMatchRank h path L
      = (L.findIdx? (fun t => (T ++ ['/']).isPrefixOf t)).map (fun i => (i : Int)) := by
    rw [GetBestMimeMatchRank_eq h path content L hr, hv]
    simp only [List.findSome?_cons, List.findSome?_nil, rankOfValue, leastMatch, hd, hfun]
    cases L.findIdx? (fun t => (T ++ ['/']).isPrefixOf t) <;> rfl
  refine ⟨heq, ?_, ?_, ?_⟩
  · intro i
    rw [heq]
    have : (L.findIdx? (fun t => (T ++ ['/']).isPrefixOf t)).map (fun i => (i : Int))
          = some (i : Int)
        ↔ L.findIdx? (fun t => (T ++ ['/']).isPrefixOf t) = some i := by
      cases L.findIdx? (fun t => (T ++ ['/']).isPrefixOf t) <;> simp
    rw [this, findIdx?_eq_some_iff']
    simp only [List.isPrefixOf_iff_prefix, isPrefixOf_false_iff]
  · rw [heq]
    have : (L.findIdx? (fun t => (T ++ ['/']).isPrefixOf t)).map (fun i => (i : Int)) = none
        ↔ L.findIdx? (fun t => (T ++ ['/']).isPrefixOf t) = none := by
      cases L.findIdx? (fun t => (T ++ ['/']).isPrefixOf t) <;> simp
    rw [this, List.findIdx?_eq_none_iff]
    simp only [isPrefixOf_false_iff]
  · intro hc
    subst hc
    unfold GetBestMimeMatchRank
    rw [hr]
    decide

/-- C13 on an entry file that declares `image/*`, for the list `image/gif`,
`image/*`: the rank is 0. -/
theorem C13_wildcard_rank_is_first_of_type_witness :
    GetBestMimeMatchRank
        (fileHost [("/a/img.desktop".toList,
          "[Desktop Entry]\nName=Img\nMimeType=image/*;\n".toList)] [])
        "/a/img.desktop".toList ["image/gif".toList, "image/*".toList]
      = (["image/gif".toList, "image/*".toList].findIdx?
          (fun t => ("image".toList ++ ['/']).isPrefixOf t)).map (fun i => (i : Int)) :=
  (C13_wildcard_rank_is_first_of_type
    (fileHost [("/a/img.desktop".toList,
      "[Desktop Entry]\nName=Img\nMimeType=image/*;\n".toList)] [])
    "/a/img.desktop".toList "[Desktop Entry]\nName=Img\nMimeType=image/*;\n".toList
    "image".toList "image/*;".toList ["image/gif".toList, "image/*".toList]
    (by decide) (by decide) (by decide) (by decide)).1

/-- C19: for an entry file whose main section has exactly one `MimeType=`
line, `GetBestMimeMatchRank` returns the least index of the prioritized list
at which some declared MIME type matches, and no rank exactly when no declared
MIME type matches any entry; an entry file without `MimeType=` line in the
main section gets no rank.  A declared `T/*` with `T` free of slashes matches
the entries that begin with `T/`, and a declared MIME type that does not end
in `/*` matches the equal entry only. -/
theorem C19_rank_is_least_matching_index (h : Host) (path content : List Char)
    (L : List (List Char)) (hr : h.readFile path = some content) :
    (∀ v, mimeTypeValues content = [v] →
      GetBestMimeMatchRank h path L
          = (leastMatch L (declaredMimes v)).map (fun i => (i : Int))
      ∧ (∀ i : Nat, GetBestMimeMatchRank h path L = some (i : Int) ↔
          ∃ t, L[i]? = some t ∧ (∃ d ∈ declaredMimes v, mimeMatches d t = true)
            ∧ ∀ j t2, j < i → L[j]? = some t2 →
                ∀ d ∈ declaredMimes v, mimeMatches d t2 = false)
      ∧ (GetBestMimeMatchRank h path L = none ↔
          ∀ d ∈ declaredMimes v, ∀ t ∈ L, mimeMatches d t = false))
    ∧ (mimeTypeValues content = [] → GetBestMimeMatchRank h path L = none)
    ∧ (∀ T t : List Char, '/' ∉ T →
        (mimeMatches (T ++ "/*".toList) t = true ↔ (T ++ ['/']) <+: t))
    ∧ (∀ d t : List Char, (∀ T, d ≠ T ++ "/*".toList) →
        (mimeMatches d t = true ↔ d = t)) := by
  refine ⟨?_, ?_, ?_, ?_⟩
  · intro v hv
    have heq : GetBestMimeMatchRank h path L = rankOfValue L v := by
      rw [GetBestMimeMatchRank_eq h path content L hr, hv]
      simp only [List.findSome?_cons, List.findSome?_nil]
      cases rankOfValue L v <;> rfl
    refine ⟨heq, ?_, ?_⟩
    · intro i
      rw [heq, rankOfValue_eq_some_iff, leastMatch_eq_some_iff]
    · rw [heq, rankOfValue_eq_none_iff, leastMatch_eq_none_iff]
  · intro hv
    rw [GetBestMimeMatchRank_eq h path content L hr, hv]
    rfl
  · intro T t hT
    rw [mimeMatches_wildcard T t hT, List.isPrefixOf_iff_prefix]
  · intro d t hd
    rw [mimeMatches_exact d t hd, decide_eq_true_eq]

/-- C19 on an entry file that declares `text/html` and `image/*`, for the
list `image/png`, `text/html`: the rank is 0. -/
theorem C19_rank_is_least_matching_index_witness :
    GetBestMimeMatchRank
        (fileHost [("/a/web.desktop".toList,
          "[Desktop Entry]\nMimeType=text/html; image/*;\nExec=web\n".toList)] [])
        "/a/web.desktop".toList ["image/png".toList, "text/html".toList]
      = (leastMatch ["image/png".toList, "text/html".toList]
          (declaredMimes "text/html; image/*;".toList)).map (fun i => (i : Int))
    ∧ GetBestMimeMatchRank
        (fileHost [("/a/web.desktop".toList,
          "[Desktop Entry]\nMimeType=text/html; image/*;\nExec=web\n".toList)] [])
        "/a/web.desktop".toList ["image/png".toList, "text/html".toList] = some 0 :=
  ⟨((C19_rank_is_least_matching_index
      (fileHost [("/a/web.desktop".toList,
        "[Desktop Entry]\nMimeType=text/html; image/*;\nExec=web\n".toList)] [])
      "/a/web.desktop".toList "[Desktop Entry]\nMimeType=text/html; image/*;\nExec=web\n".toList
      ["image/png".toList, "text/html".toList] (by decide)).1
      "text/html; image/*;".toList (by decide)).1,
   by decide⟩

/-- C20, as it is stated, fails: for the list `text/plain`, an entry file
whose first `MimeType=` line declares `image/png` has no rank, and the same
file with a second line `MimeType=text/plain;` has rank 0. -/
theorem C20_later_line_is_read_counterexample :
    mainLines "[Desktop Entry]\nMimeType=image/png;\nMimeType=text/plain;\n".toList
        = mainLines "[Desktop Entry]\nMimeType=image/png;\n".toList
            ++ ["MimeType=text/plain;".toList]
    ∧ GetBestMimeMatchRank
        (fileHost [("/a/one.desktop".toList, "[Desktop Entry]\nMimeType=image/png;\n".toList),
          ("/a/two.desktop".toList,
            "[Desktop Entry]\nMimeType=image/png;\nMimeType=text/plain;\n".toList)] [])
        "/a/one.desktop".toList ["text/plain".toList] = none
    ∧ GetBestMimeMatchRank
        (fileHost [("/a/one.desktop".toList, "[Desktop Entry]\nMimeType=image/png;\n".toList),
          ("/a/two.desktop".toList,
            "[Desktop Entry]\nMimeType=image/png;\nMimeType=text/plain;\n".toList)] [])
        "/a/two.desktop".toList ["text/plain".toList] = some 0 := by
  refine ⟨by decide, by decide, by decide⟩

/-- C20, amended: `GetBestMimeMatchRank` takes the rank from the first
`MimeType=` line of the main section that yields a match.  The lines before it
yield nothing, the lines after it are ignored: when the first line yields a
match the rank is the rank of this line, and two entry files whose
`MimeType=` lines agree up to the first line that yields a match get the same
result. -/
theorem C20_first_matching_line_decides (h : Host) (path content : List Char)
    (L : List (List Char)) (hr : h.readFile path = some content) :
    GetBestMimeMatchRank h path L = (mimeTypeValues content).findSome? (rankOfValue L)
    ∧ (∀ v later, mimeTypeValues content = v :: later → rankOfValue L v ≠ none →
        GetBestMimeMatchRank h path L = rankOfValue L v)
    ∧ (∀ earlier v later, mimeTypeValues content = earlier ++ v :: later →
        (∀ u ∈ earlier, rankOfValue L u = none) → rankOfValue L v ≠ none →
        GetBestMimeMatchRank h path L = rankOfValue L v)
    ∧ (∀ path2 content2 earlier v later later2, h.readFile path2 = some content2 →
        mimeTypeValues content = earlier ++ v :: later →
        mimeTypeValues content2 = earlier ++ v :: later2 →
        rankOfValue L v ≠ none →
        GetBestMimeMatchRank h path L = GetBestMimeMatchRank h path2 L) := by
  have heq := GetBestMimeMatchRank_eq h path content L hr
  have hmid : ∀ (earlier : List (List Char)) (v : List Char) (later : List (List Char)),
      rankOfValue L v ≠ none →
      (earlier ++ v :: later).findSome? (rankOfValue L)
        = (earlier ++ [v]).findSome? (rankOfValue L) := by
    intro earlier v later hv
    have e : earlier ++ v :: later = (earlier ++ [v]) ++ later := by simp
    rw [e, List.findSome?_append]
    have hs : ((earlier ++ [v]).findSome? (rankOfValue L)).isSome = true := by
      rw [List.findSome?_append]
      cases earlier.findSome? (rankOfValue L) with
      | some r => rfl
      | none =>
        simp only [Option.or, List.findSome?_cons, List.findSome?_nil]
        cases hvv : rankOfValue L v with
        | none => exact absurd hvv hv
        | some r => rfl
    cases hx : (earlier ++ [v]).findSome? (rankOfValue L) with
    | none => rw [hx] at hs; cases hs
    | some r => rfl
  refine ⟨heq, ?_, ?_, ?_⟩
  · intro v later hv hm
    rw [heq, hv, List.findSome?_cons]
    cases hvv : rankOfValue L v with
    | none => exact absurd hvv hm
    | some r => rfl
  · intro earlier v later hv he hm
    rw [heq, hv, List.findSome?_append]
    have : earlier.findSome? (rankOfValue L) = none := by
      rw [List.findSome?_eq_none_iff]
      exact he
    rw [this]
    simp only [Option.or, List.findSome?_cons]
    cases hvv : rankOfValue L v with
    | none => exact absurd hvv hm
    | some r => rfl
  · intro path2 content2 earlier v later later2 hr2 hv hv2 hm
    rw [heq, GetBestMimeMatchRank_eq h path2 content2 L hr2, hv, hv2,
      hmid earlier v later hm, hmid earlier v later2 hm]

/-- C20 amended, on two entry files whose first `MimeType=` line declares
`text/plain` and which differ in the later lines: both have rank 0 for the list
`text/plain`, `image/png`. -/
theorem C20_first_matching_line_decides_witness :
    GetBestMimeMatchRank
        (fileHost [("/a/one.desktop".toList,
            "[Desktop Entry]\nMimeType=text/plain;\nMimeType=image/png;\n".toList),
          ("/a/two.desktop".toList, "[Desktop Entry]\nMimeType=text/plain;\n".toList)] [])
        "/a/one.desktop".toList ["image/png".toList, "text/plain".toList]
      = GetBestMimeMatchRank
        (fileHost [("/a/one.desktop".toList,
            "[Desktop Entry]\nMimeType=text/plain;\nMimeType=image/png;\n".toList),
          ("/a/two.desktop".toList, "[Desktop Entry]\nMimeType=text/plain;\n".toList)] [])
        "/a/two.desktop".toList ["image/png".toList, "text/plain".toList] :=
  (C20_first_matching_line_decides
    (fileHost [("/a/one.desktop".toList,
        "[Desktop Entry]\nMimeType=text/plain;\nMimeType=image/png;\n".toList),
      ("/a/two.desktop".toList, "[Desktop Entry]\nMimeType=text/plain;\n".toList)] [])
    "/a/one.desktop".toList "[Desktop Entry]\nMimeType=text/plain;\nMimeType=image/png;\n".toList
    ["image/png".toList, "text/plain".toList] (by decide)).2.2.2
    "/a/two.desktop".toList "[Desktop Entry]\nMimeType=text/plain;\n".toList
    [] "text/plain;".toList ["image/png;".toList] [] (by decide) (by decide) (by decide)
    (by decide)

/-! ## MIME type for display -/

/-- C15: with `x` the trimmed output of the path-based oracle and `f` the
trimmed output of the content-based oracle, `GetMimeType` returns (converted
to a wide string by `StrMB2Wide`) `f` when `x` is empty, `x` when `f` is
empty, `x` when both are equal, and `x;f` when both are non-empty and
different; when the conversion maps only the empty string to the empty string,
the result is empty exactly when `x` and `f` are both empty. -/
theorem C15_GetMimeType_combines_oracles (h : Host) (pathname x f : List Char)
    (horacle : oracleMimes h pathname = [x, f]) :
    (x = [] → GetMimeType h pathname = h.StrMB2Wide f)
    ∧ (f = [] → GetMimeType h pathname = h.StrMB2Wide x)
    ∧ (x = f → GetMimeType h pathname = h.StrMB2Wide x)
    ∧ (x ≠ [] → f ≠ [] → x ≠ f → GetMimeType h pathname = h.StrMB2Wide (x ++ [';'] ++ f))
    ∧ ((∀ s, h.StrMB2Wide s = [] ↔ s = []) →
        (GetMimeType h pathname = [] ↔ x = [] ∧ f = []))
    ∧ ((∀ s, h.StrMB2Wide s = s) →
        GetMimeType h pathname
          = if x = [] then f else if f = [] then x else if x = f then x else x ++ [';'] ++ f) := by
  unfold oracleMimes at horacle
  simp only [List.cons.injEq, and_true] at horacle
  obtain ⟨hx, hf⟩ := horacle
  have hG : GetMimeType h pathname
      = h.StrMB2Wide
          (if x = [] then f else if f = [] then x else if x = f then x else x ++ [';'] ++ f) := by
    unfold GetMimeType
    simp only [hx, hf]
  refine ⟨?_, ?_, ?_, ?_, ?_, ?_⟩
  · intro h1
    rw [hG, if_pos h1]
  · intro h2
    rw [hG]
    by_cases h1 : x = []
    · rw [if_pos h1, h1, h2]
    · rw [if_neg h1, if_pos h2]
  · intro h3
    rw [hG]
    by_cases h1 : x = []
    · rw [if_pos h1, ← h3, h1]
    · rw [if_neg h1]
      by_cases h2 : f = []
      · rw [if_pos h2]
      · rw [if_neg h2, if_pos h3]
  · intro h1 h2 h3
    rw [hG, if_neg h1, if_neg h2, if_neg h3]
  · intro hconv
    rw [hG, hconv]
    by_cases h1 : x = []
    · simp [h1]
    · by_cases h2 : f = []
      · simp [h1, h2]
      · by_cases h3 : x = f
        · simp [h1, h2, h3]
        · simp [h1, h2, h3]
  · intro hid
    rw [hG, hid]

/-- C15 on the example host, whose path-based oracle answers `text/x-python`
for `x.py` and whose content-based oracle gives nothing. -/
theorem C15_GetMimeType_combines_oracles_witness :
    GetMimeType deskHost "x.py".toList = deskHost.StrMB2Wide "text/x-python".toList :=
  (C15_GetMimeType_combines_oracles deskHost "x.py".toList "text/x-python".toList []
    (by decide)).2.1 rfl

/-! ## Entry files whose last line is not closed by a newline -/

theorem getlinesAux_unterminated (d : Char) (str cur : List Char) (c : Char)
    (hlast : str.getLast? = some c) (hc : c ≠ d) :
    ∃ l ∈ getlinesAux d str cur, l.2 = false := by
  induction str generalizing cur with
  | nil => simp at hlast
  | cons a rest ih =>
    cases rest with
    | nil =>
      simp only [List.getLast?_singleton, Option.some.injEq] at hlast
      subst hlast
      exact ⟨(cur ++ [a], false), by simp [getlinesAux, hc], rfl⟩
    | cons b rest2 =>
      have hl2 : (b :: rest2).getLast? = some c := by
        rw [List.getLast?_cons_cons] at hlast
        exact hlast
      rw [getlinesAux]
      split_ifs
      · obtain ⟨l, hl, hf⟩ := ih [] hl2
        exact ⟨l, by simp [hl], hf⟩
      · exact ih _ hl2

theorem parseLines_bad_line (h : Host) (lines : List (List Char × Bool)) (s : ParseState)
    (hbad : ∃ l ∈ lines, l.2 = false) : parseLines h lines s = none := by
  induction lines generalizing s with
  | nil => obtain ⟨l, hl, _⟩ := hbad; simp at hl
  | cons l rest ih =>
    obtain ⟨raw, good⟩ := l
    rw [parseLines_cons]
    by_cases hg : good = false
    · rw [if_pos hg]
    · have hrest : ∃ l ∈ rest, l.2 = false := by
        obtain ⟨x, hx, hf⟩ := hbad
        rcases List.mem_cons.mp hx with rfl | hm
        · exact absurd hf hg
        · exact ⟨x, hm, hf⟩
      rw [if_neg hg]
      split_ifs <;> exact ih _ hrest

theorem ParseDesktopFile_unterminated (h : Host) (path content : List Char) (c : Char)
    (hr : h.readFile path = some content) (hlast : content.getLast? = some c)
    (hc : c ≠ '\n') : ParseDesktopFile h path = none := by
  unfold ParseDesktopFile
  rw [hr]
  simp only
  have hnone := parseLines_bad_line h (getlines '\n' content) ParseState.init
    (getlinesAux_unterminated '\n' content [] c hlast hc)
  rw [hnone]

/-- C16, the defect: an entry file that is well formed but whose last line is
not closed by a newline is rejected by `ParseDesktopFile`, because `good()` is
`false` after that line has been read, while `GetBestMimeMatchRank` reads the
same file to its end and gives it a rank; the same text closed by a newline
gives the record with the exec `vim %f`. -/
theorem C16_unterminated_last_line_is_rejected :
    ParseDesktopFile
        (fileHost [("/a/vim.desktop".toList,
          "[Desktop Entry]\nType=Application\nExec=vim %f\nMimeType=text/plain;".toList)] [])
        "/a/vim.desktop".toList = none
    ∧ GetBestMimeMatchRank
        (fileHost [("/a/vim.desktop".toList,
          "[Desktop Entry]\nType=Application\nExec=vim %f\nMimeType=text/plain;".toList)] [])
        "/a/vim.desktop".toList ["text/plain".toList] = some 0
    ∧ (ParseDesktopFile
        (fileHost [("/a/vim.desktop".toList,
          "[Desktop Entry]\nType=Application\nExec=vim %f\nMimeType=text/plain;\n".toList)] [])
        "/a/vim.desktop".toList).map (fun c => c.exec) = some "vim %f".toList := by
  refine ⟨?_, by decide, by decide⟩
  exact ParseDesktopFile_unterminated _ _
    "[Desktop Entry]\nType=Application\nExec=vim %f\nMimeType=text/plain;".toList ';'
    (by decide) (by decide) (by decide)

/-! ## Wildcards of the extension fallback -/

theorem Collect_silent_oracles (h : Host) (pathname : List Char)
    (hsilent : (oracleMimes h pathname).filter validMime = []) :
    CollectAndPrioritizeMimeTypes h pathname
      = firstOccurrences
          ((extensionMimes h pathname
            ++ ["application/x-executable".toList, "application/octet-stream".toList]).filter
              validMime) := by
  rw [Collect_eq_foldl, foldl_add_unique_init]
  unfold producedMimes
  simp only [hsilent, firstOccurrences, List.filterMap_nil, List.flatMap_nil, List.append_nil,
    List.filter_append]
  rw [List.nil_append]

/-- C17, the defect: with both oracles silent the list for `x.py` is
`text/x-python` followed by the two catch-all types, without `text/*` and
without `text/plain`, and the list for `x.png` is `image/png` followed by the
two catch-all types, without `image/*`: the loop of step 5 runs over the copy
of the list taken after step 2, which holds no extension fallback. -/
theorem C17_no_wildcard_for_extension_fallback :
    CollectAndPrioritizeMimeTypes exampleHost "x.py".toList
        = ["text/x-python".toList, "application/x-executable".toList,
           "application/octet-stream".toList]
    ∧ "text/*".toList ∉ CollectAndPrioritizeMimeTypes exampleHost "x.py".toList
    ∧ "text/plain".toList ∉ CollectAndPrioritizeMimeTypes exampleHost "x.py".toList
    ∧ CollectAndPrioritizeMimeTypes exampleHost "x.png".toList
        = ["image/png".toList, "application/x-executable".toList,
           "application/octet-stream".toList]
    ∧ "image/*".toList ∉ CollectAndPrioritizeMimeTypes exampleHost "x.png".toList := by
  refine ⟨by decide, by decide, by decide, by decide, by decide⟩

/-! ## Display name: auxiliary facts -/

theorem ExpandLoop_good (candidate : CandidateInfo) (p u : List Char) :
    ∀ cur, scanMeetsBadCode u = false → ∃ r, ExpandLoop candidate p u cur = some r := by
  induction u using scanMeetsBadCode.induct with
  | case1 => intro cur _; exact ⟨cur, by simp [ExpandLoop]⟩
  | case2 => intro cur h; simp [scanMeetsBadCode] at h
  | case3 d rest2 hd ih =>
    intro cur h
    simp only [scanMeetsBadCode, if_true, hd] at h
    simp only [ExpandLoop, if_true]
    split_ifs
    · exact ih _ h
    · exact ih _ h
    · exact ih _ h
    · exact ih _ h
    · exfalso
      simp only [knownFieldCodes, List.mem_cons, List.mem_singleton, List.not_mem_nil,
        or_false] at hd
      tauto
  | case4 d rest2 hd =>
    intro cur h
    simp [scanMeetsBadCode, hd] at h
  | case5 c rest hc ih =>
    intro cur h
    rw [scanMeetsBadCode_cons_ne _ _ hc] at h
    rw [ExpandLoop_cons_ne _ _ _ _ _ hc]
    exact ih _ h

theorem ExpandFieldCodes_eq_none_iff (candidate : CandidateInfo) (p u : List Char) :
    ExpandFieldCodes candidate p u = none ↔ scanMeetsBadCode u = true := by
  constructor
  · intro h
    cases hb : scanMeetsBadCode u with
    | true => rfl
    | false =>
      obtain ⟨r, hr⟩ := ExpandLoop_good candidate p u [] hb
      simp only [ExpandFieldCodes, hr] at h
      split_ifs at h
  · exact ExpandFieldCodes_bad candidate p u

theorem expandTokens_good (candidate : CandidateInfo) (p : List Char) (ts : List Token)
    (args : List (List Char))
    (h : ∀ t ∈ ts, scanMeetsBadCode (UndoEscapes t) = false) :
    expandTokens candidate p ts args
      = some (args ++ ts.flatMap
          (fun t => (ExpandFieldCodes candidate p (UndoEscapes t)).getD [])) := by
  induction ts generalizing args with
  | nil => simp [expandTokens]
  | cons t ts ih =>
    rw [expandTokens]
    cases he : ExpandFieldCodes candidate p (UndoEscapes t) with
    | none =>
      have := (ExpandFieldCodes_eq_none_iff candidate p _).mp he
      rw [h t (by simp)] at this
      cases this
    | some e =>
      simp only
      rw [ih _ (fun x hx => h x (by simp [hx])), List.flatMap_cons, he]
      simp

theorem joinArgs_ne_nil (args : List (List Char)) (h : args ≠ []) : joinArgs args ≠ [] := by
  cases args with
  | nil => exact absurd rfl h
  | cons a rest =>
    rw [joinArgs_cons, EscapeArg_eq]
    simp

theorem tokStep_started (s : TokState) (c : Char)
    (h : IsDesktopWhitespace c = false
      ∨ (s.tokens ≠ [] ∨ s.cur ≠ [] ∨ s.cur_quoted = true ∨ s.cur_single_quoted = true
          ∨ s.prev_backslash = true)) :
    (tokStep s c).tokens ≠ [] ∨ (tokStep s c).cur ≠ [] ∨ (tokStep s c).cur_quoted = true
      ∨ (tokStep s c).cur_single_quoted = true ∨ (tokStep s c).prev_backslash = true := by
  unfold tokStep
  split_ifs with h1 h2 h3 h4 h5 h6
  · simp
  · simp
  · simp
  · simp
  · simp
  · rcases h with h | h
    · rw [h5.2.2] at h; cases h
    · rcases h with h | h | h | h | h
      · exact Or.inl h
      · exact absurd (Or.inl h) h6
      · exact absurd (Or.inr (Or.inl h)) h6
      · exact absurd (Or.inr (Or.inr h)) h6
      · exact absurd h h1
  · simp

theorem tok_started_foldl (str : List Char) :
    ∀ s : TokState,
      (∃ c ∈ str, IsDesktopWhitespace c = false)
        ∨ (s.tokens ≠ [] ∨ s.cur ≠ [] ∨ s.cur_quoted = true ∨ s.cur_single_quoted = true
            ∨ s.prev_backslash = true) →
      (str.foldl tokStep s).tokens ≠ [] ∨ (str.foldl tokStep s).cur ≠ []
        ∨ (str.foldl tokStep s).cur_quoted = true
        ∨ (str.foldl tokStep s).cur_single_quoted = true
        ∨ (str.foldl tokStep s).prev_backslash = true := by
  induction str with
  | nil =>
    intro s h
    rcases h with ⟨c, hc, _⟩ | h
    · simp at hc
    · exact h
  | cons c rest ih =>
    intro s h
    rw [List.foldl_cons]
    apply ih
    rcases h with ⟨x, hx, hw⟩ | h
    · simp only [List.mem_cons] at hx
      rcases hx with hx | hx
      · subst hx
        exact Or.inr (tokStep_started s x (Or.inl hw))
      · exact Or.inl ⟨x, hx, hw⟩
    · exact Or.inr (tokStep_started s c (Or.inr h))

theorem tok_whitespace_foldl (str : List Char) (h : ∀ c ∈ str, IsDesktopWhitespace c = true) :
    str.foldl tokStep TokState.init = TokState.init := by
  induction str with
  | nil => rfl
  | cons c rest ih =>
    have hc := h c (by simp)
    have hstep : tokStep TokState.init c = TokState.init := by
      have hb : c ≠ backslash := by rintro rfl; revert hc; decide
      have hd : c ≠ dquote := by rintro rfl; revert hc; decide
      have hq : c ≠ squote := by rintro rfl; revert hc; decide
      simp [tokStep, TokState.init, hb, hd, hq, hc]
    rw [List.foldl_cons, hstep]
    exact ih (fun x hx => h x (by simp [hx]))

theorem TokenizeDesktopExec_eq_nil_iff (str : List Char) :
    TokenizeDesktopExec str = [] ↔
      (∀ c ∈ str, IsDesktopWhitespace c = true) ∨ quoteOpenAtEnd str = true := by
  constructor
  · intro h
    by_cases hall : ∀ c ∈ str, IsDesktopWhitespace c = true
    · exact Or.inl hall
    · right
      have hex : ∃ c ∈ str, IsDesktopWhitespace c = false := by
        by_contra hn
        apply hall
        intro c hc
        cases hw : IsDesktopWhitespace c with
        | true => rfl
        | false => exact absurd ⟨c, hc, hw⟩ hn
      have hst := tok_started_foldl str TokState.init (Or.inl hex)
      have hinit : TokAgrees TokState.init ⟨QuoteMode.outside, false⟩ := by
        simp [TokAgrees, TokState.init]
      obtain ⟨_, h2, h3, _, _⟩ := TokAgrees_foldl str _ _ hinit
      unfold TokenizeDesktopExec tokFinish at h
      simp only [quoteOpenAtEnd, decide_eq_true_eq]
      generalize str.foldl tokStep TokState.init = s at *
      generalize str.foldl quoteStep ⟨QuoteMode.outside, false⟩ = q at *
      simp only at h
      split_ifs at h with g1 g2 g3 g4 g5
      · rcases g3 with g | g
        · rw [h2.mp g.2]; decide
        · rw [h3.mp g.2]; decide
      · simp at h
      · exfalso
        rcases hst with k | k | k | k | k
        · exact k h
        · exact g2 (Or.inl (by simp))
        · exact g2 (Or.inr (Or.inl k))
        · exact g2 (Or.inr (Or.inr k))
        · exact g2 (Or.inl (by simp))
      · rcases g5 with g | g
        · rw [h2.mp g.2]; decide
        · rw [h3.mp g.2]; decide
      · simp at h
      · exfalso
        rcases hst with k | k | k | k | k
        · exact k h
        · exact g4 (Or.inl k)
        · exact g4 (Or.inr (Or.inl k))
        · exact g4 (Or.inr (Or.inr k))
        · exact g1 k
  · rintro (h | h)
    · unfold TokenizeDesktopExec
      rw [tok_whitespace_foldl str h]
      decide
    · exact TokenizeDesktopExec_open str h

/-- C21: `ConstructCommandLine` returns the empty string exactly when the
template has no tokens, or the field-code expansion of some token fails, or
every token expands to no argument; in every other case there are `n ≥ 1`
resulting arguments and the result is their rendering `EscapeArg a1`, space,
..., `EscapeArg an`, which is not empty. The expansion of a token fails
exactly when its scan meets an unknown code or a percent sign at the end, and
the template has no tokens exactly when it holds whitespace only (or nothing)
or a quote is still open at its end. -/
theorem C21_empty_result_means_no_command (candidate : CandidateInfo) (p : List Char) :
    (ConstructCommandLine candidate p = [] ↔
      TokenizeDesktopExec candidate.exec = []
      ∨ (∃ t ∈ TokenizeDesktopExec candidate.exec,
          ExpandFieldCodes candidate p (UndoEscapes t) = none)
      ∨ (∀ t ∈ TokenizeDesktopExec candidate.exec,
          ExpandFieldCodes candidate p (UndoEscapes t) = some []))
    ∧ (∀ t, ExpandFieldCodes candidate p (UndoEscapes t) = none
          ↔ scanMeetsBadCode (UndoEscapes t) = true)
    ∧ (ConstructCommandLine candidate p ≠ [] →
        ∃ args, args ≠ [] ∧ commandArgs candidate p = some args
          ∧ ConstructCommandLine candidate p = joinArgs args)
    ∧ (TokenizeDesktopExec candidate.exec = [] ↔
        (∀ c ∈ candidate.exec, IsDesktopWhitespace c = true)
          ∨ quoteOpenAtEnd candidate.exec = true) := by
  have hexec : candidate.exec = [] → TokenizeDesktopExec candidate.exec = [] := by
    intro e; rw [e]; decide
  have key : ∀ args, commandArgs candidate p = some args → args ≠ [] →
      ConstructCommandLine candidate p = joinArgs args := by
    intro args ha hne
    simp only [ConstructCommandLine, ha]
    rw [if_neg hne, renderLoop_eq_joinArgs]
  refine ⟨?_, fun t => ExpandFieldCodes_eq_none_iff candidate p _, ?_,
    TokenizeDesktopExec_eq_nil_iff _⟩
  · by_cases ht : TokenizeDesktopExec candidate.exec = []
    · have : ConstructCommandLine candidate p = [] := by
        unfold ConstructCommandLine commandArgs
        by_cases he : candidate.exec = []
        · simp [he]
        · simp [he, ht]
      simp [this, ht]
    · have he : candidate.exec ≠ [] := fun e => ht (hexec e)
      by_cases hbad : ∃ t ∈ TokenizeDesktopExec candidate.exec,
          scanMeetsBadCode (UndoEscapes t) = true
      · have h1 := ConstructCommandLine_bad candidate p hbad
        obtain ⟨t, htm, hb⟩ := hbad
        have : ∃ t ∈ TokenizeDesktopExec candidate.exec,
            ExpandFieldCodes candidate p (UndoEscapes t) = none :=
          ⟨t, htm, ExpandFieldCodes_bad candidate p _ hb⟩
        simp only [h1, true_iff]
        exact Or.inr (Or.inl this)
      · have hgood : ∀ t ∈ TokenizeDesktopExec candidate.exec,
            scanMeetsBadCode (UndoEscapes t) = false := by
          intro t htm
          cases hb : scanMeetsBadCode (UndoEscapes t) with
          | false => rfl
          | true => exact absurd ⟨t, htm, hb⟩ hbad
        have hno : ¬ ∃ t ∈ TokenizeDesktopExec candidate.exec,
            ExpandFieldCodes candidate p (UndoEscapes t) = none := by
          rintro ⟨t, htm, hn⟩
          have := (ExpandFieldCodes_eq_none_iff candidate p _).mp hn
          rw [hgood t htm] at this
          cases this
        have hexp := expandTokens_good candidate p _ [] hgood
        simp only [List.nil_append] at hexp
        by_cases hall : (TokenizeDesktopExec candidate.exec).flatMap
            (fun t => (ExpandFieldCodes candidate p (UndoEscapes t)).getD []) = []
        · have hres : ConstructCommandLine candidate p = [] := by
            unfold ConstructCommandLine commandArgs
            simp [he, ht, hexp, hall]
          have hevery : ∀ t ∈ TokenizeDesktopExec candidate.exec,
              ExpandFieldCodes candidate p (UndoEscapes t) = some [] := by
            intro t htm
            have h0 := List.flatMap_eq_nil_iff.mp hall t htm
            cases hx : ExpandFieldCodes candidate p (UndoEscapes t) with
            | none => exact absurd ⟨t, htm, hx⟩ hno
            | some e => rw [hx] at h0; simp only [Option.getD_some] at h0; rw [h0]
          simp only [hres, true_iff]
          exact Or.inr (Or.inr hevery)
        · have hargs : ∃ args, args ≠ [] ∧ commandArgs candidate p = some args := by
            unfold commandArgs
            simp only [he, ht, if_false, hexp]
            split_ifs
            · exact ⟨_, by simp, rfl⟩
            · exact ⟨_, hall, rfl⟩
          obtain ⟨args, hne, ha⟩ := hargs
          have hres : ConstructCommandLine candidate p ≠ [] := by
            rw [key args ha hne]; exact joinArgs_ne_nil args hne
          simp only [hres, false_iff, not_or]
          refine ⟨ht, hno, ?_⟩
          intro hevery
          apply hall
          rw [List.flatMap_eq_nil_iff]
          intro t htm
          rw [hevery t htm]; rfl
  · intro hne
    cases ha : commandArgs candidate p with
    | none => simp [ConstructCommandLine, ha] at hne
    | some args =>
      by_cases hargs : args = []
      · simp [ConstructCommandLine, ha, hargs] at hne
      · exact ⟨args, hargs, rfl, key args ha hargs⟩

/-- C21 at the template `app %n %d` with an empty name: both tokens after
`app` expand to nothing and one argument remains; at the template `%n` no
argument remains and the result is empty. -/
theorem C21_empty_result_means_no_command_witness :
    (∃ args, args ≠ [] ∧ commandArgs ⟨false, [], "app %n %d".toList, [], []⟩ "/tmp/x".toList
        = some args
      ∧ ConstructCommandLine ⟨false, [], "app %n %d".toList, [], []⟩ "/tmp/x".toList
        = joinArgs args)
    ∧ ConstructCommandLine ⟨false, [], "%n".toList, [], []⟩ "/tmp/x".toList = [] :=
  ⟨(C21_empty_result_means_no_command ⟨false, [], "app %n %d".toList, [], []⟩
      "/tmp/x".toList).2.2.1 (by decide),
   (C21_empty_result_means_no_command ⟨false, [], "%n".toList, [], []⟩ "/tmp/x".toList).1.mpr
      (Or.inr (Or.inr (by decide)))⟩

theorem tokenize_app (c : Char)
    (hc : c = 'n' ∨ c = 'd' ∨ c = 'D' ∨ c = 't' ∨ c = 'T' ∨ c = 'v' ∨ c = 'm' ∨ c = 'k'
      ∨ c = 'i') :
    TokenizeDesktopExec ("app ".toList ++ [percent, c])
      = [⟨"app".toList, false, false⟩, ⟨[percent, c], false, false⟩] := by
  rcases hc with h | h | h | h | h | h | h | h | h <;> subst h <;> decide

/-- C22: for every path and every code `c` among
`%n %d %D %t %T %v %m %k %i`, the command line for the template `app c` is
exactly `"app"`: the one argument `app`, the token of the code dropped and the
path not appended. -/
theorem C22_silent_codes_are_dropped (candidate : CandidateInfo) (p : List Char) (c : Char)
    (hc : c = 'n' ∨ c = 'd' ∨ c = 'D' ∨ c = 't' ∨ c = 'T' ∨ c = 'v' ∨ c = 'm' ∨ c = 'k'
      ∨ c = 'i')
    (hexec : candidate.exec = "app ".toList ++ [percent, c]) :
    ExpandFieldCodes candidate p [percent, c] = some []
    ∧ commandArgs candidate p = some ["app".toList]
    ∧ ConstructCommandLine candidate p = [dquote, 'a', 'p', 'p', dquote] := by
  have hu1 : UndoEscapes ⟨"app".toList, false, false⟩ = "app".toList := by decide
  have hu2 : UndoEscapes ⟨[percent, c], false, false⟩ = [percent, c] := by
    rcases hc with h | h | h | h | h | h | h | h | h <;> subst h <;> decide
  have he1 : ExpandFieldCodes candidate p "app".toList = some ["app".toList] := rfl
  have he2 : ExpandFieldCodes candidate p [percent, c] = some [] := by
    rcases hc with h | h | h | h | h | h | h | h | h <;> subst h <;> rfl
  have hf : hasFieldCode [⟨"app".toList, false, false⟩, ⟨[percent, c], false, false⟩]
      = true := by
    simp [hasFieldCode, hu2]
  have hargs : commandArgs candidate p = some ["app".toList] := by
    unfold commandArgs
    simp only [hexec, tokenize_app c hc, hf, expandTokens, hu1, hu2, he1, he2]
    simp
  refine ⟨he2, hargs, ?_⟩
  simp only [ConstructCommandLine, hargs]
  decide

/-- C22 at the template `app %i` and the path `/tmp/a b`. -/
theorem C22_silent_codes_are_dropped_witness :
    ConstructCommandLine ⟨false, "App".toList, "app %i".toList, [], []⟩ "/tmp/a b".toList
      = [dquote, 'a', 'p', 'p', dquote] :=
  (C22_silent_codes_are_dropped ⟨false, "App".toList, "app %i".toList, [], []⟩
    "/tmp/a b".toList 'i' (by decide) (by decide)).2.2

/-! ## The front of the prioritized list -/

theorem oracleMimes_eq (h : Host) (pathname : List Char) :
    oracleMimes h pathname = [pathOracleOutput h pathname, contentOracleOutput h pathname] :=
  rfl

theorem validMime_iff (m : List Char) : validMime m = true ↔ m ≠ [] ∧ '/' ∈ m := by
  simp [validMime]

theorem Collect_eq_firstOccurrences (h : Host) (pathname : List Char) :
    CollectAndPrioritizeMimeTypes h pathname
      = firstOccurrences ((producedMimes h pathname).filter validMime) := by
  rw [Collect_eq_foldl, foldl_add_unique_init]

theorem producedMimes_cons (h : Host) (pathname : List Char) :
    ∃ rest, producedMimes h pathname
      = pathOracleOutput h pathname :: contentOracleOutput h pathname :: rest := by
  unfold producedMimes
  rw [oracleMimes_eq]
  exact ⟨_, by simp only [List.cons_append, List.nil_append, List.append_assoc]; rfl⟩

/-- C23: a path-based oracle output that is non-empty and contains a slash is
the entry at index 0 of the prioritized list, and a content-based output that
is non-empty, contains a slash and differs from it is the entry at index 1;
when the path-based output is empty or has no slash, a content-based output
that is non-empty and contains a slash is the entry at index 0. The entry at
index 0 is the argument of the `GetDefaultApp` call of `GetAppCandidates`,
whose answer decides which collected candidate is marked as the default. -/
theorem C23_oracle_output_heads_the_list (h : Host) (pathname : List Char) :
    (pathOracleOutput h pathname ≠ [] ∧ '/' ∈ pathOracleOutput h pathname →
      (CollectAndPrioritizeMimeTypes h pathname)[0]? = some (pathOracleOutput h pathname)
      ∧ (contentOracleOutput h pathname ≠ [] ∧ '/' ∈ contentOracleOutput h pathname
          ∧ contentOracleOutput h pathname ≠ pathOracleOutput h pathname →
          (CollectAndPrioritizeMimeTypes h pathname)[1]?
            = some (contentOracleOutput h pathname)))
    ∧ (¬ (pathOracleOutput h pathname ≠ [] ∧ '/' ∈ pathOracleOutput h pathname) →
        contentOracleOutput h pathname ≠ [] ∧ '/' ∈ contentOracleOutput h pathname →
        (CollectAndPrioritizeMimeTypes h pathname)[0]?
          = some (contentOracleOutput h pathname))
    ∧ (∀ front, (CollectAndPrioritizeMimeTypes h pathname)[0]? = some front →
        rankedCandidates h (CollectAndPrioritizeMimeTypes h pathname)
          = if GetDefaultApp h front ≠ [] then
              markDefault h (GetDefaultApp h front)
                (collectedCandidates h (CollectAndPrioritizeMimeTypes h pathname))
            else collectedCandidates h (CollectAndPrioritizeMimeTypes h pathname)) := by
  obtain ⟨rest, hp⟩ := producedMimes_cons h pathname
  refine ⟨?_, ?_, ?_⟩
  · intro hx
    have hvx := (validMime_iff _).mpr hx
    rw [Collect_eq_firstOccurrences, hp]
    refine ⟨by simp [List.filter_cons, hvx, firstOccurrences], ?_⟩
    intro hf
    have hvf := (validMime_iff _).mpr ⟨hf.1, hf.2.1⟩
    simp [List.filter_cons, hvx, hvf, firstOccurrences, hf.2.2]
  · intro hx hf
    have hvx : validMime (pathOracleOutput h pathname) = false := by
      cases hv : validMime (pathOracleOutput h pathname) with
      | false => rfl
      | true => exact absurd ((validMime_iff _).mp hv) hx
    have hvf := (validMime_iff _).mpr hf
    rw [Collect_eq_firstOccurrences, hp]
    simp [List.filter_cons, hvx, hvf, firstOccurrences]
  · intro front hfront
    cases hc : CollectAndPrioritizeMimeTypes h pathname with
    | nil => rw [hc] at hfront; cases hfront
    | cons a l =>
      rw [hc] at hfront
      simp only [List.getElem?_cons_zero, Option.some.injEq] at hfront
      subst hfront
      rfl

/-- C23 on the example host with five entries, whose path-based oracle
answers `text/x-python` for `x.py` and whose content-based oracle is silent. -/
theorem C23_oracle_output_heads_the_list_witness :
    (CollectAndPrioritizeMimeTypes deskHost "x.py".toList)[0]?
      = some (pathOracleOutput deskHost "x.py".toList)
    ∧ pathOracleOutput deskHost "x.py".toList = "text/x-python".toList :=
  ⟨((C23_oracle_output_heads_the_list deskHost "x.py".toList).1 (by decide)).1, by decide⟩

/-! ## Tokenizer on text without quotes and backslashes -/

theorem IsDesktopWhitespace_iff (c : Char) :
    IsDesktopWhitespace c = true ↔
      c = ' ' ∨ c = '\t' ∨ c = '\n' ∨ c = '\r' ∨ c = Char.ofNat 12 ∨ c = Char.ofNat 11 := by
  simp [IsDesktopWhitespace, or_assoc]

theorem tok_words_foldl (str : List Char) :
    ∀ s : TokState, s.prev_backslash = false → s.in_double_quotes = false →
      s.in_single_quotes = false → s.cur_quoted = false → s.cur_single_quoted = false →
      (∀ c ∈ str, c ≠ dquote ∧ c ≠ squote ∧ c ≠ backslash) →
      tokFinish (str.foldl tokStep s)
        = s.tokens ++
            (((str.splitOnP (fun c => IsDesktopWhitespace c)).modifyHead
                (fun w => s.cur ++ w)).filter (fun w => decide (w ≠ []))).map
              (fun w => (⟨w, false, false⟩ : Token)) := by
  induction str with
  | nil =>
    intro s h1 h2 h3 h4 h5 _
    by_cases hc : s.cur = [] <;>
      simp [tokFinish, h1, h2, h3, h4, h5, hc, List.splitOnP_nil, List.modifyHead]
  | cons c rest ih =>
    intro s h1 h2 h3 h4 h5 hstr
    obtain ⟨hd, hq, hb⟩ := hstr c (by simp)
    have hrest : ∀ x ∈ rest, x ≠ dquote ∧ x ≠ squote ∧ x ≠ backslash :=
      fun x hx => hstr x (by simp [hx])
    rw [List.foldl_cons, List.splitOnP_cons]
    by_cases hw : IsDesktopWhitespace c = true
    · by_cases hc : s.cur = []
      · have hstep : tokStep s c = s := by
          simp [tokStep, h1, h2, h3, h4, h5, hd, hq, hb, hw, hc]
        rw [hstep]
        refine (ih s h1 h2 h3 h4 h5 hrest).trans ?_
        obtain ⟨w, ws, hsplit⟩ : ∃ w ws,
            rest.splitOnP (fun c => IsDesktopWhitespace c) = w :: ws := by
          cases hx : rest.splitOnP (fun c => IsDesktopWhitespace c) with
          | nil => exact absurd hx (List.splitOnP_ne_nil _ _)
          | cons w ws => exact ⟨w, ws, rfl⟩
        simp [hw, hc, hsplit, List.modifyHead]
      · have hstep : tokStep s c
            = { s with tokens := s.tokens ++ [⟨s.cur, false, false⟩], cur := [],
                       cur_quoted := false, cur_single_quoted := false } := by
          simp [tokStep, h1, h2, h3, h4, h5, hd, hq, hb, hw, hc]
        rw [hstep]
        refine (ih _ ?_ ?_ ?_ ?_ ?_ hrest).trans ?_
        · exact h1
        · exact h2
        · exact h3
        · rfl
        · rfl
        obtain ⟨w, ws, hsplit⟩ : ∃ w ws,
            rest.splitOnP (fun c => IsDesktopWhitespace c) = w :: ws := by
          cases hx : rest.splitOnP (fun c => IsDesktopWhitespace c) with
          | nil => exact absurd hx (List.splitOnP_ne_nil _ _)
          | cons w ws => exact ⟨w, ws, rfl⟩
        simp [hw, hc, hsplit, List.modifyHead]
    · have hw2 : IsDesktopWhitespace c = false := by
        cases hx : IsDesktopWhitespace c with
        | false => rfl
        | true => exact absurd hx hw
      have hstep : tokStep s c = { s with cur := s.cur ++ [c] } := by
        simp [tokStep, h1, h2, h3, hd, hq, hb, hw2]
      rw [hstep]
      refine (ih _ ?_ ?_ ?_ ?_ ?_ hrest).trans ?_
      · exact h1
      · exact h2
      · exact h3
      · exact h4
      · exact h5
      obtain ⟨w, ws, hsplit⟩ : ∃ w ws,
          rest.splitOnP (fun c => IsDesktopWhitespace c) = w :: ws := by
        cases hx : rest.splitOnP (fun c => IsDesktopWhitespace c) with
        | nil => exact absurd hx (List.splitOnP_ne_nil _ _)
        | cons w ws => exact ⟨w, ws, rfl⟩
      simp [hw2, hsplit, List.modifyHead]

theorem splitOnP_concat_filter (str : List Char) :
    ∀ w ∈ str.splitOnP (fun c => IsDesktopWhitespace c),
      ∀ c ∈ w, IsDesktopWhitespace c = false := by
  induction str with
  | nil => intro w hw; simp [List.splitOnP_nil] at hw; subst hw; simp
  | cons x rest ih =>
    intro w hw
    rw [List.splitOnP_cons] at hw
    by_cases hx : IsDesktopWhitespace x = true
    · simp only [hx, if_true, List.mem_cons] at hw
      rcases hw with hw | hw
      · subst hw; simp
      · exact ih w hw
    · have hx2 : IsDesktopWhitespace x = false := by
        cases h : IsDesktopWhitespace x with
        | false => rfl
        | true => exact absurd h hx
      simp only [hx2, Bool.false_eq_true, if_false] at hw
      cases hs : rest.splitOnP (fun c => IsDesktopWhitespace c) with
      | nil => rw [hs] at hw; simp [List.modifyHead] at hw
      | cons v vs =>
        rw [hs] at hw
        simp only [List.modifyHead, List.mem_cons] at hw
        rcases hw with hw | hw
        · subst hw
          intro c hc
          simp only [List.mem_cons] at hc
          rcases hc with hc | hc
          · rw [hc]; exact hx2
          · exact ih v (by simp [hs]) c hc
        · exact ih w (by simp [hs, hw])

/-- C24: on a text without double quote, single quote and backslash the
tokens of `TokenizeDesktopExec` are exactly the maximal runs of characters
that are not whitespace (space, tab, newline, carriage return, form feed,
vertical tab), in order, each with both quote flags false; every token is
non-empty and holds no whitespace, and the text is these runs separated by
whitespace: with the whitespace removed it is the concatenation of the
tokens. -/
theorem C24_unquoted_text_splits_at_whitespace (str : List Char)
    (hstr : ∀ c ∈ str, c ≠ dquote ∧ c ≠ squote ∧ c ≠ backslash) :
    TokenizeDesktopExec str = (wordsOf str).map (fun w => (⟨w, false, false⟩ : Token))
    ∧ (∀ t ∈ TokenizeDesktopExec str,
        t.text ≠ [] ∧ t.quoted = false ∧ t.single_quoted = false
        ∧ ∀ c ∈ t.text, IsDesktopWhitespace c = false)
    ∧ ((TokenizeDesktopExec str).map (fun t => t.text)).flatten
        = str.filter (fun c => !IsDesktopWhitespace c)
    ∧ (∀ c, IsDesktopWhitespace c = true ↔
        c = ' ' ∨ c = '\t' ∨ c = '\n' ∨ c = '\r' ∨ c = Char.ofNat 12 ∨ c = Char.ofNat 11) := by
  have hmain : TokenizeDesktopExec str
      = (wordsOf str).map (fun w => (⟨w, false, false⟩ : Token)) := by
    unfold TokenizeDesktopExec wordsOf
    rw [tok_words_foldl str TokState.init rfl rfl rfl rfl rfl hstr]
    have : (fun w => TokState.init.cur ++ w) = (id : List Char → List Char) := by
      funext w; rfl
    rw [this]
    cases hx : str.splitOnP (fun c => IsDesktopWhitespace c) with
    | nil => exact absurd hx (List.splitOnP_ne_nil _ _)
    | cons w ws => simp [TokState.init, List.modifyHead]
  refine ⟨hmain, ?_, ?_, IsDesktopWhitespace_iff⟩
  · intro t ht
    rw [hmain] at ht
    simp only [List.mem_map, wordsOf, List.mem_filter, decide_eq_true_eq] at ht
    obtain ⟨w, ⟨hw, hne⟩, rfl⟩ := ht
    exact ⟨hne, rfl, rfl, splitOnP_concat_filter str w hw⟩
  · rw [hmain]
    simp only [List.map_map, wordsOf]
    have hid : ((fun t : Token => t.text) ∘ fun w => (⟨w, false, false⟩ : Token)) = id := by
      funext w; rfl
    rw [hid, List.map_id]
    clear hmain hstr
    induction str with
    | nil => simp [List.splitOnP_nil]
    | cons x rest ih =>
      rw [List.splitOnP_cons]
      cases hs : rest.splitOnP (fun c => IsDesktopWhitespace c) with
      | nil => exact absurd hs (List.splitOnP_ne_nil _ _)
      | cons v vs =>
        rw [hs] at ih
        by_cases hx : IsDesktopWhitespace x = true
        · simp only [hx, if_true]
          rw [List.filter_cons]
          simp only [ne_eq, not_true_eq_false, decide_False, Bool.false_eq_true, if_false]
          rw [ih]
          simp [hx]
        · have hx2 : IsDesktopWhitespace x = false := by
            cases h : IsDesktopWhitespace x with
            | false => rfl
            | true => exact absurd h hx
          simp only [hx2, Bool.false_eq_true, if_false, List.modifyHead]
          rw [List.filter_cons] at ih ⊢
          simp only [ne_eq, reduceCtorEq, not_false_eq_true, decide_True, if_true,
            List.flatten_cons, List.cons_append]
          rw [List.filter_cons]
          simp only [hx2, Bool.not_false, if_true, List.cons.injEq, true_and]
          rw [← ih]
          by_cases hv : v = []
          · simp [hv]
          · simp [hv]

/-- C24 on the text `  vim   -p\tfile `. -/
theorem C24_unquoted_text_splits_at_whitespace_witness :
    TokenizeDesktopExec "  vim   -p\tfile ".toList
      = [⟨"vim".toList, false, false⟩, ⟨"-p".toList, false, false⟩,
         ⟨"file".toList, false, false⟩] :=
  (C24_unquoted_text_splits_at_whitespace "  vim   -p\tfile ".toList (by decide)).1.trans
    (by decide)

/-! ## Re-reading a rendered command line -/

theorem tok_interior_foldl (a : List Char) :
    ∀ s : TokState, s.prev_backslash = false → s.in_double_quotes = true →
      s.in_single_quotes = false →
      (escapedInterior a).foldl tokStep s = { s with cur := s.cur ++ escapedInterior a } := by
  induction a with
  | nil => intro s _ _ _; simp [escapedInterior]
  | cons c rest ih =>
    intro s h1 h2 h3
    simp only [escapedInterior, List.mem_cons, List.mem_singleton, List.not_mem_nil, or_false]
    split_ifs with h
    · have hstep1 : tokStep s backslash = { s with prev_backslash := true } := by
        simp [tokStep, h1]
      have hstep2 : tokStep { s with prev_backslash := true } c
          = { s with cur := s.cur ++ [backslash, c] } := by
        simp [tokStep, h1]
      rw [List.foldl_cons, List.foldl_cons, hstep1, hstep2]
      refine (ih _ ?_ ?_ ?_).trans ?_
      · exact h1
      · exact h2
      · exact h3
      · simp
    · have hb : c ≠ backslash := fun e => h (Or.inl e)
      have hd : c ≠ dquote := fun e => h (Or.inr (Or.inl e))
      have hstep : tokStep s c = { s with cur := s.cur ++ [c] } := by
        simp [tokStep, h1, h2, h3, hb, hd]
      rw [List.foldl_cons, hstep]
      refine (ih _ ?_ ?_ ?_).trans ?_
      · exact h1
      · exact h2
      · exact h3
      · simp

theorem tok_EscapeArg_foldl (a : List Char) (ts : List Token) :
    (EscapeArg a).foldl tokStep ⟨ts, [], false, false, false, false, false⟩
      = ⟨ts, escapedInterior a, false, false, true, false, false⟩ := by
  have hne : dquote ≠ backslash := by decide
  rw [EscapeArg_eq, List.foldl_cons, List.foldl_append]
  have hstep1 : tokStep ⟨ts, [], false, false, false, false, false⟩ dquote
      = ⟨ts, [], true, false, true, false, false⟩ := by
    simp [tokStep, hne]
  rw [hstep1, tok_interior_foldl a _ rfl rfl rfl]
  simp [tokStep, hne]

theorem tok_joinArgs (rest : List (List Char)) :
    ∀ (a : List Char) (ts : List Token),
      tokFinish ((joinArgs (a :: rest)).foldl tokStep ⟨ts, [], false, false, false, false, false⟩)
        = ts ++ (a :: rest).map (fun b => (⟨escapedInterior b, true, false⟩ : Token)) := by
  induction rest with
  | nil =>
    intro a ts
    simp only [joinArgs]
    rw [tok_EscapeArg_foldl]
    simp [tokFinish]
  | cons b rest ih =>
    intro a ts
    have hsp : ' ' ≠ backslash ∧ ' ' ≠ dquote ∧ ' ' ≠ squote := by decide
    simp only [joinArgs]
    rw [List.foldl_append, List.foldl_cons, tok_EscapeArg_foldl]
    have hstep : tokStep ⟨ts, escapedInterior a, false, false, true, false, false⟩ ' '
        = ⟨ts ++ [⟨escapedInterior a, true, false⟩], [], false, false, false, false, false⟩ := by
      simp [tokStep, hsp.1, hsp.2.1, hsp.2.2, IsDesktopWhitespace]
    rw [hstep, ih b]
    simp

theorem unescapeScan_escapedInterior (a : List Char) :
    unescapeScan (escapedInterior a) = a := by
  induction a with
  | nil => rfl
  | cons c rest ih =>
    simp only [escapedInterior, List.mem_cons, List.mem_singleton, List.not_mem_nil, or_false]
    split_ifs with h
    · have hc : c = dquote ∨ c = squote ∨ c = backtick ∨ c = dollar ∨ c = backslash := by
        tauto
      simp [unescapeScan, hc, ih]
    · have hb : c ≠ backslash := fun e => h (Or.inl e)
      rw [unescapeScan_cons_ne _ _ hb, ih]

theorem TokenizeDesktopExec_joinArgs (args : List (List Char)) :
    TokenizeDesktopExec (joinArgs args)
      = args.map (fun a => (⟨escapedInterior a, true, false⟩ : Token)) := by
  cases args with
  | nil => decide
  | cons a rest =>
    unfold TokenizeDesktopExec
    exact (tok_joinArgs rest a []).trans (by simp)

/-- C27: the command line rendered from the arguments `args` by the last loop
of `ConstructCommandLine` (each `EscapeArg a`, one space between neighbours)
is read by `TokenizeDesktopExec` as exactly one token per argument, every token
marked quoted and not single-quoted, and `UndoEscapes` of the tokens gives back
the arguments in order, whatever characters they hold. -/
theorem C27_rendered_line_reads_back (args : List (List Char)) :
    renderLoop args 0 [] = joinArgs args
    ∧ (TokenizeDesktopExec (renderLoop args 0 [])).length = args.length
    ∧ (∀ t ∈ TokenizeDesktopExec (renderLoop args 0 []),
        t.quoted = true ∧ t.single_quoted = false)
    ∧ (TokenizeDesktopExec (renderLoop args 0 [])).map UndoEscapes = args
    ∧ (∀ (i : Nat) (a : List Char), args[i]? = some a →
        ((TokenizeDesktopExec (renderLoop args 0 []))[i]?).map UndoEscapes = some a) := by
  rw [renderLoop_eq_joinArgs, TokenizeDesktopExec_joinArgs]
  have hmap : (args.map (fun a => (⟨escapedInterior a, true, false⟩ : Token))).map UndoEscapes
      = args := by
    rw [List.map_map]
    have : (UndoEscapes ∘ fun a => (⟨escapedInterior a, true, false⟩ : Token)) = id := by
      funext a
      simp only [Function.comp, UndoEscapes_eq_unescapeScan, unescapeScan_escapedInterior, id]
    rw [this, List.map_id]
  refine ⟨rfl, by simp, ?_, hmap, ?_⟩
  · intro t ht
    simp only [List.mem_map] at ht
    obtain ⟨a, _, rfl⟩ := ht
    exact ⟨rfl, rfl⟩
  · intro i a hi
    have h := congrArg (fun l : List (List Char) => l[i]?) hmap
    simp only [List.getElem?_map] at h
    rw [List.getElem?_map, h, hi]

/-! ## The comparison of ranked candidates is a strict weak ordering -/

theorem wstring_lt_total (a b : List Char) (h1 : wstring_lt a b = false)
    (h2 : wstring_lt b a = false) : a = b := by
  induction a generalizing b with
  | nil =>
    cases b with
    | nil => rfl
    | cons y ys => simp [wstring_lt] at h1
  | cons x xs ih =>
    cases b with
    | nil => simp [wstring_lt] at h2
    | cons y ys =>
      simp only [wstring_lt] at h1 h2
      by_cases hxy : x.toNat < y.toNat
      · simp [hxy] at h1
      · by_cases hyx : y.toNat < x.toNat
        · simp [hyx] at h2
        · simp only [hxy, hyx, if_false] at h1 h2
          have hn : x.toNat = y.toNat := by omega
          have hc : x = y := by
            have := congrArg Char.ofNat hn
            simpa [Char.ofNat_toNat] using this
          rw [hc, ih ys h1 h2]

theorem wstring_lt_irrefl (a : List Char) : wstring_lt a a = false := by
  cases h : wstring_lt a a with
  | false => rfl
  | true => have := wstring_lt_asymm a a h; rw [h] at this; cases this

theorem RankedCandidate.incomparable_iff (a b : RankedCandidate) :
    (a.lt b = false ∧ b.lt a = false) ↔
      a.is_default = b.is_default ∧ a.rank = b.rank ∧ a.info.name = b.info.name := by
  constructor
  · rintro ⟨h1, h2⟩
    have n1 : ¬ a.lt b = true := by rw [h1]; simp
    have n2 : ¬ b.lt a = true := by rw [h2]; simp
    rw [RankedCandidate.lt_iff] at n1 n2
    have hd : a.is_default = b.is_default := by
      cases ha : a.is_default <;> cases hb : b.is_default <;> simp_all
    have hr : a.rank = b.rank := by
      have : ¬ a.rank < b.rank := fun h => n1 (Or.inr ⟨hd, Or.inl h⟩)
      have : ¬ b.rank < a.rank := fun h => n2 (Or.inr ⟨hd.symm, Or.inl h⟩)
      omega
    refine ⟨hd, hr, wstring_lt_total _ _ ?_ ?_⟩
    · cases hw : wstring_lt a.info.name b.info.name with
      | false => rfl
      | true => exact absurd (Or.inr ⟨hd, Or.inr ⟨hr, hw⟩⟩) n1
    · cases hw : wstring_lt b.info.name a.info.name with
      | false => rfl
      | true => exact absurd (Or.inr ⟨hd.symm, Or.inr ⟨hr.symm, hw⟩⟩) n2
  · rintro ⟨hd, hr, hn⟩
    unfold RankedCandidate.lt
    simp [hd, hr, hn, wstring_lt_irrefl]

/-- C28: `RankedCandidate::operator<` is a strict weak ordering: no candidate
is less than itself, the relation is transitive, the relation "neither is
less than the other" is transitive, and two candidates are in that relation
exactly when they have the same `is_default`, the same `rank` and the same
name. -/
theorem C28_comparison_is_strict_weak_ordering :
    (∀ a : RankedCandidate, a.lt a = false)
    ∧ (∀ a b c : RankedCandidate, a.lt b = true → b.lt c = true → a.lt c = true)
    ∧ (∀ a b c : RankedCandidate, (a.lt b = false ∧ b.lt a = false) →
        (b.lt c = false ∧ c.lt b = false) → (a.lt c = false ∧ c.lt a = false))
    ∧ (∀ a b : RankedCandidate, (a.lt b = false ∧ b.lt a = false) ↔
        a.is_default = b.is_default ∧ a.rank = b.rank ∧ a.info.name = b.info.name) := by
  refine ⟨?_, ?_, ?_, RankedCandidate.incomparable_iff⟩
  · intro a
    cases h : a.lt a with
    | false => rfl
    | true => have := RankedCandidate.lt_asymm a a h; rw [h] at this; cases this
  · intro a b c hab hbc
    rcases RankedCandidate.lt_negtrans a c b hab with h | h
    · exact h
    · have := RankedCandidate.lt_asymm b c hbc
      rw [h] at this; cases this
  · intro a b c hab hbc
    rw [RankedCandidate.incomparable_iff] at hab hbc ⊢
    exact ⟨hab.1.trans hbc.1, hab.2.1.trans hbc.2.1, hab.2.2.trans hbc.2.2⟩

/-! ## Quoting of a path for the shell -/

theorem EscapePathForShell_foldl (path : List Char) (acc : List Char) :
    path.foldl
        (fun escaped_path c =>
          if c = squote then escaped_path ++ [squote, backslash, squote, squote]
          else escaped_path ++ [c]) acc
      = acc ++ path.flatMap
          (fun c => if c = squote then [squote, backslash, squote, squote] else [c]) := by
  induction path generalizing acc with
  | nil => simp
  | cons c rest ih =>
    rw [List.foldl_cons, ih, List.flatMap_cons]
    split_ifs <;> simp

theorem EscapePathForShell_eq (path : List Char) :
    EscapePathForShell path = shellQuoted path := by
  unfold EscapePathForShell shellQuoted
  rw [EscapePathForShell_foldl]
  simp

theorem sqRead_inside_cons (c : Char) (rest : List Char) :
    sqRead true (c :: rest)
      = if c = squote then sqRead false rest else (c, true) :: sqRead true rest := by
  cases rest <;> simp [sqRead]

theorem sqRead_outside_squote (rest : List Char) :
    sqRead false (squote :: rest) = sqRead true rest := by
  cases rest <;> simp [sqRead]

theorem sqRead_outside_backslash (next : Char) (rest : List Char) :
    sqRead false (backslash :: next :: rest) = (next, false) :: sqRead false rest := by
  have hne : backslash ≠ squote := by decide
  simp [sqRead, hne]

theorem sqRead_outside_plain (c : Char) (rest : List Char) (h1 : c ≠ squote)
    (h2 : c ≠ backslash) :
    sqRead false (c :: rest) = (c, false) :: sqRead false rest := by
  cases rest <;> simp [sqRead, h1, h2]

theorem sqOpenAtEnd_inside_cons (c : Char) (rest : List Char) :
    sqOpenAtEnd true (c :: rest)
      = if c = squote then sqOpenAtEnd false rest else sqOpenAtEnd true rest := by
  cases rest <;> simp [sqOpenAtEnd]

theorem sqOpenAtEnd_outside_squote (rest : List Char) :
    sqOpenAtEnd false (squote :: rest) = sqOpenAtEnd true rest := by
  cases rest <;> simp [sqOpenAtEnd]

theorem sqOpenAtEnd_outside_backslash (next : Char) (rest : List Char) :
    sqOpenAtEnd false (backslash :: next :: rest) = sqOpenAtEnd false rest := by
  have hne : backslash ≠ squote := by decide
  simp [sqOpenAtEnd, hne]

theorem sqRead_inside (path after : List Char) :
    sqRead true
        (path.flatMap (fun c => if c = squote then [squote, backslash, squote, squote] else [c])
          ++ squote :: after)
      = path.map (fun c => (c, decide (c ≠ squote))) ++ sqRead false after := by
  induction path with
  | nil => simp [sqRead_inside_cons]
  | cons c rest ih =>
    rw [List.flatMap_cons]
    by_cases hc : c = squote
    · subst hc
      simp only [if_true, List.cons_append, List.nil_append, sqRead_inside_cons,
        sqRead_outside_backslash, sqRead_outside_squote, List.map_cons, ih, ne_eq,
        not_true_eq_false, decide_False]
    · simp only [hc, if_false, List.cons_append, List.nil_append, sqRead_inside_cons,
        List.map_cons, ih, ne_eq, not_false_eq_true, decide_True]

theorem sqOpenAtEnd_inside (path after : List Char) :
    sqOpenAtEnd true
        (path.flatMap (fun c => if c = squote then [squote, backslash, squote, squote] else [c])
          ++ squote :: after)
      = sqOpenAtEnd false after := by
  induction path with
  | nil => simp [sqOpenAtEnd_inside_cons]
  | cons c rest ih =>
    rw [List.flatMap_cons]
    by_cases hc : c = squote
    · subst hc
      simp only [if_true, List.cons_append, List.nil_append, sqOpenAtEnd_inside_cons,
        sqOpenAtEnd_outside_backslash, sqOpenAtEnd_outside_squote, ih]
    · simp only [hc, if_false, List.cons_append, List.nil_append, sqOpenAtEnd_inside_cons, ih]

theorem sqRead_plain (before rest : List Char)
    (h : ∀ c ∈ before, c ≠ squote ∧ c ≠ backslash) :
    sqRead false (before ++ rest) = before.map (fun c => (c, false)) ++ sqRead false rest := by
  induction before with
  | nil => rfl
  | cons c cs ih =>
    obtain ⟨h1, h2⟩ := h c (by simp)
    rw [List.cons_append, sqRead_outside_plain _ _ h1 h2,
      ih (fun x hx => h x (by simp [hx]))]
    rfl

theorem sqRead_command (before after path : List Char)
    (hb : ∀ c ∈ before, c ≠ squote ∧ c ≠ backslash)
    (ha : ∀ c ∈ after, c ≠ squote ∧ c ≠ backslash) :
    sqRead false (before ++ EscapePathForShell path ++ after)
      = before.map (fun c => (c, false)) ++ path.map (fun c => (c, decide (c ≠ squote)))
          ++ after.map (fun c => (c, false)) := by
  rw [List.append_assoc, sqRead_plain before _ hb, EscapePathForShell_eq]
  unfold shellQuoted
  simp only [List.cons_append, List.append_assoc, List.nil_append]
  rw [sqRead_outside_squote, sqRead_inside]
  have := sqRead_plain after [] ha
  simp only [List.append_nil] at this
  rw [this]
  simp [sqRead]

theorem sqRead_oracleCommand (tool arg : List Char)
    (ht : ∀ c ∈ tool, c ≠ squote ∧ c ≠ backslash) :
    sqRead false (oracleCommand tool arg)
      = tool.map (fun c => (c, false)) ++ arg.map (fun c => (c, decide (c ≠ squote)))
          ++ " 2>/dev/null".toList.map (fun c => (c, false)) := by
  unfold oracleCommand
  rw [← EscapePathForShell_eq]
  exact sqRead_command tool _ arg ht (by decide)

theorem GetDefaultApp_command (h : Host) (mime_type : List Char) :
    GetDefaultApp h mime_type
      = RunCommandAndCaptureOutput h
          (oracleCommand "xdg-mime query default ".toList mime_type) := by
  unfold GetDefaultApp oracleCommand
  rw [EscapePathForShell_eq]

theorem collectOracles_command (h : Host) (pathname : List Char) :
    collectOracles h pathname
      = add_unique
          (add_unique ⟨[], []⟩
            (RunCommandAndCaptureOutput h
              (oracleCommand "xdg-mime query filetype ".toList (h.StrWide2MB pathname))))
          (RunCommandAndCaptureOutput h
            (oracleCommand "file -b --mime-type ".toList (h.StrWide2MB pathname))) := by
  unfold collectOracles oracleCommand
  simp only [EscapePathForShell_eq]

theorem GetMimeType_command (h : Host) (pathname : List Char) :
    GetMimeType h pathname
      = h.StrMB2Wide
          (combinedMime
            (RunCommandAndCaptureOutput h
              (oracleCommand "xdg-mime query filetype ".toList (h.StrWide2MB pathname)))
            (RunCommandAndCaptureOutput h
              (oracleCommand "file -b --mime-type ".toList (h.StrWide2MB pathname)))) := by
  unfold GetMimeType oracleCommand combinedMime
  simp only [EscapePathForShell_eq]

/-- C29: `EscapePathForShell p` is a single quote, then `p` with each single
quote replaced by the four characters single quote, backslash, single quote,
single quote, then a single quote. Read by the POSIX single-quote rule it
gives back exactly the characters of `p`, each one read inside a quoted
region unless it is a single quote, and the reading ends outside a quoted
region. Every command that the provider runs is an oracle command line built
with it: the two commands of `CollectAndPrioritizeMimeTypes` and of
`GetMimeType` for the narrow path, the command of `GetDefaultApp` for the MIME
type; and in an oracle command line the characters of the argument other than
single quotes are all read inside a quoted region, the fixed text around it
outside. -/
theorem C29_quoted_path_reads_back (p : List Char) :
    EscapePathForShell p = shellQuoted p
    ∧ (sqRead false (EscapePathForShell p)).map (fun x => x.1) = p
    ∧ sqRead false (EscapePathForShell p) = p.map (fun c => (c, decide (c ≠ squote)))
    ∧ (∀ x ∈ sqRead false (EscapePathForShell p), x.2 = false → x.1 = squote)
    ∧ sqOpenAtEnd false (EscapePathForShell p) = false
    ∧ (∀ (h : Host) (mime_type : List Char), GetDefaultApp h mime_type
        = RunCommandAndCaptureOutput h
            (oracleCommand "xdg-mime query default ".toList mime_type))
    ∧ (∀ (h : Host) (pathname : List Char), collectOracles h pathname
        = add_unique
            (add_unique ⟨[], []⟩
              (RunCommandAndCaptureOutput h
                (oracleCommand "xdg-mime query filetype ".toList (h.StrWide2MB pathname))))
            (RunCommandAndCaptureOutput h
              (oracleCommand "file -b --mime-type ".toList (h.StrWide2MB pathname))))
    ∧ (∀ (h : Host) (pathname : List Char), GetMimeType h pathname
        = h.StrMB2Wide
            (combinedMime
              (RunCommandAndCaptureOutput h
                (oracleCommand "xdg-mime query filetype ".toList (h.StrWide2MB pathname)))
              (RunCommandAndCaptureOutput h
                (oracleCommand "file -b --mime-type ".toList (h.StrWide2MB pathname)))))
    ∧ (∀ tool ∈ ["xdg-mime query filetype ".toList, "file -b --mime-type ".toList,
          "xdg-mime query default ".toList],
        ∀ arg : List Char,
          oracleCommand tool arg = tool ++ EscapePathForShell arg ++ " 2>/dev/null".toList
          ∧ sqRead false (oracleCommand tool arg)
            = tool.map (fun c => (c, false)) ++ arg.map (fun c => (c, decide (c ≠ squote)))
                ++ " 2>/dev/null".toList.map (fun c => (c, false))) := by
  have hread : sqRead false (EscapePathForShell p)
      = p.map (fun c => (c, decide (c ≠ squote))) := by
    have := sqRead_command [] [] p (by simp) (by simp)
    simpa using this
  refine ⟨EscapePathForShell_eq p, ?_, hread, ?_, ?_, GetDefaultApp_command,
    collectOracles_command, GetMimeType_command, ?_⟩
  · rw [hread, List.map_map]
    exact List.map_id p
  · intro x hx hf
    rw [hread, List.mem_map] at hx
    obtain ⟨c, _, rfl⟩ := hx
    simpa using hf
  · rw [EscapePathForShell_eq]
    unfold shellQuoted
    rw [sqOpenAtEnd_outside_squote, sqOpenAtEnd_inside]
    rfl
  · intro tool ht arg
    refine ⟨by rw [EscapePathForShell_eq]; rfl, sqRead_oracleCommand tool arg ?_⟩
    simp only [List.mem_cons, List.mem_singleton, List.not_mem_nil, or_false] at ht
    rcases ht with rfl | rfl | rfl <;> decide

/-! ## The extension fallback reads the lower-cased last suffix only -/

theorem rfindChar_split (c : Char) (s : List Char) (i : Nat) (h : rfindChar c s = some i) :
    s.drop i = c :: s.drop (i + 1) ∧ s = s.take i ++ c :: s.drop (i + 1)
      ∧ c ∉ s.drop (i + 1) := by
  induction s generalizing i with
  | nil => simp [rfindChar] at h
  | cons d rest ih =>
    simp only [rfindChar] at h
    cases hr : rfindChar c rest with
    | some j =>
      rw [hr] at h
      simp only [Option.some.injEq] at h
      subst h
      obtain ⟨h1, h2, h3⟩ := ih j hr
      refine ⟨by simpa using h1, ?_, by simpa using h3⟩
      simp only [List.take_succ_cons, List.drop_succ_cons, List.cons_append, List.cons.injEq,
        true_and]
      exact h2
    | none =>
      rw [hr] at h
      simp only at h
      split_ifs at h with hd
      simp only [Option.some.injEq] at h
      subst h
      subst hd
      refine ⟨by simp, by simp, ?_⟩
      simp only [zero_add, List.drop_succ_cons, List.drop_zero]
      intro hmem
      have : rfindChar d rest ≠ none := by
        clear ih hr
        induction rest with
        | nil => simp at hmem
        | cons e rest2 ih2 =>
          simp only [rfindChar]
          cases hr2 : rfindChar d rest2 with
          | some k => simp
          | none =>
            simp only [List.mem_cons] at hmem
            rcases hmem with hmem | hmem
            · simp [hmem]
            · exact absurd hr2 (ih2 hmem)
      exact this hr

theorem afterLastDot_eq_some_iff (pathname s : List Char) :
    afterLastDot pathname = some s ↔ ∃ front, pathname = front ++ '.' :: s ∧ '.' ∉ s := by
  constructor
  · intro h
    unfold afterLastDot at h
    cases hr : rfindChar '.' pathname with
    | none => rw [hr] at h; cases h
    | some i =>
      rw [hr] at h
      simp only [Option.map_some', Option.some.injEq] at h
      subst h
      obtain ⟨_, h2, h3⟩ := rfindChar_split _ _ _ hr
      exact ⟨pathname.take i, h2, h3⟩
  · rintro ⟨front, rfl, hs⟩
    have key : rfindChar '.' (front ++ '.' :: s) = some front.length := by
      have hnone : rfindChar '.' s = none := by
        clear front
        induction s with
        | nil => rfl
        | cons e rest ih =>
          simp only [List.mem_cons, not_or] at hs
          simp only [rfindChar, ih hs.2]
          rw [if_neg (fun e2 => hs.1 e2.symm)]
      induction front with
      | nil => simp [rfindChar, hnone]
      | cons e rest ih => simp [rfindChar, ih]
    unfold afterLastDot
    rw [key]
    simp

theorem extensionMimes_eq (h : Host) (pathname : List Char) :
    extensionMimes h pathname
      = match (afterLastDot pathname).map (List.map h.towlower) with
        | some low =>
          (extensionTable.filter
            (fun row => decide (h.towlower '.' :: low ∈ row.1))).map (fun row => row.2)
        | none => [] := by
  unfold extensionMimes afterLastDot
  cases hr : rfindChar '.' pathname with
  | none => rfl
  | some i =>
    simp only [Option.map_some']
    rw [(rfindChar_split _ _ _ hr).1]
    rfl

theorem firstOccurrences_mem (l : List (List Char)) (x : List Char) (hx : x ∈ l) :
    x ∈ firstOccurrences l := by
  induction l with
  | nil => simp at hx
  | cons y l ih =>
    simp only [firstOccurrences, List.mem_cons, List.mem_filter, decide_eq_true_eq]
    by_cases hxy : x = y
    · exact Or.inl hxy
    · simp only [List.mem_cons] at hx
      rcases hx with hx | hx
      · exact absurd hx hxy
      · exact Or.inr ⟨ih hx, hxy⟩

/-- C26: the list of `CollectAndPrioritizeMimeTypes` is the same for two
paths with equal oracle outputs whose texts after the last dot are equal after
lower-casing (or that both have no dot), where the text after the last dot of
`front.s` is `s` when `s` has no dot; when lower-casing turns `.PNG` into
`.png`, the list for `X.PNG` contains `image/png`; and when both oracles
return nothing and lower-casing leaves `.gz` unchanged, the list for
`a.tar.gz` is `application/gzip` followed by the two catch-all types, without
`application/x-tar`. -/
theorem C26_extension_fallback_reads_last_suffix (h : Host) :
    (∀ p1 p2 : List Char, oracleMimes h p1 = oracleMimes h p2 →
      (afterLastDot p1).map (List.map h.towlower)
        = (afterLastDot p2).map (List.map h.towlower) →
      CollectAndPrioritizeMimeTypes h p1 = CollectAndPrioritizeMimeTypes h p2)
    ∧ (∀ pathname s : List Char,
        afterLastDot pathname = some s ↔ ∃ front, pathname = front ++ '.' :: s ∧ '.' ∉ s)
    ∧ (".PNG".toList.map h.towlower = ".png".toList →
        "image/png".toList ∈ CollectAndPrioritizeMimeTypes h "X.PNG".toList)
    ∧ (".gz".toList.map h.towlower = ".gz".toList →
        oracleMimes h "a.tar.gz".toList = [[], []] →
        CollectAndPrioritizeMimeTypes h "a.tar.gz".toList
            = ["application/gzip".toList, "application/x-executable".toList,
               "application/octet-stream".toList]
          ∧ "application/x-tar".toList ∉ CollectAndPrioritizeMimeTypes h "a.tar.gz".toList) := by
  refine ⟨?_, afterLastDot_eq_some_iff, ?_, ?_⟩
  · intro p1 p2 ho he
    rw [Collect_eq_firstOccurrences, Collect_eq_firstOccurrences]
    unfold producedMimes
    rw [extensionMimes_eq h p1, extensionMimes_eq h p2, ho, he]
  · intro hlow
    rw [Collect_eq_firstOccurrences]
    apply firstOccurrences_mem
    rw [List.mem_filter]
    refine ⟨?_, by decide⟩
    unfold producedMimes
    have hext : extensionMimes h "X.PNG".toList = ["image/png".toList] := by
      unfold extensionMimes
      have hr : rfindChar '.' "X.PNG".toList = some 1 := by decide
      rw [hr]
      have hd : List.drop 1 "X.PNG".toList = ".PNG".toList := by decide
      simp only [hd, hlow]
      decide
    rw [hext]
    simp
  · intro hlow hsilent
    have hlist : CollectAndPrioritizeMimeTypes h "a.tar.gz".toList
        = ["application/gzip".toList, "application/x-executable".toList,
           "application/octet-stream".toList] := by
      rw [Collect_silent_oracles h _ (by rw [hsilent]; decide)]
      have hext : extensionMimes h "a.tar.gz".toList = ["application/gzip".toList] := by
        unfold extensionMimes
        have hr : rfindChar '.' "a.tar.gz".toList = some 5 := by decide
        rw [hr]
        have hd : List.drop 5 "a.tar.gz".toList = ".gz".toList := by decide
        simp only [hd, hlow]
        decide
      rw [hext]
      decide
    rw [hlist]
    exact ⟨rfl, by decide⟩

/-- C26 on the example host, whose oracles are silent: the paths `X.PNG` and
`x.png` have the same list; the list for `a.tar.gz` has `application/gzip`
and not `application/x-tar`. -/
theorem C26_extension_fallback_reads_last_suffix_witness :
    CollectAndPrioritizeMimeTypes exampleHost "X.PNG".toList
        = CollectAndPrioritizeMimeTypes exampleHost "x.png".toList
    ∧ "image/png".toList ∈ CollectAndPrioritizeMimeTypes exampleHost "X.PNG".toList
    ∧ "application/x-tar".toList ∉ CollectAndPrioritizeMimeTypes exampleHost "a.tar.gz".toList :=
  ⟨(C26_extension_fallback_reads_last_suffix exampleHost).1 "X.PNG".toList "x.png".toList
      (by decide) (by decide),
   (C26_extension_fallback_reads_last_suffix exampleHost).2.2.1 (by decide),
   ((C26_extension_fallback_reads_last_suffix exampleHost).2.2.2 (by decide) (by decide)).2⟩

/-! ## Lines outside the main section are not read -/

theorem parseKeyValue_congr (h1 h2 : Host) (hw : h1.StrMB2Wide = h2.StrMB2Wide)
    (s : ParseState) (line : List Char) : parseKeyValue h1 s line = parseKeyValue h2 s line := by
  unfold parseKeyValue
  rw [hw]

theorem parseLines_congr (h1 h2 : Host) (hw : h1.StrMB2Wide = h2.StrMB2Wide)
    (lines : List (List Char × Bool)) :
    ∀ s, parseLines h1 lines s = parseLines h2 lines s := by
  induction lines with
  | nil => intro s; rfl
  | cons l rest ih =>
    intro s
    obtain ⟨raw, good⟩ := l
    rw [parseLines_cons, parseLines_cons, parseKeyValue_congr h1 h2 hw]
    simp only [ih]

theorem localizedLoop_congr (h1 h2 : Host) (hg : h1.getenv = h2.getenv)
    (values : List (List Char × List Char)) (key : List Char) (vars : List (List Char)) :
    localizedLoop h1 values key vars = localizedLoop h2 values key vars := by
  induction vars with
  | nil => rfl
  | cons var rest ih => simp only [localizedLoop, hg, ih]

theorem parseFinish_congr (h1 h2 : Host) (hw : h1.StrMB2Wide = h2.StrMB2Wide)
    (hg : h1.getenv = h2.getenv) (path : List Char) (s : ParseState) :
    parseFinish h1 path s = parseFinish h2 path s := by
  unfold parseFinish GetLocalizedValue
  simp only [hw, localizedLoop_congr h1 h2 hg]

theorem ParseDesktopFile_content (h : Host) (path content : List Char) :
    ParseDesktopFile (hostWithFile h content) path
      = match parseLines h (getlines '\n' content) ParseState.init with
        | none => none
        | some s => parseFinish h path s := by
  have e1 : ∀ s, parseLines (hostWithFile h content) (getlines '\n' content) s
      = parseLines h (getlines '\n' content) s :=
    parseLines_congr (hostWithFile h content) h rfl _
  have e2 : ∀ s, parseFinish (hostWithFile h content) path s = parseFinish h path s :=
    fun s => parseFinish_congr (hostWithFile h content) h rfl rfl path s
  have e3 : (hostWithFile h content).readFile path = some content := rfl
  unfold ParseDesktopFile
  rw [e3]
  simp only [e1, e2]

theorem getlinesAux_all_good (d : Char) (str : List Char) :
    ∀ cur, (str = [] ∧ cur = []) ∨ str.getLast? = some d →
      ∀ l ∈ getlinesAux d str cur, l.2 = true := by
  induction str with
  | nil =>
    intro cur h l hl
    rcases h with ⟨_, hc⟩ | h
    · simp [getlinesAux, hc] at hl
    · simp at h
  | cons c rest ih =>
    intro cur h l hl
    have hrest : (rest = [] ∧ c = d) ∨ rest.getLast? = some d := by
      rcases h with ⟨h0, _⟩ | h
      · cases h0
      · cases rest with
        | nil =>
          simp only [List.getLast?_singleton, Option.some.injEq] at h
          exact Or.inl ⟨rfl, h⟩
        | cons b rest2 =>
          rw [List.getLast?_cons_cons] at h
          exact Or.inr h
    rw [getlinesAux] at hl
    by_cases hc : c = d
    · rw [if_pos hc] at hl
      simp only [List.mem_cons] at hl
      rcases hl with hl | hl
      · rw [hl]
      · refine ih [] ?_ l hl
        rcases hrest with ⟨h0, _⟩ | h1
        · exact Or.inl ⟨h0, rfl⟩
        · exact Or.inr h1
    · rw [if_neg hc] at hl
      refine ih _ ?_ l hl
      rcases hrest with ⟨_, h0⟩ | h1
      · exact absurd h0 hc
      · exact Or.inr h1

theorem getlines_good_iff (content : List Char) :
    (∀ l ∈ getlines '\n' content, l.2 = true) ↔ endsWithNewline content = true := by
  unfold endsWithNewline
  rw [decide_eq_true_eq]
  constructor
  · intro hall
    by_contra hn
    rw [not_or] at hn
    cases hl : content.getLast? with
    | none =>
      rw [List.getLast?_eq_none_iff] at hl
      exact hn.1 hl
    | some c =>
      have hc : c ≠ '\n' := by
        intro e
        rw [hl, e] at hn
        exact hn.2 rfl
      obtain ⟨l, hmem, hbad⟩ := getlinesAux_unterminated '\n' content [] c hl hc
      have := hall l hmem
      rw [hbad] at this
      cases this
  · intro h
    refine getlinesAux_all_good '\n' content [] ?_
    rcases h with h | h
    · exact Or.inl ⟨h, rfl⟩
    · exact Or.inr h

theorem parseLines_withoutOutsideLines (h : Host) (lines : List (List Char × Bool)) :
    ∀ s : ParseState, (∀ l ∈ lines, l.2 = true) →
      parseLines h lines s
        = parseLines h
            ((withoutOutsideLines s.in_main_section (lines.map (fun l => l.1))).map
              (fun raw => (raw, true))) s := by
  induction lines with
  | nil => intro s _; rfl
  | cons l rest ih =>
    intro s hall
    obtain ⟨raw, good⟩ := l
    have hg : good = true := hall (raw, good) (by simp)
    subst hg
    have hrest : ∀ l ∈ rest, l.2 = true := fun l hl => hall l (by simp [hl])
    rw [parseLines_cons]
    simp only [List.map_cons, withoutOutsideLines, Bool.true_eq_false, if_false]
    by_cases hmain : Trim raw = "[Desktop Entry]".toList
    · have h1 : ¬ (Trim raw = [] ∨ (Trim raw).head? = some '#') := by rw [hmain]; decide
      rw [if_neg h1, if_pos hmain, if_pos hmain, List.map_cons, parseLines_cons]
      simp only [Bool.true_eq_false, if_false]
      rw [if_neg h1, if_pos hmain]
      exact ih _ hrest
    · by_cases hhead : (Trim raw).head? = some '['
      · have h1 : ¬ (Trim raw = [] ∨ (Trim raw).head? = some '#') := by
          rintro (e | e)
          · rw [e] at hhead; cases hhead
          · rw [e] at hhead; cases hhead
        rw [if_neg h1, if_neg hmain, if_pos hhead, if_neg hmain, if_pos hhead, List.map_cons,
          parseLines_cons]
        simp only [Bool.true_eq_false, if_false]
        rw [if_neg h1, if_neg hmain, if_pos hhead]
        exact ih _ hrest
      · rw [if_neg hmain, if_neg hhead, if_neg hmain, if_neg hhead]
        by_cases hin : s.in_main_section = true
        · rw [if_pos hin, if_pos hin, List.map_cons, parseLines_cons]
          simp only [Bool.true_eq_false, if_false]
          rw [if_neg hmain, if_neg hhead, if_pos hin]
          by_cases hcomment : Trim raw = [] ∨ (Trim raw).head? = some '#'
          · rw [if_pos hcomment, if_pos hcomment, ih s hrest, hin]
          · rw [if_neg hcomment, if_neg hcomment, ih _ hrest, parseKeyValue_main, hin]
        · rw [if_neg hin, if_neg hin]
          have hin2 : s.in_main_section = false := by
            cases hx : s.in_main_section with
            | false => rfl
            | true => exact absurd hx hin
          by_cases hcomment : Trim raw = [] ∨ (Trim raw).head? = some '#'
          · rw [if_pos hcomment, ih s hrest, hin2]
          · rw [if_neg hcomment, ih s hrest, hin2]

theorem parseLines_unterminated (h : Host) (content : List Char) (s : ParseState)
    (he : endsWithNewline content = false) :
    parseLines h (getlines '\n' content) s = none := by
  apply parseLines_bad_line
  by_contra hn
  have : endsWithNewline content = true := by
    rw [← getlines_good_iff]
    intro l hl
    cases hx : l.2 with
    | true => rfl
    | false => exact absurd ⟨l, hl, hx⟩ hn
  rw [he] at this
  cases this

theorem ParseDesktopFile_some_terminated (h : Host) (path content : List Char)
    (info : CandidateInfo)
    (hp : ParseDesktopFile (hostWithFile h content) path = some info) :
    endsWithNewline content = true := by
  cases he : endsWithNewline content with
  | true => rfl
  | false =>
    rw [ParseDesktopFile_content, parseLines_unterminated h content _ he] at hp
    cases hp

theorem ParseDesktopFile_outside (h : Host) (path c1 c2 : List Char)
    (hlines : withoutOutsideLines false (fileLines c1)
      = withoutOutsideLines false (fileLines c2))
    (hend : endsWithNewline c1 = endsWithNewline c2) :
    ParseDesktopFile (hostWithFile h c1) path = ParseDesktopFile (hostWithFile h c2) path := by
  rw [ParseDesktopFile_content, ParseDesktopFile_content]
  cases he : endsWithNewline c2 with
  | true =>
    rw [he] at hend
    have g1 := (getlines_good_iff c1).mpr hend
    have g2 := (getlines_good_iff c2).mpr he
    rw [parseLines_withoutOutsideLines h _ ParseState.init g1,
      parseLines_withoutOutsideLines h _ ParseState.init g2]
    unfold fileLines at hlines
    have hinit : ParseState.init.in_main_section = false := rfl
    rw [hinit, hlines]
  | false =>
    rw [he] at hend
    rw [parseLines_unterminated h c1 _ hend, parseLines_unterminated h c2 _ he]

set_option maxRecDepth 100000 in
/-- C25, the defect: the entry files `entryWithOpenAction` and
`entryWithoutAction` differ only in the line `Exec=gvim` under
`[Desktop Action new]`, yet `ParseDesktopFile` returns nothing for the first
and the record with the exec `vim %f` for the second: the first ends without a
newline, `good()` is `false` after its last line has been read and the test of
line 525 rejects the file, while `GetBestMimeMatchRank` reads the same file to
its end and gives it a rank. The end of the file is the only way in which a
line outside the main section is felt: two contents that have the same lines
once the lines outside the main section are left out get the same result when
they end alike, and equal records whenever a record is returned for both. -/
theorem C25_unterminated_outside_line_rejects_entry :
    withoutOutsideLines false (fileLines entryWithOpenAction)
        = withoutOutsideLines false (fileLines entryWithoutAction)
    ∧ ParseDesktopFile (hostWithFile exampleHost entryWithOpenAction) "/a/vim.desktop".toList
        = none
    ∧ ParseDesktopFile (hostWithFile exampleHost entryWithoutAction) "/a/vim.desktop".toList
        = some ⟨false, "Vim".toList, "vim %f".toList, "text/plain;".toList,
            "/a/vim.desktop".toList⟩
    ∧ GetBestMimeMatchRank (hostWithFile exampleHost entryWithOpenAction)
        "/a/vim.desktop".toList ["text/plain".toList] = some 0
    ∧ ParseDesktopFile (hostWithFile exampleHost entryWithAction) "/a/vim.desktop".toList
        = ParseDesktopFile (hostWithFile exampleHost entryWithoutAction) "/a/vim.desktop".toList
    ∧ (∀ (h : Host) (path c1 c2 : List Char),
        withoutOutsideLines false (fileLines c1) = withoutOutsideLines false (fileLines c2) →
        endsWithNewline c1 = endsWithNewline c2 →
        ParseDesktopFile (hostWithFile h c1) path = ParseDesktopFile (hostWithFile h c2) path)
    ∧ (∀ (h : Host) (path c1 c2 : List Char) (info1 info2 : CandidateInfo),
        withoutOutsideLines false (fileLines c1) = withoutOutsideLines false (fileLines c2) →
        ParseDesktopFile (hostWithFile h c1) path = some info1 →
        ParseDesktopFile (hostWithFile h c2) path = some info2 → info1 = info2) := by
  refine ⟨by decide, by decide, by decide, by decide, ?_, ParseDesktopFile_outside, ?_⟩
  · exact ParseDesktopFile_outside exampleHost _ entryWithAction entryWithoutAction
      (by decide) (by decide)
  · intro h path c1 c2 info1 info2 hlines h1 h2
    have e1 := ParseDesktopFile_some_terminated h path c1 info1 h1
    have e2 := ParseDesktopFile_some_terminated h path c2 info2 h2
    have := ParseDesktopFile_outside h path c1 c2 hlines (e1.trans e2.symm)
    rw [h1, h2] at this
    exact Option.some.inj this
